import Mathlib

/-!
Compression son et images: verification development.

Shallow embedding of the C sources of `TP_DCT` (`entier.c`, `sf.c`,
`ondelette.c`) and proofs of the properties stated for them.

Conventions of the embedding.

* A bit stream is a `List Bool` (`true` is the bit 1).  A writer returns the
  bits it appends to the stream, a reader takes the unread bits and returns
  its result together with the bits left unread.
* `none` stands for a run that has no result in C: a read past the end of
  the stream, an access outside an array, or a loop that does not terminate.
* `float` values are taken in exact arithmetic (`ℚ`).
-/

namespace Codec

/-! ## Bit stream primitives (`bits.h`, external) -/

/-- Modelled from the spec: `put_bit` of `bits.h` (not among the sources)
appends one bit to the stream. -/
def put_bit (v : Bool) : List Bool := [v]

/-- Modelled from the spec: `put_bits(b, n, v)` of `bits.h` (not among the
sources) writes the low `n` bits of `v`, most significant bit first. -/
def put_bits : Nat → Nat → List Bool
  | 0, _ => []
  | n + 1, v => v.testBit n :: put_bits n v

/-- Modelled from the spec: `put_bit_string` of `bits.h` (not among the
sources) writes one bit per character of a string of 0 and 1 characters. -/
def put_bit_string (s : String) : List Bool :=
  s.toList.map (fun c => decide (c = '1'))

/-- Modelled from the spec: `get_bit` of `bits.h` (not among the sources)
reads the next bit of the stream; there is no result once the stream is
exhausted. -/
def get_bit : List Bool → Option (Bool × List Bool)
  | [] => none
  | v :: reste => some (v, reste)

/-- Modelled from the spec: the loop of `get_bits` of `bits.h` (not among the
sources): `n` bits are read, most significant first, after the bits already
gathered in `acc`. -/
def get_bits_boucle : Nat → Nat → List Bool → Option (Nat × List Bool)
  | 0, acc, b => some (acc, b)
  | _ + 1, _, [] => none
  | n + 1, acc, v :: reste => get_bits_boucle n (2 * acc + v.toNat) reste

/-- Modelled from the spec: `get_bits(b, n)` of `bits.h` (not among the
sources) reads `n` bits, most significant first, into an unsigned value. -/
def get_bits (n : Nat) (b : List Bool) : Option (Nat × List Bool) :=
  get_bits_boucle n 0 b

/-- Modelled from the spec: the loop of `nb_bits_utile` of `bits.h` (not
among the sources): count the right shifts that bring the argument to 0. -/
def nb_bits_utile_boucle : Nat → Nat → Nat
  | 0, _ => 0
  | n + 1, f => if f = 0 then 0 else nb_bits_utile_boucle n (f / 2) + 1

/-- Modelled from the spec: `nb_bits_utile` of `bits.h` (not among the
sources) is the number of significant bits of its `unsigned int` argument,
0 for 0: at most 32 right shifts reach 0. -/
def nb_bits_utile (f : Nat) : Nat := nb_bits_utile_boucle 32 f

/-! ## Static integer codes (`entier.c`) -/

/-- The table `prefixes` of `entier.c`, 16 entries. -/
def prefixes : List String :=
  ["00", "010", "011", "1000", "1001", "1010", "1011",
   "11000", "11001", "11010", "11011", "11100",
   "11101", "11110", "111110", "111111"]

/-- The function `put_entier` of `entier.c`.  The argument is an
`unsigned int`; `prefixes[nb]` outside the 16 entries of the table has no
result. -/
def put_entier (f : Nat) : Option (List Bool) :=
  let nb := nb_bits_utile f
  match prefixes.get? nb with
  | none => none
  | some p => some (put_bit_string p ++ (if nb > 0 then put_bits (nb - 1) f else []))

/-- The decision tree at the head of `get_entier` (`entier.c`): it reads the
prefix bit by bit and yields the initial value of `entier`, the number `nb`
of suffix bits, and the unread bits. -/
def get_entier_prefixe : List Bool → Option (Nat × Nat × List Bool)
  | false :: false :: b => some (0, 0, b)
  | false :: true :: false :: b => some (1, 0, b)
  | false :: true :: true :: b => some (2, 1, b)
  | true :: false :: false :: false :: b => some (4, 2, b)
  | true :: false :: false :: true :: b => some (8, 3, b)
  | true :: false :: true :: false :: b => some (16, 4, b)
  | true :: false :: true :: true :: b => some (32, 5, b)
  | true :: true :: false :: false :: false :: b => some (64, 6, b)
  | true :: true :: false :: false :: true :: b => some (128, 7, b)
  | true :: true :: false :: true :: false :: b => some (256, 8, b)
  | true :: true :: false :: true :: true :: b => some (512, 9, b)
  | true :: true :: true :: false :: false :: b => some (1024, 10, b)
  | true :: true :: true :: false :: true :: b => some (2048, 11, b)
  | true :: true :: true :: true :: false :: b => some (4096, 12, b)
  | true :: true :: true :: true :: true :: false :: b => some (8192, 13, b)
  | true :: true :: true :: true :: true :: true :: b => some (16384, 14, b)
  | _ => none

/-- The suffix loop of `get_entier`: `suf = suf * 2 + get_bit(b)`, `nb`
times. -/
def get_entier_suffixe : Nat → Nat → List Bool → Option (Nat × List Bool)
  | 0, suf, b => some (suf, b)
  | nb + 1, suf, b =>
    match get_bit b with
    | none => none
    | some (v, reste) => get_entier_suffixe nb (suf * 2 + v.toNat) reste

/-- The function `get_entier` of `entier.c`. -/
def get_entier (b : List Bool) : Option (Nat × List Bool) :=
  match get_entier_prefixe b with
  | none => none
  | some (entier, nb, b1) =>
    match get_entier_suffixe nb 0 b1 with
    | none => none
    | some (suf, b2) => some (entier + suf, b2)

/-- The function `put_entier_signe` of `entier.c`; the biased value is passed
to `put_entier` as an `unsigned int`. -/
def put_entier_signe (i : Int) : Option (List Bool) :=
  if i < 0 then
    (put_entier (-i - 1).toNat).map (fun bits => put_bit true ++ bits)
  else
    (put_entier i.toNat).map (fun bits => put_bit false ++ bits)

/-- Conversion of an `unsigned int` to `int` (two's complement, 32 bits). -/
def vers_int (u : Nat) : Int :=
  if u % 2 ^ 32 < 2 ^ 31 then ((u % 2 ^ 32 : Nat) : Int) else ((u % 2 ^ 32 : Nat) : Int) - 2 ^ 32

/-- The value of an `int` that receives the exact result `z` of an operation
on `int`s: the 32 low bits of `z`, read in two's complement, which is what the
compiled program holds when the exact result leaves the range of `int`. -/
def tronque_int (z : Int) : Int := (z + 2147483648) % 4294967296 - 2147483648

/-- The function `get_entier_signe` of `entier.c`.  `-get_entier(b) - 1` is
computed on `unsigned int` (modulo 2^32) and converted to `int`. -/
def get_entier_signe (b : List Bool) : Option (Int × List Bool) :=
  match get_bit b with
  | none => none
  | some (true, b1) =>
    (get_entier b1).map
      (fun r => (vers_int ((2 ^ 32 - r.1 % 2 ^ 32 + (2 ^ 32 - 1)) % 2 ^ 32), r.2))
  | some (false, b1) =>
    (get_entier b1).map (fun r => (vers_int r.1, r.2))


/-! ## Wavelets (`ondelette.c`) -/

/-- A `float *`: the cells reachable from a pointer, indexed from 0. -/
abbrev Ligne := Nat → ℚ

/-- The statement `*sortie++ = v`: the state is the array written to and the
position of the cursor `sortie` in it. -/
def ecrit (s : Ligne × Nat) (v : ℚ) : Ligne × Nat :=
  (Function.update s.1 s.2 v, s.2 + 1)

/-- The function `ondelette_1d` of `ondelette.c`; the result is the array
`sortie` after the call. -/
def ondelette_1d (entree sortie : Ligne) (nbe : Nat) : Ligne :=
  let s1 := (List.range (nbe / 2)).foldl
    (fun s i => ecrit s ((entree (2 * i) + entree (2 * i + 1)) / 2)) (sortie, 0)
  let s2 := if nbe % 2 = 1 then ecrit s1 (entree (nbe - 1)) else s1
  let s3 := (List.range (nbe / 2)).foldl
    (fun s i => ecrit s ((entree (2 * i) - entree (2 * i + 1)) / 2)) s2
  s3.1

/-- The function `ondelette_1d_inverse` of `ondelette.c`; the result is the
array `sortie` after the call. -/
def ondelette_1d_inverse (entree sortie : Ligne) (nbe : Nat) : Ligne :=
  let s1 := (List.range (nbe / 2)).foldl
    (fun s i =>
      let sum := entree i
      let diff := if nbe % 2 = 1 then entree (nbe / 2 + i + 1) else entree (nbe / 2 + i)
      ecrit (ecrit s (sum + diff)) (sum - diff)) (sortie, 0)
  let s2 := if nbe % 2 = 1 then ecrit s1 (entree (nbe / 2)) else s1
  s2.1

/-- The array holding the values of a list, 0 beyond its end. -/
def de_liste (l : List ℚ) : Ligne := fun i => l.getD i 0

/-- The first `n` cells of an array. -/
def vers_liste (f : Ligne) (n : Nat) : List ℚ := (List.range n).map f

/-- The type `Matrice` of `matrice.h`: a shape and the cells `t[j][i]`. -/
structure Matrice where
  height : Nat
  width : Nat
  t : Nat → Ligne

/-- Modelled from the spec: `allocation_matrice_float(h, w)` of `matrice.c`
(not among the sources) returns a fresh matrix of the given shape.  Its cells
are taken as 0; the transforms write a cell of a fresh matrix before they
read it. -/
def allocation_matrice_float (h w : Nat) : Matrice :=
  { height := h, width := w, t := fun _ _ => 0 }

/-- Modelled from the spec: `transposition_matrice_partielle(A, B, h, w)` of
`matrice.c` (not among the sources) sets `B[i][j] := A[j][i]` for the cells
`(j, i)` of the top-left `h x w` region of `A` and leaves the other cells of
`B` untouched.  The result is `B` after the call. -/
def transposition_matrice_partielle (a b : Matrice) (h w : Nat) : Matrice :=
  { b with t := fun i j => if j < h ∧ i < w then a.t j i else b.t i j }

/-- The loop `for(i = 0; i < n; ++i) f(src->t[i], dst->t[i], nbe)` of
`ondelette_2d` and `ondelette_2d_inverse_recursive`; the result is `dst`
after the loop. -/
def lignes_1d (f : Ligne → Ligne → Nat → Ligne) (src dst : Matrice) (n nbe : Nat) : Matrice :=
  (List.range n).foldl
    (fun d i => { d with t := Function.update d.t i (f (src.t i) (d.t i) nbe) }) dst

/-- The `while` loop of `ondelette_2d`; the result is `image` after the
loop. -/
def ondelette_2d_boucle (image tmp0 tmp1 tmp2 : Matrice) (h w : Nat) : Matrice :=
  if h > 1 ∨ w > 1 then
    let tmp0 := lignes_1d ondelette_1d image tmp0 h w
    let tmp1 := transposition_matrice_partielle tmp0 tmp1 h w
    let tmp2 := lignes_1d ondelette_1d tmp1 tmp2 w h
    let image := transposition_matrice_partielle tmp2 image w h
    ondelette_2d_boucle image tmp0 tmp1 tmp2 ((h + 1) / 2) ((w + 1) / 2)
  else image
termination_by h + w
decreasing_by omega

/-- The function `ondelette_2d` of `ondelette.c`. -/
def ondelette_2d (image : Matrice) : Matrice :=
  let h := image.height
  let w := image.width
  ondelette_2d_boucle image (allocation_matrice_float h w) (allocation_matrice_float w h)
    (allocation_matrice_float w h) h w

/-- The body of `ondelette_2d_inverse_recursive` after its recursive call. -/
def ondelette_2d_inverse_niveau (image : Matrice) (h w : Nat) : Matrice :=
  let tmp0 := allocation_matrice_float image.height image.width
  let tmp1 := allocation_matrice_float image.width image.height
  let tmp2 := allocation_matrice_float image.width image.height
  let tmp0 := lignes_1d ondelette_1d_inverse image tmp0 h w
  let tmp1 := transposition_matrice_partielle tmp0 tmp1 h w
  let tmp2 := lignes_1d ondelette_1d_inverse tmp1 tmp2 w h
  transposition_matrice_partielle tmp2 image w h

/-- The function `ondelette_2d_inverse_recursive` of `ondelette.c`. -/
def ondelette_2d_inverse_recursive (image : Matrice) (h w : Nat) : Matrice :=
  if h > 1 ∨ w > 1 then
    ondelette_2d_inverse_niveau
      (ondelette_2d_inverse_recursive image ((h + 1) / 2) ((w + 1) / 2)) h w
  else ondelette_2d_inverse_niveau image h w
termination_by h + w
decreasing_by omega

/-- The function `ondelette_2d_inverse` of `ondelette.c`. -/
def ondelette_2d_inverse (image : Matrice) : Matrice :=
  ondelette_2d_inverse_recursive image image.height image.width

/-- A 2 x 3 matrix used to instantiate the statements about matrices. -/
def matrice_exemple : Matrice :=
  { height := 2, width := 3, t := fun j i => (j : ℚ) + 2 * (i : ℚ) }


/-! ## Sub-band linearisation (`codage_ondelette`, `decodage_ondelette`) -/

/-- The statement `image->t[j][i] = v`. -/
def Matrice.pose (m : Matrice) (j i : Nat) (v : ℚ) : Matrice :=
  { m with t := Function.update m.t j (Function.update (m.t j) i v) }

/-- The two nested `for` loops of `codage_ondelette` on the region
`hau x lar`: `if (j >= (hau+1)/2 || i >= (lar+1)/2) *pt++ = image->t[j][i]`.
The state is the buffer `t` and the position of `pt` in it. -/
def codage_niveau (image : Matrice) (hau lar : Nat) (s : Ligne × Nat) : Ligne × Nat :=
  (List.range hau).foldl
    (fun s j =>
      (List.range lar).foldl
        (fun s i =>
          if j ≥ (hau + 1) / 2 ∨ i ≥ (lar + 1) / 2 then ecrit s (image.t j i) else s) s) s

/-- The loop `while (hau != 1 || lar != 1)` of `codage_ondelette`.  The first
argument bounds the number of passes: `none` when it is exhausted. -/
def codage_boucle (image : Matrice) : Nat → Nat → Nat → Ligne × Nat → Option (Ligne × Nat)
  | 0, hau, lar, s => if hau ≠ 1 ∨ lar ≠ 1 then none else some s
  | n + 1, hau, lar, s =>
    if hau ≠ 1 ∨ lar ≠ 1 then
      codage_boucle image n ((hau + 1) / 2) ((lar + 1) / 2) (codage_niveau image hau lar s)
    else some s

/-- The conversion of the matrix into the linear table `t` at the head of
`codage_ondelette`, up to `*pt = image->t[0][0]`.  The argument `t` is the
buffer as allocated; the result is the buffer and the position of `pt`, the
index of the last write.  The loop halves `hau + lar` until both are 1, so
`height + width` passes are allowed. -/
def codage_ondelette_table (image : Matrice) (t : Ligne) : Option (Ligne × Nat) :=
  (codage_boucle image (image.height + image.width) image.height image.width (t, 0)).map
    (fun s => (Function.update s.1 s.2 (image.t 0 0), s.2))

/-- The two nested `for` loops of `decodage_ondelette` on the region
`hauteur x largeur`: `image->t[j][i] = *pt++` under the same test.  The
state is the matrix and the position of `pt` in the buffer `t`. -/
def decodage_niveau (t : Ligne) (hauteur largeur : Nat) (s : Matrice × Nat) : Matrice × Nat :=
  (List.range hauteur).foldl
    (fun s j =>
      (List.range largeur).foldl
        (fun s i =>
          if j ≥ (hauteur + 1) / 2 ∨ i ≥ (largeur + 1) / 2 then
            (s.1.pose j i (t s.2), s.2 + 1)
          else s) s) s

/-- The loop `while (hauteur != 1 || largeur != 1)` of `decodage_ondelette`,
with a bound on the number of passes. -/
def decodage_boucle (t : Ligne) : Nat → Nat → Nat → Matrice × Nat → Option (Matrice × Nat)
  | 0, hauteur, largeur, s => if hauteur ≠ 1 ∨ largeur ≠ 1 then none else some s
  | n + 1, hauteur, largeur, s =>
    if hauteur ≠ 1 ∨ largeur ≠ 1 then
      decodage_boucle t n ((hauteur + 1) / 2) ((largeur + 1) / 2)
        (decodage_niveau t hauteur largeur s)
    else some s

/-- The tail of `decodage_ondelette`, from `pt = t` to
`image->t[0][0] = *pt++`: the linear table `t` is put back in the matrix. -/
def decodage_ondelette_table (image : Matrice) (t : Ligne) : Option Matrice :=
  (decodage_boucle t (image.height + image.width) image.height image.width (image, 0)).map
    (fun s => s.1.pose 0 0 (t s.2))

/-- Reference order, from the specification: the cells `(j, i)` of the
region `h x w` with `j >= ceil(h/2)` or `i >= ceil(w/2)`, in row-major
order. -/
def cellules_niveau (h w : Nat) : List (Nat × Nat) :=
  ((List.range h).product (List.range w)).filter
    (fun c => decide (c.1 ≥ (h + 1) / 2 ∨ c.2 ≥ (w + 1) / 2))

/-- Reference order, from the specification: the cells of each level, from
the full region down to the region where `h` and `w` are at most 1. -/
def ordre_niveaux (h w : Nat) : List (Nat × Nat) :=
  if h > 1 ∨ w > 1 then cellules_niveau h w ++ ordre_niveaux ((h + 1) / 2) ((w + 1) / 2)
  else []
termination_by h + w
decreasing_by omega

/-- Reference order, from the specification: every level in turn, then the
cell `(0, 0)` last. -/
def ordre_sous_bandes (h w : Nat) : List (Nat × Nat) :=
  ordre_niveaux h w ++ [(0, 0)]


/-! ## Adaptive Shannon-Fano (`sf.c`)

The counters `nb_occurrences` and the running sums are C `int`s: the
increment of `incremente_et_ordonne` and the sums and differences of
`trouve_separation` keep the 32 low bits of their exact result
(`tronque_int`).  The array `evenements[200000]` is the list of its first
`nb_evenements` cells; writing a cell past the 200000 of the array has no
result. -/

/-- The constant `VALEUR_ESCAPE` of `sf.c`. -/
def VALEUR_ESCAPE : Int := 0x7fffffff

/-- The type `struct evenement` of `sf.c`. -/
structure evenement where
  valeur : Int
  nb_occurrences : Int
deriving DecidableEq

/-- The type `struct shannon_fano` of `sf.c`: the cells
`evenements[0 .. nb_evenements - 1]`. -/
structure shannon_fano where
  evenements : List evenement
deriving DecidableEq

/-- The field `nb_evenements`. -/
def shannon_fano.nb_evenements (sf : shannon_fano) : Nat := sf.evenements.length

/-- The number of cells of the array `evenements` in `struct shannon_fano`. -/
def TAILLE_EVENEMENTS : Nat := 200000

/-- The cell `sf->evenements[i]`, read inside the cells in use. -/
def shannon_fano.evenement (sf : shannon_fano) (i : Nat) : evenement :=
  sf.evenements.getD i { valeur := 0, nb_occurrences := 0 }

/-- The function `open_shannon_fano` of `sf.c`. -/
def open_shannon_fano : shannon_fano :=
  { evenements := [{ valeur := VALEUR_ESCAPE, nb_occurrences := 1 }] }

/-- One of the two loops of `trouve_position`:
`for (i...) if (v == evenements[i].valeur) return i`, from index `i` on. -/
def trouve_valeur (v : Int) : List evenement → Nat → Option Nat
  | [], _ => none
  | e :: reste, i => if v = e.valeur then some i else trouve_valeur v reste (i + 1)

/-- The function `trouve_position` of `sf.c`; `none` stands for the result
`-1`. -/
def trouve_position (sf : shannon_fano) (evenement : Int) : Option Nat :=
  match trouve_valeur evenement sf.evenements 0 with
  | some i => some i
  | none => trouve_valeur VALEUR_ESCAPE sf.evenements 0

/-- The first loop of `trouve_separation`: the sum `tot_occ`. -/
def somme_occurrences (sf : shannon_fano) : Int :=
  sf.evenements.foldl (fun tot_occ e => tronque_int (tot_occ + e.nb_occurrences)) 0

/-- The second loop of `trouve_separation`, with `n` passes left, at index
`i`; `none` when the loop ends without `return`. -/
def trouve_separation_boucle (sf : shannon_fano) (tot_occ : Int) : Nat → Nat → Int → Option Nat
  | 0, _, _ => none
  | n + 1, i, min_tot =>
    let min_tot := tronque_int (min_tot + (sf.evenement i).nb_occurrences)
    let max_tot := tronque_int (tot_occ - min_tot)
    if tronque_int (min_tot - max_tot) > 0 then some i
    else trouve_separation_boucle sf tot_occ n (i + 1) min_tot

/-- The function `trouve_separation` of `sf.c`. -/
def trouve_separation (sf : shannon_fano) (position_min position_max : Nat) : Nat :=
  match trouve_separation_boucle sf (somme_occurrences sf) (position_max - position_min)
      position_min 0 with
  | some i => i
  | none => position_min

/-- The loop `while (posmin != posmax)` of `encode_position`.  The first
argument bounds the number of passes: `none` when it is exhausted. -/
def encode_position_boucle (sf : shannon_fano) (position : Nat) :
    Nat → Nat → Nat → Option (List Bool)
  | 0, posmin, posmax => if posmin ≠ posmax then none else some []
  | n + 1, posmin, posmax =>
    if posmin ≠ posmax then
      let sep := trouve_separation sf posmin posmax
      if position ≤ sep then
        (encode_position_boucle sf position n posmin sep).map (fun bits => put_bit false ++ bits)
      else
        (encode_position_boucle sf position n (sep + 1) posmax).map
          (fun bits => put_bit true ++ bits)
    else some []

/-- The function `encode_position` of `sf.c`, on a table with at least one
event.  Each pass shrinks `posmax - posmin`, so `nb_evenements` passes are
allowed. -/
def encode_position (sf : shannon_fano) (position : Nat) : Option (List Bool) :=
  encode_position_boucle sf position sf.nb_evenements 0 (sf.nb_evenements - 1)

/-- The loop `while (i >= 0 && nb == evenements[i].nb_occurrences) i--` of
`incremente_et_ordonne`: the argument and the result are `i + 1`. -/
def remonte (sf : shannon_fano) (nb : Int) : Nat → Nat
  | 0 => 0
  | k + 1 => if nb = (sf.evenement k).nb_occurrences then remonte sf nb k else k + 1

/-- The function `incremente_et_ordonne` of `sf.c`, for a `position` inside
the table.  The counter is an `int`: `nb_occurrences++` keeps the 32 low bits
of the sum. -/
def incremente_et_ordonne (sf : shannon_fano) (position : Nat) : shannon_fano :=
  let nb := (sf.evenement position).nb_occurrences
  let i1 := remonte sf nb position
  let sf1 : shannon_fano :=
    { evenements := sf.evenements.set position
        { valeur := (sf.evenement position).valeur, nb_occurrences := tronque_int (nb + 1) } }
  let temp := sf1.evenement i1
  let sf2 : shannon_fano := { evenements := sf1.evenements.set i1 (sf1.evenement position) }
  { evenements := sf2.evenements.set position temp }

/-- The three statements that append `{evenement, 1}` to the table in
`put_entier_shannon_fano` and `get_entier_shannon_fano`; no result when the
array `evenements` is full. -/
def ajoute_evenement (sf : shannon_fano) (evenement : Int) : Option shannon_fano :=
  if sf.nb_evenements < TAILLE_EVENEMENTS then
    some { evenements := sf.evenements ++ [{ valeur := evenement, nb_occurrences := 1 }] }
  else none

/-- The function `put_entier_shannon_fano` of `sf.c`: the bits written and
the table after the call.  `sizeof(evenement) * 8` is 32 and the `int` is
passed to `put_bits` as its 32-bit unsigned value. -/
def put_entier_shannon_fano (sf : shannon_fano) (evenement : Int) :
    Option (List Bool × shannon_fano) :=
  match trouve_position sf evenement with
  | none => none
  | some pos =>
    match encode_position sf pos with
    | none => none
    | some bits =>
      if (sf.evenement pos).valeur = VALEUR_ESCAPE then
        match ajoute_evenement sf evenement with
        | none => none
        | some sf1 =>
          some (bits ++ put_bits 32 (evenement % 2 ^ 32).toNat, incremente_et_ordonne sf1 pos)
      else some (bits, incremente_et_ordonne sf pos)

/-- The loop `while (min != max)` of `decode_position`, with a bound on the
number of passes. -/
def decode_position_boucle (sf : shannon_fano) :
    Nat → Nat → Nat → List Bool → Option (Nat × List Bool)
  | 0, min, max, bs => if min ≠ max then none else some (min, bs)
  | n + 1, min, max, bs =>
    if min ≠ max then
      let s := trouve_separation sf min max
      match get_bit bs with
      | none => none
      | some (true, reste) => decode_position_boucle sf n (s + 1) max reste
      | some (false, reste) => decode_position_boucle sf n min s reste
    else some (min, bs)

/-- The function `decode_position` of `sf.c`, on a table with at least one
event. -/
def decode_position (sf : shannon_fano) (bs : List Bool) : Option (Nat × List Bool) :=
  decode_position_boucle sf sf.nb_evenements 0 (sf.nb_evenements - 1) bs

/-- The function `get_entier_shannon_fano` of `sf.c`: the value returned, the
table after the call and the unread bits.  `8 * sizeof(int)` is 32 and the
unsigned value read is converted to `int`. -/
def get_entier_shannon_fano (sf : shannon_fano) (bs : List Bool) :
    Option (Int × shannon_fano × List Bool) :=
  match decode_position sf bs with
  | none => none
  | some (p, bs1) =>
    if (sf.evenement p).valeur = VALEUR_ESCAPE then
      match get_bits 32 bs1 with
      | none => none
      | some (u, bs2) =>
        match ajoute_evenement sf (vers_int u) with
        | none => none
        | some sf1 => some (vers_int u, incremente_et_ordonne sf1 p, bs2)
    else some ((sf.evenement p).valeur, incremente_et_ordonne sf p, bs1)

/-- Coding of a sequence of values, one call of `put_entier_shannon_fano`
per value: all the bits written and the table after each call. -/
def put_suite_shannon_fano (sf : shannon_fano) :
    List Int → Option (List Bool × List shannon_fano)
  | [] => some ([], [])
  | v :: suite =>
    match put_entier_shannon_fano sf v with
    | none => none
    | some (bits, sf1) =>
      match put_suite_shannon_fano sf1 suite with
      | none => none
      | some (bits2, tables) => some (bits ++ bits2, sf1 :: tables)

/-- Decoding of `n` values, one call of `get_entier_shannon_fano` per value:
the values, the table after each call and the unread bits. -/
def get_suite_shannon_fano (sf : shannon_fano) :
    Nat → List Bool → Option (List Int × List shannon_fano × List Bool)
  | 0, bs => some ([], [], bs)
  | n + 1, bs =>
    match get_entier_shannon_fano sf bs with
    | none => none
    | some (v, sf1, bs1) =>
      match get_suite_shannon_fano sf1 n bs1 with
      | none => none
      | some (valeurs, tables, bs2) => some (v :: valeurs, sf1 :: tables, bs2)

/-- A call on a table: `put_entier_shannon_fano` of a value, or
`get_entier_shannon_fano` on a bit stream. -/
inductive appel where
  | put (evenement : Int)
  | get (bs : List Bool)

/-- The table after one call. -/
def appel.applique (sf : shannon_fano) : appel → Option shannon_fano
  | appel.put evenement => (put_entier_shannon_fano sf evenement).map (fun r => r.2)
  | appel.get bs => (get_entier_shannon_fano sf bs).map (fun r => r.2.1)

/-- The table after a sequence of calls. -/
def applique_suite (sf : shannon_fano) : List appel → Option shannon_fano
  | [] => some sf
  | a :: suite =>
    match a.applique sf with
    | none => none
    | some sf1 => applique_suite sf1 suite

/-- The counts are non-increasing by index. -/
def shannon_fano.triee (sf : shannon_fano) : Prop :=
  ∀ k, k + 1 < sf.nb_evenements →
    (sf.evenement (k + 1)).nb_occurrences ≤ (sf.evenement k).nb_occurrences

/-- An event of the table has the value `VALEUR_ESCAPE`. -/
def shannon_fano.a_escape (sf : shannon_fano) : Prop :=
  ∃ k, k < sf.nb_evenements ∧ (sf.evenement k).valeur = VALEUR_ESCAPE

/-- The invariant of the table: counts non-increasing and at least 1, and
`VALEUR_ESCAPE` present. -/
def shannon_fano.invariant (sf : shannon_fano) : Prop :=
  sf.triee ∧ sf.a_escape ∧ ∀ k, k < sf.nb_evenements → 1 ≤ (sf.evenement k).nb_occurrences

/-- The two nested `for` loops of `quantif_ondelette` on the region `h x w`:
`if (i > halfh || j > halfw) image->t[i][j] /= qualite`. -/
def quantif_niveau (image : Matrice) (h w : Nat) (qualite : ℚ) : Matrice :=
  let halfh := h / 2 + 1
  let halfw := w / 2 + 1
  (List.range h).foldl
    (fun m i =>
      (List.range w).foldl
        (fun m j => if i > halfh ∨ j > halfw then m.pose i j (m.t i j / qualite) else m) m)
    image

/-- The `while` loop of `quantif_ondelette`.  Each pass divides `qualite` by 8
and the loop stops once `qualite <= 1`. -/
def quantif_ondelette_boucle (image : Matrice) (h w : Nat) (qualite : ℚ) : Matrice :=
  if hq : qualite > 1 ∧ (h > 1 ∨ w > 1) then
    quantif_ondelette_boucle (quantif_niveau image h w qualite) (h / 2 + 1) (w / 2 + 1)
      (qualite / 8)
  else image
termination_by Nat.ceil qualite
decreasing_by
  apply Nat.lt_ceil.2
  by_cases h8 : qualite ≤ 8
  · have : Nat.ceil (qualite / 8) ≤ 1 := Nat.ceil_le.2 (by push_cast; linarith)
    have : ((Nat.ceil (qualite / 8) : Nat) : ℚ) ≤ 1 := by exact_mod_cast this
    linarith
  · have := Nat.ceil_lt_add_one (show (0 : ℚ) ≤ qualite / 8 by linarith)
    linarith

/-- The function `quantif_ondelette` of `ondelette.c`. -/
def quantif_ondelette (image : Matrice) (qualite : ℚ) : Matrice :=
  quantif_ondelette_boucle image image.height image.width qualite

/-- The product of the qualities that the loop of `quantif_ondelette`, run
from the region `h x w` with quality `qualite`, applies to the cell
`(i, j)`. -/
def facteur_quantif (h w : Nat) (qualite : ℚ) (i j : Nat) : ℚ :=
  if qualite > 1 ∧ (h > 1 ∨ w > 1) then
    (if i < h ∧ j < w ∧ (i > h / 2 + 1 ∨ j > w / 2 + 1) then qualite else 1) *
      facteur_quantif (h / 2 + 1) (w / 2 + 1) (qualite / 8) i j
  else 1
termination_by Nat.ceil qualite
decreasing_by
  apply Nat.lt_ceil.2
  by_cases h8 : qualite ≤ 8
  · have : Nat.ceil (qualite / 8) ≤ 1 := Nat.ceil_le.2 (by push_cast; linarith)
    have : ((Nat.ceil (qualite / 8) : Nat) : ℚ) ≤ 1 := by exact_mod_cast this
    linarith
  · have := Nat.ceil_lt_add_one (show (0 : ℚ) ≤ qualite / 8 by linarith)
    linarith

/-- Reference procedure, from the specification: starting from the region
`h x w`, while `q > 1` and the region is not `1 x 1`, divide by `q` the
coefficients `(i, j)` of the region with `i > seuil h` or `j > seuil w`, then
go on with the region `suivant h x suivant w` and the quality `q / 8`.  The
specification has `seuil h = ceil(h/2)` and `suivant h = ceil(h/2) + 1`. -/
def quantif_reference (seuil suivant : Nat → Nat) (t : Nat → Ligne) (h w : Nat) (q : ℚ) :
    Nat → Ligne :=
  if hq : q > 1 ∧ ¬ (h = 1 ∧ w = 1) then
    quantif_reference seuil suivant
      (fun i j => if i < h ∧ j < w ∧ (i > seuil h ∨ j > seuil w) then t i j / q else t i j)
      (suivant h) (suivant w) (q / 8)
  else t
termination_by Nat.ceil q
decreasing_by
  apply Nat.lt_ceil.2
  by_cases h8 : q ≤ 8
  · have : Nat.ceil (q / 8) ≤ 1 := Nat.ceil_le.2 (by push_cast; linarith)
    have : ((Nat.ceil (q / 8) : Nat) : ℚ) ≤ 1 := by exact_mod_cast this
    linarith
  · have := Nat.ceil_lt_add_one (show (0 : ℚ) ≤ q / 8 by linarith)
    linarith

/-- A 4 x 4 matrix of ones. -/
def matrice_uns : Matrice :=
  { height := 4, width := 4, t := fun _ _ => 1 }

/-- A 9 x 9 matrix of ones. -/
def matrice_uns_9 : Matrice :=
  { height := 9, width := 9, t := fun _ _ => 1 }


/-! ## Quantisation of a DCT block (`jpg.c`) -/

/-- The expression `1 + (i+j+1)*qualite` of `quantification`, computed on
`int`: each operation keeps the 32 low bits of its exact result. -/
def pas_quantification (i j : Nat) (qualite : Int) : Int :=
  tronque_int (1 + tronque_int (tronque_int ((i : Int) + (j : Int) + 1) * qualite))

/-- The function `quantification` of `jpg.c`.  The step `1 + (i+j+1)*qualite`
is computed on `int` (`pas_quantification`) and converted to `float`. -/
def quantification (nbe : Nat) (qualite : Int) (extrait : Matrice) (inverse : Int) : Matrice :=
  (List.range nbe).foldl
    (fun m (i : Nat) =>
      (List.range nbe).foldl
        (fun m (j : Nat) =>
          let quant : ℚ := ((pas_quantification i j qualite : Int) : ℚ)
          let quant := if inverse = 0 then 1 / quant else quant
          m.pose i j (m.t i j * quant)) m)
    extrait

/-! ## Psychoacoustic mask (`psycho.c`) -/

/-- The body of the inner loop of `psycho`, for the amplitude `A1` held by
the outer loop; `ABS` of `bases.h` is the absolute value. -/
def psycho_paire (c : ℚ) (A1 : ℚ) (F1 F2 : Nat) (dct : Ligne) : Ligne :=
  let A2 := dct F2
  if c * |A1| < |A2 / (((F2 : Int) - (F1 : Int) : Int) : ℚ)| then Function.update dct F1 0
  else if c * |A2| < |A1 / (((F2 : Int) - (F1 : Int) : Int) : ℚ)| then Function.update dct F2 0
  else dct

/-- The function `psycho` of `psycho.c`; the result is the array `dct` after
the call. -/
def psycho (nbe : Nat) (dct : Ligne) (c : ℚ) : Ligne :=
  (List.range' 1 (nbe - 1)).foldl
    (fun dct F1 =>
      let A1 := dct F1
      (List.range' (F1 + 1) (nbe - (F1 + 1))).foldl
        (fun dct F2 => psycho_paire c A1 F1 F2 dct) dct)
    dct

/-- Reference step for one pair, from the specification: with the amplitudes
`A1` of `F1` and `A2` of `F2`, set `dct[F1] := 0` if
`c * |A1| < |A2 / (F2 - F1)|`, and otherwise set `dct[F2] := 0` if
`c * |A2| < |A1 / (F2 - F1)|`.  It is written on its own, without the body of
the loop of `psycho`. -/
def psycho_reference_paire (c A1 A2 : ℚ) (F1 F2 : Nat) (d : Ligne) : Ligne :=
  fun k =>
    if c * |A1| < |A2 / ((F2 : ℚ) - (F1 : ℚ))| then (if k = F1 then 0 else d k)
    else if c * |A2| < |A1 / ((F2 : ℚ) - (F1 : ℚ))| then (if k = F2 then 0 else d k)
    else d k

/-- Reference pass, from the specification: every pair `1 <= F1 < F2 < nbe`
in turn, `F1` outer and `F2` inner, both ascending, with `A1` and `A2` the
current values of `dct[F1]` and `dct[F2]` when the pair is inspected. -/
def psycho_reference (nbe : Nat) (dct : Ligne) (c : ℚ) : Ligne :=
  (((List.range nbe).product (List.range nbe)).filter
      (fun p => decide (1 ≤ p.1 ∧ p.1 < p.2))).foldl
    (fun d p => psycho_reference_paire c (d p.1) (d p.2) p.1 p.2 d) dct

/-- Reference pass with `A1` read once per `F1`: for every `F1` from 1 on,
ascending, `A1` is the value of `dct[F1]` when `F1` is reached, and every
`F2` with `F1 < F2 < nbe` is inspected in turn, ascending, with `A2` the
current value of `dct[F2]`. -/
def psycho_reference_ligne (nbe : Nat) (dct : Ligne) (c : ℚ) : Ligne :=
  ((List.range nbe).filter (fun F1 => decide (1 ≤ F1))).foldl
    (fun d F1 =>
      ((List.range nbe).filter (fun F2 => decide (F1 < F2))).foldl
        (fun d2 F2 => psycho_reference_paire c (d F1) (d2 F2) F1 F2 d2) d)
    dct


/-! ## Discrete cosine transform (`dct.c`, `jpg.c`)

The basis needs square roots and cosines: the cells are taken in a field
`K`, and `sqrt`, `cos` and `M_PI` of `math.h` are arguments of the functions
(`Real.sqrt`, `Real.cos` and `Real.pi` in exact real arithmetic). -/

/-- The type `Matrice` of `matrice.h` with its cells in `K`. -/
structure MatriceSur (K : Type) where
  height : Nat
  width : Nat
  t : Nat → Nat → K

/-- The statement `table->t[j][i] = v`. -/
def MatriceSur.pose {K : Type} (m : MatriceSur K) (j i : Nat) (v : K) : MatriceSur K :=
  { m with t := Function.update m.t j (Function.update (m.t j) i v) }

/-- Modelled from the spec: `allocation_matrice_float(h, w)` of `matrice.c`
(not among the sources), with cells in `K`: a fresh matrix of the given
shape, its cells taken as 0. -/
def allocation_matrice_sur {K : Type} [Field K] (h w : Nat) : MatriceSur K :=
  { height := h, width := w, t := fun _ _ => 0 }

/-- Modelled from the spec: `transposition_matrice(A, B)` of `matrice.c` (not
among the sources) sets `B[j][i] := A[i][j]` for every cell `(i, j)` of `A`.
The result is `B` after the call. -/
def transposition_matrice {K : Type} (a b : MatriceSur K) : MatriceSur K :=
  { b with t := fun j i => if i < a.height ∧ j < a.width then a.t i j else b.t j i }

/-- The function `coef_dct` of `dct.c`; the result is `table` after the
call. -/
def coef_dct {K : Type} [Field K] (racine cosinus : K → K) (pi : K) (table : MatriceSur K) :
    MatriceSur K :=
  let n : K := (table.height : K)
  let sqrtN := racine n
  let sqrtIJ := racine 2 / sqrtN
  (List.range table.height).foldl
    (fun m (j : Nat) =>
      (List.range table.width).foldl
        (fun m (i : Nat) =>
          if j = 0 then m.pose j i (1 / sqrtN)
          else m.pose j i (sqrtIJ * cosinus ((((2 * i + 1) * j : Nat) : K) * pi / (2 * n)))) m)
    table

/-- The sum of the counts of `evenements[a .. b]`, bounds included. -/
def somme_plage (sf : shannon_fano) (a b : Nat) : Int :=
  ((List.range' a (b + 1 - a)).map (fun k => (sf.evenement k).nb_occurrences)).sum

/-- Reference split, from the specification: the first index `i` of
`[lo, hi - 1]` with `2 * left >= total`, where `left` is the sum of the
counts of `events[lo .. i]` and `total` the sum of the counts of
`events[lo .. hi]`. -/
def trouve_separation_reference (sf : shannon_fano) (lo hi : Nat) : Option Nat :=
  (List.range' lo (hi - lo)).find?
    (fun i => decide (2 * somme_plage sf lo i ≥ somme_plage sf lo hi))

/-- The table after one call, with the value coded or decoded by the call. -/
def appel.applique_valeur (sf : shannon_fano) : appel → Option (shannon_fano × Int)
  | appel.put evenement => (put_entier_shannon_fano sf evenement).map (fun r => (r.2, evenement))
  | appel.get bs => (get_entier_shannon_fano sf bs).map (fun r => (r.2.1, r.1))

/-- The table after a sequence of calls, with the values coded or decoded by
the calls. -/
def applique_suite_valeurs (sf : shannon_fano) : List appel → Option (shannon_fano × List Int)
  | [] => some (sf, [])
  | a :: suite =>
    match a.applique_valeur sf with
    | none => none
    | some (sf1, v) =>
      match applique_suite_valeurs sf1 suite with
      | none => none
      | some (sf2, valeurs) => some (sf2, v :: valeurs)

/-- The table reached by coding the values 1, 2, 3, 4 from the initial
table. -/
def table_quatre_valeurs : shannon_fano :=
  { evenements := [{ valeur := VALEUR_ESCAPE, nb_occurrences := 5 },
      { valeur := 1, nb_occurrences := 1 }, { valeur := 2, nb_occurrences := 1 },
      { valeur := 3, nb_occurrences := 1 }, { valeur := 4, nb_occurrences := 1 }] }

/-- Exactly one event of the table has the value `VALEUR_ESCAPE`. -/
def shannon_fano.une_escape (sf : shannon_fano) : Prop :=
  ∃! k, k < sf.nb_evenements ∧ (sf.evenement k).valeur = VALEUR_ESCAPE


/-! ## Adaptive Shannon-Fano: the ranges walked by `encode_position` -/

/-- The loop `while (posmin != posmax)` of `encode_position`, recording the
range `(posmin, posmax)` at each test of the loop instead of the bits
written; the first argument bounds the number of passes. -/
def encode_position_etapes (sf : shannon_fano) (position : Nat) :
    Nat → Nat → Nat → List (Nat × Nat)
  | 0, posmin, posmax => [(posmin, posmax)]
  | n + 1, posmin, posmax =>
    if posmin ≠ posmax then
      let sep := trouve_separation sf posmin posmax
      if position ≤ sep then (posmin, posmax) :: encode_position_etapes sf position n posmin sep
      else (posmin, posmax) :: encode_position_etapes sf position n (sep + 1) posmax
    else [(posmin, posmax)]


/-- The table counts the values of the list `p`: one event per distinct
value of `p`, with the number of occurrences of the value in `p`, and one
escape event whose count is 1 plus the number of distinct values. -/
def shannon_fano.compte (sf : shannon_fano) (p : List Int) : Prop :=
  sf.nb_evenements = 1 + p.toFinset.card ∧
  (∀ k, k < sf.nb_evenements →
    ((sf.evenement k).valeur = VALEUR_ESCAPE ∧
      (sf.evenement k).nb_occurrences = 1 + (p.toFinset.card : Int)) ∨
    ((sf.evenement k).valeur ∈ p ∧
      (sf.evenement k).nb_occurrences = (p.count (sf.evenement k).valeur : Int))) ∧
  (∀ i j, i < sf.nb_evenements → j < sf.nb_evenements →
    (sf.evenement i).valeur = (sf.evenement j).valeur → i = j) ∧
  (∃ k, k < sf.nb_evenements ∧ (sf.evenement k).valeur = VALEUR_ESCAPE) ∧
  ∀ v ∈ p, ∃ k, k < sf.nb_evenements ∧ (sf.evenement k).valeur = v


/-! ## One-dimensional DCT and its static basis (`dct.c`) -/

/-- Modelled from the spec: `produit_matrice_vecteur(A, x, y)` of `matrice.c`
(not among the sources) sets `y[j] := sum over i of A[j][i] * x[i]` for the
rows `j` of `A`.  The result is `y` after the call. -/
def produit_matrice_vecteur {K : Type} [Field K] (a : MatriceSur K) (x y : Nat → K) :
    Nat → K :=
  fun j => if j < a.height then ∑ i ∈ Finset.range a.width, a.t j i * x i else y j

/-- The two `static` variables of the function `dct`, once they are not
`NULL`: the basis `dct` and its transpose `tmp`. -/
structure statique_dct (K : Type) where
  dct : MatriceSur K
  tmp : MatriceSur K

/-- The function `dct` of `dct.c`, its two `static` variables passed as an
explicit state (`none` while they are `NULL`).  The result is the state after
the call and the array `sortie` after the call.  The arrays `entree` and
`sortie` are total functions: the C arrays hold `nbe` cells. -/
def dct {K : Type} [Field K] (racine cosinus : K → K) (pi : K)
    (etat : Option (statique_dct K)) (inverse : Int) (nbe : Nat) (entree sortie : Nat → K) :
    Option (statique_dct K) × (Nat → K) :=
  let s : statique_dct K :=
    match etat with
    | none =>
      let dct := allocation_matrice_sur nbe nbe
      let tmp := allocation_matrice_sur nbe nbe
      let dct := coef_dct racine cosinus pi dct
      { dct := dct, tmp := transposition_matrice dct tmp }
    | some s => s
  if inverse ≠ 0 then (some s, produit_matrice_vecteur s.tmp entree sortie)
  else (some s, produit_matrice_vecteur s.dct entree sortie)

/-- The function `zigzag` of `jpg.c`: the pair `(*y, *x)` after the call.
`v & 1` is the remainder of `v` by 2, 0 or 1 also for a negative `v`.  The
sums stay below `2 * nbe`, far from the bounds of `int` for the sizes of
blocks. -/
def zigzag (nbe : Int) (y x : Int) : Int × Int :=
  let X := x
  let Y := y
  let nImp := nbe % 2
  if X = nbe - 1 ∧ (Y + nImp) % 2 ≠ 0 then (y + 1, x)
  else if Y = nbe - 1 ∧ ¬ ((X + nImp) % 2 ≠ 0) then (y, x + 1)
  else if X = 0 ∧ Y % 2 ≠ 0 then (y + 1, x)
  else if Y = 0 ∧ ¬ (X % 2 ≠ 0) then (y, x + 1)
  else if (X + Y) % 2 ≠ 0 then (y + 1, x - 1)
  else (y - 1, x + 1)

/-- The point `(y, x)` reached from `(0, 0)` after `k` calls of `zigzag`. -/
def zigzag_suite (nbe : Int) : Nat → Int × Int
  | 0 => (0, 0)
  | k + 1 => zigzag nbe (zigzag_suite nbe k).1 (zigzag_suite nbe k).2

/-- The number of cells of the anti-diagonal `y + x = d` in an `N x N`
block. -/
def longueur_diagonale (N d : Nat) : Nat :=
  if d < N then d + 1 else 2 * N - 1 - d

/-- The number of cells of the anti-diagonals before the diagonal `d`. -/
def cellules_avant (N : Nat) : Nat → Nat
  | 0 => 0
  | d + 1 => cellules_avant N d + longueur_diagonale N d

/-- The rank of the cell `(y, x)` in the walk drawn above `zigzag`: the
diagonals in turn, an odd diagonal walked with `y` increasing and an even one
with `x` increasing. -/
def rang_zigzag (N y x : Nat) : Nat :=
  cellules_avant N (y + x) +
    (if (y + x) % 2 = 1 then y - (y + x - (N - 1)) else x - (y + x - (N - 1)))


/-! ## Proofs: static integer codes -/

theorem nb_bits_utile_boucle_spec (n f : Nat) (h : f < 2 ^ n) :
    (f = 0 ∧ nb_bits_utile_boucle n f = 0) ∨
    (0 < nb_bits_utile_boucle n f ∧ 2 ^ (nb_bits_utile_boucle n f - 1) ≤ f ∧
      f < 2 ^ nb_bits_utile_boucle n f) := by
  induction n generalizing f with
  | zero =>
    left
    simp at h
    simp [h, nb_bits_utile_boucle]
  | succ n ih =>
    by_cases hf : f = 0
    · left
      simp [hf, nb_bits_utile_boucle]
    · right
      have h2 : f / 2 < 2 ^ n := by
        rw [pow_succ] at h
        omega
      simp only [nb_bits_utile_boucle, hf, if_false]
      rcases ih (f / 2) h2 with ⟨h0, hk⟩ | ⟨hpos, hlo, hhi⟩
      · rw [hk]
        simp
        omega
      · obtain ⟨k, hk⟩ : ∃ k, nb_bits_utile_boucle n (f / 2) = k + 1 := ⟨_, (Nat.succ_pred_eq_of_pos hpos).symm⟩
        rw [hk] at hlo hhi ⊢
        simp only [Nat.add_sub_cancel] at hlo ⊢
        rw [pow_succ] at hhi ⊢
        refine ⟨by omega, ?_, ?_⟩ <;> omega

theorem nb_bits_utile_spec (f : Nat) (h : f < 2 ^ 32) :
    (f = 0 ∧ nb_bits_utile f = 0) ∨
    (0 < nb_bits_utile f ∧ 2 ^ (nb_bits_utile f - 1) ≤ f ∧ f < 2 ^ nb_bits_utile f) :=
  nb_bits_utile_boucle_spec 32 f h

theorem nb_bits_utile_unique (f k : Nat) (h : f < 2 ^ 32)
    (hk : (f = 0 ∧ k = 0) ∨ (0 < k ∧ 2 ^ (k - 1) ≤ f ∧ f < 2 ^ k)) :
    nb_bits_utile f = k := by
  rcases nb_bits_utile_spec f h with ⟨h0, e⟩ | ⟨hpos, hlo, hhi⟩
  · rcases hk with ⟨_, e2⟩ | ⟨kpos, klo, _⟩
    · rw [e, e2]
    · have : 0 < 2 ^ (k - 1) := Nat.two_pow_pos _
      omega
  · rcases hk with ⟨f0, _⟩ | ⟨kpos, klo, khi⟩
    · have : 0 < 2 ^ (nb_bits_utile f - 1) := Nat.two_pow_pos _
      omega
    · have a : nb_bits_utile f - 1 < k := (Nat.pow_lt_pow_iff_right (by norm_num : 1 < 2)).1 (lt_of_le_of_lt hlo khi)
      have b : k - 1 < nb_bits_utile f := (Nat.pow_lt_pow_iff_right (by norm_num : 1 < 2)).1 (lt_of_le_of_lt klo hhi)
      omega

theorem get_entier_suffixe_put_bits (n v suf : Nat) (r : List Bool) :
    get_entier_suffixe n suf (put_bits n v ++ r) = some (suf * 2 ^ n + v % 2 ^ n, r) := by
  induction n generalizing suf with
  | zero => simp [get_entier_suffixe, put_bits, Nat.mod_one]
  | succ n ih =>
    simp only [put_bits, List.cons_append, get_entier_suffixe, get_bit]
    rw [ih, Nat.toNat_testBit, Nat.mod_pow_succ]
    congr 2
    ring

theorem nb_bits_utile_le_15 (v : Nat) (hv : v ≤ 32767) : nb_bits_utile v ≤ 15 := by
  rcases nb_bits_utile_spec v (by omega) with ⟨_, e⟩ | ⟨hpos, hlo, _⟩
  · omega
  · have a : nb_bits_utile v - 1 < 15 :=
      (Nat.pow_lt_pow_iff_right (by norm_num : 1 < 2)).1 (lt_of_le_of_lt hlo (by omega))
    omega

/-- Round trip of the unsigned code, with the bounds of `v` spelled out for
its number `k` of significant bits. -/
theorem get_entier_put_entier_aux (v k : Nat) (r : List Bool) (hk : nb_bits_utile v = k)
    (h15 : k ≤ 15) (hb : (v = 0 ∧ k = 0) ∨ (0 < k ∧ 2 ^ (k - 1) ≤ v ∧ v < 2 ^ k)) :
    ∃ bits, put_entier v = some bits ∧ get_entier (bits ++ r) = some (v, r) := by
  unfold put_entier
  simp only [hk]
  interval_cases k
  · refine ⟨_, rfl, ?_⟩
    obtain ⟨h0, _⟩ | ⟨h1, _⟩ := hb
    · subst h0; rfl
    · omega
  all_goals
    refine ⟨_, rfl, ?_⟩
    obtain ⟨_, h1⟩ | ⟨_, hlo, hhi⟩ := hb
    · omega
    · simp only [prefixes, put_bit_string, get_entier, Nat.add_sub_cancel]
      norm_num at hlo hhi
      simp [get_entier_prefixe, get_entier_suffixe_put_bits]
      omega


theorem put_bits_bit (k : Nat) (b : Bool) (n : Nat) :
    put_bits (k + 1) (Nat.bit b n) = put_bits k n ++ [b] := by
  induction k with
  | zero => simp [put_bits, Nat.testBit_bit_zero]
  | succ k ih =>
    rw [put_bits, ih, put_bits, Nat.testBit_bit_succ]
    rfl

theorem put_bits_size (v : Nat) : put_bits (Nat.size v) v = (Nat.bits v).reverse := by
  induction v using Nat.binaryRec with
  | z => simp [put_bits]
  | f b n ih =>
    by_cases h0 : Nat.bit b n = 0
    · rw [h0]; simp [put_bits]
    · have hb : n = 0 → b = true := by
        intro hn
        subst hn
        cases b
        · exact absurd rfl h0
        · rfl
      rw [Nat.size_bit h0, put_bits_bit, ih, Nat.bits_append_bit n b hb]
      simp

theorem size_eq_of_bounds (v k : Nat) (hlo : 2 ^ k ≤ v) (hhi : v < 2 ^ (k + 1)) :
    Nat.size v = k + 1 := by
  have a : Nat.size v ≤ k + 1 := Nat.size_le.2 hhi
  have b : k < Nat.size v := Nat.lt_size.2 hlo
  omega

theorem put_bits_sans_tete (v k : Nat) (hlo : 2 ^ k ≤ v) (hhi : v < 2 ^ (k + 1)) :
    put_bits k v = (Nat.bits v).reverse.tail := by
  have h := put_bits_size v
  rw [size_eq_of_bounds v k hlo hhi, put_bits] at h
  rw [← h]
  rfl

theorem get_entier_put_entier_borne (v : Nat) (hv : v ≤ 32767) (r : List Bool) :
    ∃ bits, put_entier v = some bits ∧ get_entier (bits ++ r) = some (v, r) :=
  get_entier_put_entier_aux v (nb_bits_utile v) r rfl (nb_bits_utile_le_15 v hv)
    (nb_bits_utile_spec v (by omega))

theorem vers_int_neg (g : Nat) (hg : g < 32768) :
    vers_int ((2 ^ 32 - g % 2 ^ 32 + (2 ^ 32 - 1)) % 2 ^ 32) = -(g : Int) - 1 := by
  unfold vers_int
  split <;> omega

theorem vers_int_pos (g : Nat) (hg : g < 32768) : vers_int g = (g : Int) := by
  unfold vers_int
  split <;> omega

/-! ## Proofs: one-dimensional wavelet -/

theorem ecrit_suite (g : Nat → ℚ) (m : Nat) (s : Ligne × Nat) :
    (List.range m).foldl (fun s i => ecrit s (g i)) s =
      (fun k => if s.2 ≤ k ∧ k < s.2 + m then g (k - s.2) else s.1 k, s.2 + m) := by
  induction m with
  | zero =>
    simp only [List.range_zero, List.foldl_nil, Nat.add_zero]
    ext k
    · have : ¬ (s.2 ≤ k ∧ k < s.2) := by omega
      simp [this]
    · rfl
  | succ m ih =>
    rw [List.range_succ, List.foldl_append, ih]
    simp only [List.foldl_cons, List.foldl_nil, ecrit]
    ext k
    · simp only [Function.update_apply]
      by_cases h1 : k = s.2 + m
      · subst h1
        simp
      · simp only [h1, if_false]
        by_cases h2 : s.2 ≤ k ∧ k < s.2 + m
        · have : s.2 ≤ k ∧ k < s.2 + (m + 1) := by omega
          simp [h2, this]
        · have : ¬ (s.2 ≤ k ∧ k < s.2 + (m + 1)) := by omega
          simp [h2, this]
    · simp only []
      omega

/-- Closed form of `ondelette_1d`, cell by cell. -/
theorem ondelette_1d_cellule (entree sortie : Ligne) (nbe k : Nat) :
    ondelette_1d entree sortie nbe k =
      if k < nbe / 2 then (entree (2 * k) + entree (2 * k + 1)) / 2
      else if k < nbe - nbe / 2 then entree (nbe - 1)
      else if k < nbe then
        (entree (2 * (k - (nbe - nbe / 2))) - entree (2 * (k - (nbe - nbe / 2)) + 1)) / 2
      else sortie k := by
  unfold ondelette_1d
  simp only [ecrit_suite]
  by_cases hp : nbe % 2 = 1
  · simp only [hp, if_true, ecrit, Function.update_apply, Nat.zero_add, Nat.zero_le, true_and,
      Nat.sub_zero]
    have e : nbe - nbe / 2 = nbe / 2 + 1 := by omega
    rw [e]
    by_cases h1 : k < nbe / 2
    · have : ¬ (nbe / 2 + 1 ≤ k ∧ k < nbe / 2 + 1 + nbe / 2) := by omega
      have h3 : k ≠ nbe / 2 := by omega
      simp [h1, this, h3]
    · by_cases h2 : k < nbe / 2 + 1
      · have : ¬ (nbe / 2 + 1 ≤ k ∧ k < nbe / 2 + 1 + nbe / 2) := by omega
        have h3 : k = nbe / 2 := by omega
        simp [h1, h2, this, h3]
      · by_cases h4 : k < nbe
        · have : nbe / 2 + 1 ≤ k ∧ k < nbe / 2 + 1 + nbe / 2 := by omega
          simp [h1, h2, h4, this]
        · have : ¬ (nbe / 2 + 1 ≤ k ∧ k < nbe / 2 + 1 + nbe / 2) := by omega
          have h3 : k ≠ nbe / 2 := by omega
          simp [h1, h2, h4, this, h3]
  · simp only [hp, if_false, Nat.zero_add, Nat.zero_le, true_and, Nat.sub_zero]
    have e : nbe - nbe / 2 = nbe / 2 := by omega
    rw [e]
    by_cases h1 : k < nbe / 2
    · have : ¬ (nbe / 2 ≤ k ∧ k < nbe / 2 + nbe / 2) := by omega
      simp [h1, this]
    · by_cases h4 : k < nbe
      · have : nbe / 2 ≤ k ∧ k < nbe / 2 + nbe / 2 := by omega
        simp [h1, h4, this]
      · have : ¬ (nbe / 2 ≤ k ∧ k < nbe / 2 + nbe / 2) := by omega
        simp [h1, h4, this]


theorem ecrit_paires (g1 g2 : Nat → ℚ) (m : Nat) (s : Ligne × Nat) :
    (List.range m).foldl (fun s i => ecrit (ecrit s (g1 i)) (g2 i)) s =
      (fun k => if s.2 ≤ k ∧ k < s.2 + 2 * m then
          (if (k - s.2) % 2 = 0 then g1 ((k - s.2) / 2) else g2 ((k - s.2) / 2))
        else s.1 k, s.2 + 2 * m) := by
  induction m with
  | zero =>
    simp only [List.range_zero, List.foldl_nil, Nat.mul_zero, Nat.add_zero]
    ext k
    · have : ¬ (s.2 ≤ k ∧ k < s.2) := by omega
      simp [this]
    · rfl
  | succ m ih =>
    rw [List.range_succ, List.foldl_append, ih]
    simp only [List.foldl_cons, List.foldl_nil, ecrit]
    ext k
    · simp only [Function.update_apply]
      by_cases h1 : k = s.2 + 2 * m + 1
      · subst h1
        have a : s.2 ≤ s.2 + 2 * m + 1 ∧ s.2 + 2 * m + 1 < s.2 + 2 * (m + 1) := by omega
        have b : (s.2 + 2 * m + 1 - s.2) % 2 ≠ 0 := by omega
        have c : (s.2 + 2 * m + 1 - s.2) / 2 = m := by omega
        simp [a, b, c]
      · simp only [h1, if_false]
        by_cases h0 : k = s.2 + 2 * m
        · subst h0
          have a : s.2 ≤ s.2 + 2 * m ∧ s.2 + 2 * m < s.2 + 2 * (m + 1) := by omega
          have b : (s.2 + 2 * m - s.2) % 2 = 0 := by omega
          have c : (s.2 + 2 * m - s.2) / 2 = m := by omega
          simp [a, b, c]
        · simp only [h0, if_false]
          by_cases h2 : s.2 ≤ k ∧ k < s.2 + 2 * m
          · have : s.2 ≤ k ∧ k < s.2 + 2 * (m + 1) := by omega
            simp [h2, this]
          · have : ¬ (s.2 ≤ k ∧ k < s.2 + 2 * (m + 1)) := by omega
            simp [h2, this]
    · simp only []
      omega

/-- Closed form of `ondelette_1d_inverse`, cell by cell. -/
theorem ondelette_1d_inverse_cellule (entree sortie : Ligne) (nbe k : Nat) :
    ondelette_1d_inverse entree sortie nbe k =
      if k < 2 * (nbe / 2) then
        (if k % 2 = 0 then entree (k / 2) + entree (nbe - nbe / 2 + k / 2)
         else entree (k / 2) - entree (nbe - nbe / 2 + k / 2))
      else if k < nbe then entree (nbe / 2)
      else sortie k := by
  unfold ondelette_1d_inverse
  simp only []
  by_cases hp : nbe % 2 = 1
  · have e : nbe - nbe / 2 = nbe / 2 + 1 := by omega
    simp only [hp, if_true, e]
    rw [ecrit_paires (fun i => entree i + entree (nbe / 2 + i + 1))
      (fun i => entree i - entree (nbe / 2 + i + 1))]
    simp only [ecrit, Function.update_apply, Nat.zero_add, Nat.zero_le, true_and, Nat.sub_zero]
    by_cases h1 : k < 2 * (nbe / 2)
    · have h3 : k ≠ 2 * (nbe / 2) := by omega
      have e2 : nbe / 2 + k / 2 + 1 = nbe / 2 + 1 + k / 2 := by omega
      simp [h1, h3, e2]
    · by_cases h4 : k < nbe
      · have h3 : k = 2 * (nbe / 2) := by omega
        have h5 : 2 * (nbe / 2) < nbe := by omega
        simp [h3, h5]
      · have h3 : k ≠ 2 * (nbe / 2) := by omega
        simp [h1, h4, h3]
  · have e : nbe - nbe / 2 = nbe / 2 := by omega
    simp only [hp, if_false, e]
    rw [ecrit_paires (fun i => entree i + entree (nbe / 2 + i))
      (fun i => entree i - entree (nbe / 2 + i))]
    simp only [Nat.zero_add, Nat.zero_le, true_and, Nat.sub_zero]
    by_cases h1 : k < 2 * (nbe / 2)
    · simp [h1]
    · have h4 : ¬ k < nbe := by omega
      simp [h1, h4]

/-- One-dimensional round trip on the first `n` cells; the inverse only
needs its input to agree with the transform on these cells. -/
theorem ondelette_1d_inverse_ondelette_1d (x y s : Ligne) (n : Nat)
    (hy : ∀ k, k < n → y k = ondelette_1d x s n k) (s2 : Ligne) (k : Nat) (hk : k < n) :
    ondelette_1d_inverse y s2 n k = x k := by
  rw [ondelette_1d_inverse_cellule]
  by_cases h1 : k < 2 * (n / 2)
  · rw [if_pos h1, hy (k / 2) (by omega), hy (n - n / 2 + k / 2) (by omega)]
    rw [ondelette_1d_cellule, ondelette_1d_cellule]
    have a : k / 2 < n / 2 := by omega
    have b : ¬ (n - n / 2 + k / 2 < n / 2) := by omega
    have c : ¬ (n - n / 2 + k / 2 < n - n / 2) := by omega
    have d : n - n / 2 + k / 2 < n := by omega
    have e : n - n / 2 + k / 2 - (n - n / 2) = k / 2 := by omega
    simp only [a, b, c, d, e, if_true, if_false]
    by_cases h2 : k % 2 = 0
    · have : 2 * (k / 2) = k := by omega
      rw [if_pos h2, this]
      ring
    · have : 2 * (k / 2) + 1 = k := by omega
      rw [if_neg h2, this]
      ring
  · rw [if_neg h1, if_pos hk, hy (n / 2) (by omega), ondelette_1d_cellule]
    have a : ¬ (n / 2 < n / 2) := by omega
    have b : n / 2 < n - n / 2 := by omega
    have c : n - 1 = k := by omega
    simp only [a, b, c, if_true, if_false]


/-! ## Proofs: two-dimensional wavelet -/

theorem ondelette_1d_congr (x x2 s s2 : Ligne) (n : Nat) (h : ∀ k, k < n → x k = x2 k)
    (k : Nat) (hk : k < n) : ondelette_1d x s n k = ondelette_1d x2 s2 n k := by
  rw [ondelette_1d_cellule, ondelette_1d_cellule]
  by_cases h1 : k < n / 2
  · simp only [h1, if_true]
    rw [h (2 * k) (by omega), h (2 * k + 1) (by omega)]
  · by_cases h2 : k < n - n / 2
    · simp only [h1, h2, if_true, if_false]
      rw [h (n - 1) (by omega)]
    · simp only [h1, h2, hk, if_true, if_false]
      rw [h (2 * (k - (n - n / 2))) (by omega), h (2 * (k - (n - n / 2)) + 1) (by omega)]

/-- The inverse step is linear in its input. -/
theorem ondelette_1d_inverse_lineaire (a b : ℚ) (y y1 y2 s s1 s2 : Ligne) (n : Nat)
    (h : ∀ k, k < n → y k = a * y1 k + b * y2 k) (i : Nat) (hi : i < n) :
    ondelette_1d_inverse y s n i =
      a * ondelette_1d_inverse y1 s1 n i + b * ondelette_1d_inverse y2 s2 n i := by
  simp only [ondelette_1d_inverse_cellule]
  by_cases h1 : i < 2 * (n / 2)
  · simp only [h1, if_true]
    rw [h (i / 2) (by omega), h (n - n / 2 + i / 2) (by omega)]
    by_cases h2 : i % 2 = 0
    · simp only [h2, if_true]; ring
    · simp only [h2, if_false]; ring
  · simp only [h1, hi, if_true, if_false]
    rw [h (n / 2) (by omega)]

theorem lignes_1d_t (f : Ligne → Ligne → Nat → Ligne) (src dst : Matrice) (n nbe j : Nat) :
    (lignes_1d f src dst n nbe).t j =
      if j < n then f (src.t j) (dst.t j) nbe else dst.t j := by
  unfold lignes_1d
  induction n with
  | zero => simp
  | succ n ih =>
    rw [List.range_succ, List.foldl_append]
    simp only [List.foldl_cons, List.foldl_nil, Function.update_apply]
    by_cases h1 : j = n
    · subst h1
      simp [ih]
    · simp only [h1, if_false, ih]
      by_cases h2 : j < n
      · have : j < n + 1 := by omega
        simp [h2, this]
      · have : ¬ j < n + 1 := by omega
        simp [h2, this]

theorem lignes_1d_height (f : Ligne → Ligne → Nat → Ligne) (src dst : Matrice) (n nbe : Nat) :
    (lignes_1d f src dst n nbe).height = dst.height := by
  unfold lignes_1d
  induction n with
  | zero => simp
  | succ n ih => rw [List.range_succ, List.foldl_append]; simpa using ih

theorem lignes_1d_width (f : Ligne → Ligne → Nat → Ligne) (src dst : Matrice) (n nbe : Nat) :
    (lignes_1d f src dst n nbe).width = dst.width := by
  unfold lignes_1d
  induction n with
  | zero => simp
  | succ n ih => rw [List.range_succ, List.foldl_append]; simpa using ih

/-- One pass of the loop of `ondelette_2d` on the region `h x w`, cell by
cell: the rows are transformed, then the columns. -/
theorem ondelette_2d_passe_cellule (image tmp0 tmp1 tmp2 : Matrice) (h w j i : Nat) :
    (transposition_matrice_partielle
      (lignes_1d ondelette_1d
        (transposition_matrice_partielle (lignes_1d ondelette_1d image tmp0 h w) tmp1 h w)
        tmp2 w h) image w h).t j i =
      if j < h ∧ i < w then
        ondelette_1d (fun j2 => ondelette_1d (image.t j2) (fun _ => 0) w i) (fun _ => 0) h j
      else image.t j i := by
  simp only [transposition_matrice_partielle, lignes_1d_t]
  by_cases hc : j < h ∧ i < w
  · have hc2 : i < w ∧ j < h := ⟨hc.2, hc.1⟩
    simp only [hc, hc2, hc.1, hc.2, and_self, if_true]
    apply ondelette_1d_congr _ _ _ _ _ _ _ hc.1
    intro k hk
    simp only [hk, hc.2, and_self, if_true]
    exact ondelette_1d_congr _ _ _ _ _ (fun _ _ => rfl) _ hc.2
  · have hc2 : ¬ (i < w ∧ j < h) := fun hh => hc ⟨hh.2, hh.1⟩
    simp only [hc, hc2, if_false]

theorem ondelette_1d_inverse_congr (y y2 s s2 : Ligne) (n : Nat) (h : ∀ k, k < n → y k = y2 k)
    (k : Nat) (hk : k < n) : ondelette_1d_inverse y s n k = ondelette_1d_inverse y2 s2 n k := by
  have e := ondelette_1d_inverse_lineaire 1 0 y y2 y2 s s2 s2 n
    (fun k hk => by rw [h k hk]; ring) k hk
  rw [e]; ring

/-- The inverse pass on the region `h x w`, cell by cell. -/
theorem ondelette_2d_inverse_niveau_cellule (image : Matrice) (h w j i : Nat) :
    (ondelette_2d_inverse_niveau image h w).t j i =
      if j < h ∧ i < w then
        ondelette_1d_inverse (fun j2 => ondelette_1d_inverse (image.t j2) (fun _ => 0) w i)
          (fun _ => 0) h j
      else image.t j i := by
  simp only [ondelette_2d_inverse_niveau, transposition_matrice_partielle, lignes_1d_t]
  by_cases hc : j < h ∧ i < w
  · have hc2 : i < w ∧ j < h := ⟨hc.2, hc.1⟩
    simp only [hc, hc2, hc.1, hc.2, and_self, if_true]
    apply ondelette_1d_inverse_congr _ _ _ _ _ _ _ hc.1
    intro k hk
    simp only [hk, hc.2, and_self, if_true]
    exact ondelette_1d_inverse_congr _ _ _ _ _ (fun _ _ => rfl) _ hc.2
  · have hc2 : ¬ (i < w ∧ j < h) := fun hh => hc ⟨hh.2, hh.1⟩
    simp only [hc, hc2, if_false]


/-- Rows then columns forward, rows then columns backward: the inverse pass
undoes the forward pass on the region `h x w`. -/
theorem ondelette_2d_passe_round_trip (X Y : Matrice) (h w : Nat)
    (hY : ∀ j i, j < h → i < w → Y.t j i =
      ondelette_1d (fun j2 => ondelette_1d (X.t j2) (fun _ => 0) w i) (fun _ => 0) h j)
    (j i : Nat) (hj : j < h) (hi : i < w) :
    ondelette_1d_inverse (fun j2 => ondelette_1d_inverse (Y.t j2) (fun _ => 0) w i)
      (fun _ => 0) h j = X.t j i := by
  have rt : ∀ j2, ondelette_1d_inverse (ondelette_1d (X.t j2) (fun _ => 0) w) (fun _ => 0) w i
      = X.t j2 i := fun j2 =>
    ondelette_1d_inverse_ondelette_1d (X.t j2) _ (fun _ => 0) w (fun _ _ => rfl) _ i hi
  apply ondelette_1d_inverse_ondelette_1d (fun j2 => X.t j2 i) _ (fun _ => 0) h _ _ j hj
  intro k hk
  rw [ondelette_1d_cellule]
  by_cases h1 : k < h / 2
  · simp only [h1, if_true]
    rw [ondelette_1d_inverse_lineaire (1 / 2) (1 / 2) (Y.t k)
      (ondelette_1d (X.t (2 * k)) (fun _ => 0) w)
      (ondelette_1d (X.t (2 * k + 1)) (fun _ => 0) w) _ (fun _ => 0) (fun _ => 0) w _ i hi]
    · rw [rt, rt]; ring
    · intro i2 hi2
      rw [hY k i2 hk hi2, ondelette_1d_cellule]
      simp only [h1, if_true]; ring
  · by_cases h2 : k < h - h / 2
    · simp only [h1, h2, if_true, if_false]
      rw [ondelette_1d_inverse_lineaire 1 0 (Y.t k)
        (ondelette_1d (X.t (h - 1)) (fun _ => 0) w)
        (ondelette_1d (X.t (h - 1)) (fun _ => 0) w) _ (fun _ => 0) (fun _ => 0) w _ i hi]
      · rw [rt]; ring
      · intro i2 hi2
        rw [hY k i2 hk hi2, ondelette_1d_cellule]
        simp only [h1, h2, if_true, if_false]; ring
    · simp only [h1, h2, hk, if_true, if_false]
      rw [ondelette_1d_inverse_lineaire (1 / 2) (-(1 / 2)) (Y.t k)
        (ondelette_1d (X.t (2 * (k - (h - h / 2)))) (fun _ => 0) w)
        (ondelette_1d (X.t (2 * (k - (h - h / 2)) + 1)) (fun _ => 0) w) _ (fun _ => 0)
        (fun _ => 0) w _ i hi]
      · rw [rt, rt]; ring
      · intro i2 hi2
        rw [hY k i2 hk hi2, ondelette_1d_cellule]
        simp only [h1, h2, hk, if_true, if_false]; ring

theorem ondelette_2d_inverse_niveau_passe (image tmp0 tmp1 tmp2 : Matrice) (h w : Nat) :
    ondelette_2d_inverse_niveau
      (transposition_matrice_partielle
        (lignes_1d ondelette_1d
          (transposition_matrice_partielle (lignes_1d ondelette_1d image tmp0 h w) tmp1 h w)
          tmp2 w h) image w h) h w = image := by
  have ht : ∀ j i, (ondelette_2d_inverse_niveau
      (transposition_matrice_partielle
        (lignes_1d ondelette_1d
          (transposition_matrice_partielle (lignes_1d ondelette_1d image tmp0 h w) tmp1 h w)
          tmp2 w h) image w h) h w).t j i = image.t j i := by
    intro j i
    rw [ondelette_2d_inverse_niveau_cellule]
    by_cases hc : j < h ∧ i < w
    · rw [if_pos hc]
      apply ondelette_2d_passe_round_trip image _ h w _ j i hc.1 hc.2
      intro j2 i2 hj2 hi2
      rw [ondelette_2d_passe_cellule, if_pos ⟨hj2, hi2⟩]
    · rw [if_neg hc, ondelette_2d_passe_cellule, if_neg hc]
  cases image with
  | mk H W t =>
    simp only [ondelette_2d_inverse_niveau, transposition_matrice_partielle] at ht ⊢
    congr 1
    funext j i
    exact ht j i

/-- On a region of at most one cell the inverse pass changes nothing. -/
theorem ondelette_2d_inverse_niveau_petit (image : Matrice) (h w : Nat) (hh : h ≤ 1)
    (hw : w ≤ 1) : ondelette_2d_inverse_niveau image h w = image := by
  have ht : ∀ j i, (ondelette_2d_inverse_niveau image h w).t j i = image.t j i := by
    intro j i
    rw [ondelette_2d_inverse_niveau_cellule]
    by_cases hc : j < h ∧ i < w
    · have hj : j = 0 := by omega
      have hi : i = 0 := by omega
      have h1 : h = 1 := by omega
      have w1 : w = 1 := by omega
      subst hj hi h1 w1
      simp [ondelette_1d_inverse_cellule]
    · rw [if_neg hc]
  cases image with
  | mk H W t =>
    simp only [ondelette_2d_inverse_niveau, transposition_matrice_partielle] at ht ⊢
    congr 1
    funext j i
    exact ht j i

theorem ondelette_2d_inverse_recursive_boucle (n : Nat) :
    ∀ (h w : Nat), h + w = n → ∀ (image tmp0 tmp1 tmp2 : Matrice),
      ondelette_2d_inverse_recursive (ondelette_2d_boucle image tmp0 tmp1 tmp2 h w) h w
        = image := by
  induction n using Nat.strong_induction_on with
  | _ n ih =>
    intro h w hn image tmp0 tmp1 tmp2
    rw [ondelette_2d_boucle, ondelette_2d_inverse_recursive]
    by_cases hc : h > 1 ∨ w > 1
    · simp only [hc, if_true]
      rw [ih ((h + 1) / 2 + (w + 1) / 2) (by omega) _ _ rfl]
      exact ondelette_2d_inverse_niveau_passe image tmp0 tmp1 tmp2 h w
    · simp only [hc, if_false]
      exact ondelette_2d_inverse_niveau_petit image h w (by omega) (by omega)

theorem ondelette_2d_boucle_height (n : Nat) :
    ∀ (h w : Nat), h + w = n → ∀ (image tmp0 tmp1 tmp2 : Matrice),
      (ondelette_2d_boucle image tmp0 tmp1 tmp2 h w).height = image.height ∧
      (ondelette_2d_boucle image tmp0 tmp1 tmp2 h w).width = image.width := by
  induction n using Nat.strong_induction_on with
  | _ n ih =>
    intro h w hn image tmp0 tmp1 tmp2
    rw [ondelette_2d_boucle]
    by_cases hc : h > 1 ∨ w > 1
    · simp only [hc, if_true]
      have := ih ((h + 1) / 2 + (w + 1) / 2) (by omega) _ _ rfl
        (transposition_matrice_partielle
          (lignes_1d ondelette_1d
            (transposition_matrice_partielle (lignes_1d ondelette_1d image tmp0 h w) tmp1 h w)
            tmp2 w h) image w h)
        (lignes_1d ondelette_1d image tmp0 h w)
        (transposition_matrice_partielle (lignes_1d ondelette_1d image tmp0 h w) tmp1 h w)
        (lignes_1d ondelette_1d
            (transposition_matrice_partielle (lignes_1d ondelette_1d image tmp0 h w) tmp1 h w)
            tmp2 w h)
      simpa [transposition_matrice_partielle] using this
    · simp only [hc, if_false, and_self]


/-! ## Proofs: sub-band linearisation -/

theorem foldl_ligne_filtre {σ : Type} (f : σ → Nat × Nat → σ) (p : Nat × Nat → Prop)
    [DecidablePred p] (a : Nat) (l2 : List Nat) (s : σ) :
    l2.foldl (fun s i => if p (a, i) then f s (a, i) else s) s =
      ((l2.map (Prod.mk a)).filter (fun c => decide (p c))).foldl f s := by
  induction l2 generalizing s with
  | nil => rfl
  | cons i l2 ih =>
    simp only [List.foldl_cons, List.map_cons, List.filter_cons]
    by_cases hp : p (a, i)
    · simp only [hp, if_true, decide_True, List.foldl_cons]
      exact ih _
    · simp only [hp, if_false, decide_False]
      exact ih _

theorem foldl_produit_filtre {σ : Type} (f : σ → Nat × Nat → σ) (p : Nat × Nat → Prop)
    [DecidablePred p] (l1 l2 : List Nat) (s : σ) :
    l1.foldl (fun s j => l2.foldl (fun s i => if p (j, i) then f s (j, i) else s) s) s =
      ((l1.product l2).filter (fun c => decide (p c))).foldl f s := by
  induction l1 generalizing s with
  | nil => rfl
  | cons a l1 ih =>
    rw [List.product.eq_1, List.flatMap_cons, List.filter_append, List.foldl_append,
      List.foldl_cons, foldl_ligne_filtre, ← List.product.eq_1]
    exact ih _

theorem codage_niveau_eq (image : Matrice) (hau lar : Nat) (s : Ligne × Nat) :
    codage_niveau image hau lar s =
      (cellules_niveau hau lar).foldl (fun s c => ecrit s (image.t c.1 c.2)) s :=
  foldl_produit_filtre (fun s c => ecrit s (image.t c.1 c.2))
    (fun c => c.1 ≥ (hau + 1) / 2 ∨ c.2 ≥ (lar + 1) / 2) _ _ s

theorem decodage_niveau_eq (t : Ligne) (hau lar : Nat) (s : Matrice × Nat) :
    decodage_niveau t hau lar s =
      (cellules_niveau hau lar).foldl (fun s c => (s.1.pose c.1 c.2 (t s.2), s.2 + 1)) s :=
  foldl_produit_filtre (fun (s : Matrice × Nat) c => (s.1.pose c.1 c.2 (t s.2), s.2 + 1))
    (fun c => c.1 ≥ (hau + 1) / 2 ∨ c.2 ≥ (lar + 1) / 2) _ _ s

theorem codage_boucle_eq (image : Matrice) (n : Nat) :
    ∀ (hau lar : Nat) (s : Ligne × Nat), 1 ≤ hau → 1 ≤ lar → hau + lar ≤ n + 2 →
      codage_boucle image n hau lar s =
        some ((ordre_niveaux hau lar).foldl (fun s c => ecrit s (image.t c.1 c.2)) s) := by
  induction n with
  | zero =>
    intro hau lar s h1 h2 h3
    have a : hau = 1 := by omega
    have b : lar = 1 := by omega
    subst a b
    rw [ordre_niveaux]
    simp [codage_boucle]
  | succ n ih =>
    intro hau lar s h1 h2 h3
    rw [ordre_niveaux, codage_boucle]
    by_cases hc : hau > 1 ∨ lar > 1
    · have hc2 : hau ≠ 1 ∨ lar ≠ 1 := by omega
      simp only [hc, hc2, if_true, List.foldl_append]
      rw [ih _ _ _ (by omega) (by omega) (by omega), codage_niveau_eq]
    · have hc2 : ¬ (hau ≠ 1 ∨ lar ≠ 1) := by omega
      simp only [hc, hc2, if_false, List.foldl_nil]

theorem decodage_boucle_eq (t : Ligne) (n : Nat) :
    ∀ (hau lar : Nat) (s : Matrice × Nat), 1 ≤ hau → 1 ≤ lar → hau + lar ≤ n + 2 →
      decodage_boucle t n hau lar s =
        some ((ordre_niveaux hau lar).foldl
          (fun s c => (s.1.pose c.1 c.2 (t s.2), s.2 + 1)) s) := by
  induction n with
  | zero =>
    intro hau lar s h1 h2 h3
    have a : hau = 1 := by omega
    have b : lar = 1 := by omega
    subst a b
    rw [ordre_niveaux]
    simp [decodage_boucle]
  | succ n ih =>
    intro hau lar s h1 h2 h3
    rw [ordre_niveaux, decodage_boucle]
    by_cases hc : hau > 1 ∨ lar > 1
    · have hc2 : hau ≠ 1 ∨ lar ≠ 1 := by omega
      simp only [hc, hc2, if_true, List.foldl_append]
      rw [ih _ _ _ (by omega) (by omega) (by omega), decodage_niveau_eq]
    · have hc2 : ¬ (hau ≠ 1 ∨ lar ≠ 1) := by omega
      simp only [hc, hc2, if_false, List.foldl_nil]


theorem foldl_ecrit {α : Type} (v : α → ℚ) (l : List α) (s : Ligne × Nat) :
    (l.foldl (fun s c => ecrit s (v c)) s).2 = s.2 + l.length ∧
    (∀ k (hk : k < l.length), (l.foldl (fun s c => ecrit s (v c)) s).1 (s.2 + k) = v l[k]) ∧
    (∀ k, k < s.2 ∨ s.2 + l.length ≤ k →
      (l.foldl (fun s c => ecrit s (v c)) s).1 k = s.1 k) := by
  induction l generalizing s with
  | nil =>
    refine ⟨rfl, ?_, fun _ _ => rfl⟩
    intro k hk
    simp at hk
  | cons c l ih =>
    obtain ⟨h1, h2, h3⟩ := ih (ecrit s (v c))
    simp only [List.foldl_cons, List.length_cons]
    refine ⟨?_, ?_, ?_⟩
    · rw [h1]; simp only [ecrit]; omega
    · intro k hk
      cases k with
      | zero =>
        rw [Nat.add_zero, h3 s.2 (Or.inl (by simp [ecrit]))]
        simp [ecrit]
      | succ k =>
        have := h2 k (by omega)
        have e : (ecrit s (v c)).2 = s.2 + 1 := rfl
        rw [e] at this
        rw [show s.2 + (k + 1) = s.2 + 1 + k by omega, this]
        rfl
    · intro k hk
      rw [h3 k (by simp only [ecrit]; omega)]
      simp only [ecrit, Function.update_apply]
      have : k ≠ s.2 := by omega
      simp [this]

theorem pose_t (m : Matrice) (j i : Nat) (v : ℚ) (j2 i2 : Nat) :
    (m.pose j i v).t j2 i2 = if j2 = j ∧ i2 = i then v else m.t j2 i2 := by
  simp only [Matrice.pose, Function.update_apply]
  by_cases h1 : j2 = j
  · subst h1
    by_cases h2 : i2 = i
    · subst h2; simp
    · simp [h2]
  · simp [h1]

theorem foldl_pose (t : Ligne) (image : Matrice) (l : List (Nat × Nat)) (s : Matrice × Nat)
    (h : ∀ k (hk : k < l.length), t (s.2 + k) = image.t l[k].1 l[k].2) :
    (l.foldl (fun s c => (s.1.pose c.1 c.2 (t s.2), s.2 + 1)) s).2 = s.2 + l.length ∧
    (∀ j i, (j, i) ∈ l →
      (l.foldl (fun s c => (s.1.pose c.1 c.2 (t s.2), s.2 + 1)) s).1.t j i = image.t j i) ∧
    (∀ j i, (j, i) ∉ l →
      (l.foldl (fun s c => (s.1.pose c.1 c.2 (t s.2), s.2 + 1)) s).1.t j i = s.1.t j i) ∧
    (l.foldl (fun s c => (s.1.pose c.1 c.2 (t s.2), s.2 + 1)) s).1.height = s.1.height ∧
    (l.foldl (fun s c => (s.1.pose c.1 c.2 (t s.2), s.2 + 1)) s).1.width = s.1.width := by
  induction l generalizing s with
  | nil => simp
  | cons c l ih =>
    have hc : t s.2 = image.t c.1 c.2 := by
      have := h 0 (by simp)
      simpa using this
    obtain ⟨h1, h2, h3, h4, h5⟩ := ih (s.1.pose c.1 c.2 (t s.2), s.2 + 1) (by
      intro k hk
      have := h (k + 1) (by simp; omega)
      simp only [List.getElem_cons_succ] at this
      rw [← this]
      congr 1
      omega)
    simp only [List.foldl_cons, List.length_cons]
    refine ⟨by rw [h1]; simp only []; omega, ?_, ?_, by rw [h4]; rfl, by rw [h5]; rfl⟩
    · intro j i hm
      by_cases hl : (j, i) ∈ l
      · exact h2 j i hl
      · rw [h3 j i hl, pose_t]
        have : (j, i) = c := by
          rcases List.mem_cons.1 hm with e | e
          · exact e
          · exact absurd e hl
        subst this
        simp [hc]
    · intro j i hm
      have hl : (j, i) ∉ l := fun e => hm (List.mem_cons_of_mem _ e)
      have hne : ¬ (j = c.1 ∧ i = c.2) := by
        rintro ⟨e1, e2⟩
        apply hm
        subst e1 e2
        exact List.mem_cons_self _ _
      rw [h3 j i hl, pose_t, if_neg hne]

theorem mem_cellules_niveau (h w j i : Nat) :
    (j, i) ∈ cellules_niveau h w ↔ j < h ∧ i < w ∧ (j ≥ (h + 1) / 2 ∨ i ≥ (w + 1) / 2) := by
  unfold cellules_niveau
  rw [List.mem_filter]
  have := @List.mem_product _ _ (List.range h) (List.range w) j i
  simp only [List.mem_range] at this
  simp only [decide_eq_true_eq]
  constructor
  · rintro ⟨a, b⟩
    exact ⟨(this.1 a).1, (this.1 a).2, b⟩
  · rintro ⟨a, b, c⟩
    exact ⟨this.2 ⟨a, b⟩, c⟩

theorem mem_ordre_niveaux (n : Nat) :
    ∀ (h w : Nat), h + w = n → 1 ≤ h → 1 ≤ w → ∀ j i,
      ((j, i) ∈ ordre_niveaux h w ↔ j < h ∧ i < w ∧ (j ≠ 0 ∨ i ≠ 0)) := by
  induction n using Nat.strong_induction_on with
  | _ n ih =>
    intro h w hn h1 w1 j i
    rw [ordre_niveaux]
    by_cases hc : h > 1 ∨ w > 1
    · simp only [hc, if_true, List.mem_append, mem_cellules_niveau]
      rw [ih ((h + 1) / 2 + (w + 1) / 2) (by omega) _ _ rfl (by omega) (by omega)]
      omega
    · simp only [hc, if_false, List.not_mem_nil, false_iff]
      omega

theorem mem_ordre_sous_bandes (h w : Nat) (h1 : 1 ≤ h) (w1 : 1 ≤ w) (j i : Nat) :
    (j, i) ∈ ordre_sous_bandes h w ↔ j < h ∧ i < w := by
  unfold ordre_sous_bandes
  rw [List.mem_append, mem_ordre_niveaux _ h w rfl h1 w1]
  simp only [List.mem_singleton, Prod.mk.injEq]
  omega

theorem nodup_cellules_niveau (h w : Nat) : (cellules_niveau h w).Nodup :=
  List.Nodup.filter _ (List.Nodup.product (List.nodup_range h) (List.nodup_range w))

theorem nodup_ordre_niveaux (n : Nat) :
    ∀ (h w : Nat), h + w = n → 1 ≤ h → 1 ≤ w → (ordre_niveaux h w).Nodup := by
  induction n using Nat.strong_induction_on with
  | _ n ih =>
    intro h w hn h1 w1
    rw [ordre_niveaux]
    by_cases hc : h > 1 ∨ w > 1
    · simp only [hc, if_true]
      rw [List.nodup_append]
      refine ⟨nodup_cellules_niveau h w,
        ih ((h + 1) / 2 + (w + 1) / 2) (by omega) _ _ rfl (by omega) (by omega), ?_⟩
      intro c hc1 hc2
      obtain ⟨j, i⟩ := c
      rw [mem_cellules_niveau] at hc1
      rw [mem_ordre_niveaux _ _ _ rfl (by omega) (by omega)] at hc2
      omega
    · simp only [hc, if_false]
      exact List.nodup_nil

theorem nodup_ordre_sous_bandes (h w : Nat) (h1 : 1 ≤ h) (w1 : 1 ≤ w) :
    (ordre_sous_bandes h w).Nodup := by
  unfold ordre_sous_bandes
  rw [List.nodup_append]
  refine ⟨nodup_ordre_niveaux _ h w rfl h1 w1, List.nodup_singleton _, ?_⟩
  intro c hc1 hc2
  obtain ⟨j, i⟩ := c
  rw [mem_ordre_niveaux _ _ _ rfl h1 w1] at hc1
  simp only [List.mem_singleton, Prod.mk.injEq] at hc2
  omega

theorem length_ordre_sous_bandes (h w : Nat) (h1 : 1 ≤ h) (w1 : 1 ≤ w) :
    (ordre_sous_bandes h w).length = h * w := by
  have p : (ordre_sous_bandes h w).Perm ((List.range h).product (List.range w)) := by
    refine (List.perm_ext_iff_of_nodup (nodup_ordre_sous_bandes h w h1 w1)
      (List.Nodup.product (List.nodup_range h) (List.nodup_range w))).2 ?_
    rintro ⟨j, i⟩
    rw [mem_ordre_sous_bandes h w h1 w1]
    have := @List.mem_product _ _ (List.range h) (List.range w) j i
    simp only [List.mem_range] at this
    exact this.symm
  rw [p.length_eq]
  exact (List.length_product _ _).trans (by rw [List.length_range, List.length_range])


theorem codage_ondelette_table_eq (image : Matrice) (t : Ligne) (hH : 1 ≤ image.height)
    (hW : 1 ≤ image.width) :
    codage_ondelette_table image t =
      some (((ordre_sous_bandes image.height image.width).foldl
        (fun s c => ecrit s (image.t c.1 c.2)) (t, 0)).1, image.height * image.width - 1) := by
  unfold codage_ondelette_table
  rw [codage_boucle_eq image _ _ _ _ hH hW (by omega)]
  have hl := length_ordre_sous_bandes image.height image.width hH hW
  unfold ordre_sous_bandes at hl ⊢
  rw [List.length_append, List.length_singleton] at hl
  rw [List.foldl_append, Option.map_some']
  have h2 := (foldl_ecrit (fun c : Nat × Nat => image.t c.1 c.2)
    (ordre_niveaux image.height image.width) (t, 0)).1
  simp only [Nat.zero_add, ecrit] at h2
  simp only [List.foldl_cons, List.foldl_nil, ecrit, h2]
  congr 2
  omega

theorem decodage_ondelette_table_eq (m : Matrice) (t : Ligne) (hH : 1 ≤ m.height)
    (hW : 1 ≤ m.width) :
    decodage_ondelette_table m t =
      some ((ordre_sous_bandes m.height m.width).foldl
        (fun s c => (s.1.pose c.1 c.2 (t s.2), s.2 + 1)) (m, 0)).1 := by
  unfold decodage_ondelette_table ordre_sous_bandes
  rw [decodage_boucle_eq t _ _ _ _ hH hW (by omega), List.foldl_append, Option.map_some']
  rfl

theorem ordre_sous_bandes_rec (h w : Nat) (hc : h > 1 ∨ w > 1) :
    ordre_sous_bandes h w =
      cellules_niveau h w ++ ordre_sous_bandes ((h + 1) / 2) ((w + 1) / 2) := by
  unfold ordre_sous_bandes
  rw [ordre_niveaux, if_pos hc, List.append_assoc]

theorem ordre_sous_bandes_un : ordre_sous_bandes 1 1 = [(0, 0)] := by
  unfold ordre_sous_bandes
  rw [ordre_niveaux]
  simp

/-! ## Proofs: adaptive Shannon-Fano, positions -/

theorem trouve_separation_boucle_borne (sf : shannon_fano) (tot : Int) (n : Nat) :
    ∀ (i : Nat) (m : Int) (k : Nat), trouve_separation_boucle sf tot n i m = some k →
      i ≤ k ∧ k < i + n := by
  induction n with
  | zero => intro i m k h; simp [trouve_separation_boucle] at h
  | succ n ih =>
    intro i m k h
    simp only [trouve_separation_boucle] at h
    split at h
    · simp only [Option.some.injEq] at h
      omega
    · have := ih _ _ _ h
      omega

/-- For a range of at least two events the separation is inside the range,
its last index excluded. -/
theorem trouve_separation_borne (sf : shannon_fano) (position_min position_max : Nat)
    (h : position_min < position_max) :
    position_min ≤ trouve_separation sf position_min position_max ∧
    trouve_separation sf position_min position_max < position_max := by
  unfold trouve_separation
  split
  · rename_i i hi
    have := trouve_separation_boucle_borne sf _ _ _ _ _ hi
    omega
  · omega

theorem encode_position_boucle_some (sf : shannon_fano) (position : Nat) (n : Nat) :
    ∀ (posmin posmax : Nat), posmin ≤ posmax → posmax - posmin ≤ n →
      ∃ bits, encode_position_boucle sf position n posmin posmax = some bits := by
  induction n with
  | zero =>
    intro posmin posmax h1 h2
    have : posmin = posmax := by omega
    simp [encode_position_boucle, this]
  | succ n ih =>
    intro posmin posmax h1 h2
    simp only [encode_position_boucle]
    by_cases hc : posmin = posmax
    · simp [hc]
    · have hb := trouve_separation_borne sf posmin posmax (by omega)
      simp only [ne_eq, hc, not_false_eq_true, if_true]
      by_cases hp : position ≤ trouve_separation sf posmin posmax
      · obtain ⟨b, hb2⟩ := ih posmin (trouve_separation sf posmin posmax) hb.1 (by omega)
        simp [hp, hb2]
      · obtain ⟨b, hb2⟩ := ih (trouve_separation sf posmin posmax + 1) posmax (by omega)
          (by omega)
        simp [hp, hb2]

theorem encode_position_some (sf : shannon_fano) (position : Nat) :
    ∃ bits, encode_position sf position = some bits :=
  encode_position_boucle_some sf position _ _ _ (Nat.zero_le _)
    (by simp only [shannon_fano.nb_evenements]; omega)

theorem decode_encode_position_boucle (sf : shannon_fano) (position : Nat) (r : List Bool)
    (n : Nat) :
    ∀ (posmin posmax : Nat) (bits : List Bool), posmin ≤ position → position ≤ posmax →
      encode_position_boucle sf position n posmin posmax = some bits →
      decode_position_boucle sf n posmin posmax (bits ++ r) = some (position, r) := by
  induction n with
  | zero =>
    intro posmin posmax bits h1 h2 h
    simp only [encode_position_boucle] at h
    split at h
    · exact absurd h (by simp)
    · rename_i hc
      simp only [ne_eq, Decidable.not_not] at hc
      simp only [Option.some.injEq] at h
      subst h
      have e1 : posmin = position := by omega
      have e2 : posmax = position := by omega
      simp [decode_position_boucle, e1, e2]
  | succ n ih =>
    intro posmin posmax bits h1 h2 h
    simp only [encode_position_boucle] at h
    simp only [decode_position_boucle]
    by_cases hc : posmin = posmax
    · simp only [hc, ne_eq, not_true_eq_false, if_false, Option.some.injEq] at h ⊢
      subst h
      have : posmax = position := by omega
      simp [this]
    · simp only [ne_eq, hc, not_false_eq_true, if_true] at h ⊢
      by_cases hp : position ≤ trouve_separation sf posmin posmax
      · simp only [hp, if_true, Option.map_eq_some'] at h
        obtain ⟨b, hb, rfl⟩ := h
        simp only [put_bit, List.singleton_append, List.cons_append, get_bit]
        exact ih _ _ _ h1 hp hb
      · simp only [hp, if_false, Option.map_eq_some'] at h
        obtain ⟨b, hb, rfl⟩ := h
        simp only [put_bit, List.singleton_append, List.cons_append, get_bit]
        exact ih _ _ _ (by omega) h2 hb

theorem decode_position_boucle_borne (sf : shannon_fano) (n : Nat) :
    ∀ (min max : Nat) (bs : List Bool) (p : Nat) (reste : List Bool), min ≤ max →
      decode_position_boucle sf n min max bs = some (p, reste) → min ≤ p ∧ p ≤ max := by
  induction n with
  | zero =>
    intro min max bs p reste h1 h
    simp only [decode_position_boucle] at h
    split at h
    · exact absurd h (by simp)
    · simp only [Option.some.injEq, Prod.mk.injEq] at h
      omega
  | succ n ih =>
    intro min max bs p reste h1 h
    simp only [decode_position_boucle] at h
    by_cases hc : min = max
    · simp only [hc, ne_eq, not_true_eq_false, if_false, Option.some.injEq, Prod.mk.injEq] at h
      omega
    · have hb := trouve_separation_borne sf min max (by omega)
      simp only [ne_eq, hc, not_false_eq_true, if_true] at h
      cases bs with
      | nil => simp [get_bit] at h
      | cons b bs =>
        cases b with
        | true =>
          simp only [get_bit] at h
          have := ih _ _ _ _ _ (by omega) h
          omega
        | false =>
          simp only [get_bit] at h
          have := ih _ _ _ _ _ hb.1 h
          omega

theorem trouve_valeur_some (v : Int) (l : List evenement) :
    ∀ (i k : Nat), trouve_valeur v l i = some k →
      i ≤ k ∧ k < i + l.length ∧
      (l.getD (k - i) { valeur := 0, nb_occurrences := 0 }).valeur = v := by
  induction l with
  | nil => intro i k h; simp [trouve_valeur] at h
  | cons e l ih =>
    intro i k h
    simp only [trouve_valeur] at h
    split at h
    · rename_i hv
      simp only [Option.some.injEq] at h
      subst h
      simp [hv]
    · obtain ⟨a, b, c⟩ := ih _ _ h
      refine ⟨by omega, by simp only [List.length_cons]; omega, ?_⟩
      have : k - i = (k - (i + 1)) + 1 := by omega
      rw [this, List.getD_cons_succ]
      exact c

theorem trouve_valeur_none (v : Int) (l : List evenement) :
    ∀ (i : Nat), trouve_valeur v l i = none ↔ ∀ e ∈ l, e.valeur ≠ v := by
  induction l with
  | nil => intro i; simp [trouve_valeur]
  | cons e l ih =>
    intro i
    simp only [trouve_valeur, List.mem_cons, forall_eq_or_imp]
    by_cases hv : v = e.valeur
    · simp [hv]
    · simp only [hv, if_false, ih]
      constructor
      · intro h; exact ⟨fun e2 => hv e2.symm, h⟩
      · intro h; exact h.2

/-- The position found is inside the table; it holds the value looked for
or, failing that, `VALEUR_ESCAPE`. -/
theorem trouve_position_some (sf : shannon_fano) (v : Int) (pos : Nat)
    (h : trouve_position sf v = some pos) :
    pos < sf.nb_evenements ∧
    ((sf.evenement pos).valeur = v ∨
      ((∀ e ∈ sf.evenements, e.valeur ≠ v) ∧ (sf.evenement pos).valeur = VALEUR_ESCAPE)) := by
  unfold trouve_position at h
  split at h
  · rename_i i hi
    simp only [Option.some.injEq] at h
    subst h
    obtain ⟨_, b, c⟩ := trouve_valeur_some _ _ _ _ hi
    exact ⟨by simpa [shannon_fano.nb_evenements] using b,
      Or.inl (by simpa [shannon_fano.evenement] using c)⟩
  · rename_i hn
    obtain ⟨_, b, c⟩ := trouve_valeur_some _ _ _ _ h
    exact ⟨by simpa [shannon_fano.nb_evenements] using b,
      Or.inr ⟨(trouve_valeur_none _ _ _).1 hn, by simpa [shannon_fano.evenement] using c⟩⟩


/-! ## Proofs: adaptive Shannon-Fano, one symbol -/

theorem get_bits_boucle_put_bits (n v acc : Nat) (r : List Bool) :
    get_bits_boucle n acc (put_bits n v ++ r) = some (acc * 2 ^ n + v % 2 ^ n, r) := by
  induction n generalizing acc with
  | zero => simp [get_bits_boucle, put_bits, Nat.mod_one]
  | succ n ih =>
    rw [put_bits, List.cons_append, get_bits_boucle, ih, Nat.toNat_testBit, Nat.mod_pow_succ]
    congr 2
    ring

/-- Reading back `n` bits written by `put_bits` gives the low `n` bits of
the value written. -/
theorem get_bits_put_bits (n v : Nat) (r : List Bool) :
    get_bits n (put_bits n v ++ r) = some (v % 2 ^ n, r) := by
  unfold get_bits
  rw [get_bits_boucle_put_bits]
  simp

/-- An `int` passed as a 32-bit unsigned value and converted back. -/
theorem vers_int_emod (v : Int) (h0 : -2 ^ 31 ≤ v) (h1 : v < 2 ^ 31) :
    vers_int ((v % 2 ^ 32).toNat % 2 ^ 32) = v := by
  unfold vers_int
  split <;> omega

/-- What `put_entier_shannon_fano` writes for a value in the range of `int`
is read back by `get_entier_shannon_fano` from the same table, which ends in
the same state. -/
theorem get_put_entier_shannon_fano (sf sf2 : shannon_fano) (v : Int) (bits r : List Bool)
    (h0 : -2 ^ 31 ≤ v) (h1 : v < 2 ^ 31)
    (h : put_entier_shannon_fano sf v = some (bits, sf2)) :
    get_entier_shannon_fano sf (bits ++ r) = some (v, sf2, r) := by
  unfold put_entier_shannon_fano at h
  split at h
  · exact absurd h (by simp)
  · rename_i pos hpos
    obtain ⟨hlt, hval⟩ := trouve_position_some sf v pos hpos
    split at h
    · exact absurd h (by simp)
    · rename_i bp hbp
      have hdec : ∀ r2, decode_position sf (bp ++ r2) = some (pos, r2) := fun r2 =>
        decode_encode_position_boucle sf pos r2 _ _ _ _ (Nat.zero_le _)
          (by simp only [shannon_fano.nb_evenements] at hlt ⊢; omega) hbp
      unfold get_entier_shannon_fano
      by_cases hesc : (sf.evenement pos).valeur = VALEUR_ESCAPE
      · simp only [hesc, if_true] at h
        split at h
        · exact absurd h (by simp)
        · rename_i sf1 hsf1
          simp only [Option.some.injEq, Prod.mk.injEq] at h
          obtain ⟨hb, hs⟩ := h
          subst hb hs
          rw [List.append_assoc, hdec]
          simp only [hesc, if_true, get_bits_put_bits, vers_int_emod v h0 h1, hsf1]
      · simp only [hesc, if_false, Option.some.injEq, Prod.mk.injEq] at h
        obtain ⟨hb, hs⟩ := h
        subst hb hs
        rw [hdec]
        simp only [hesc, if_false]
        rcases hval with e | ⟨_, e⟩
        · rw [e]
        · exact absurd e hesc

theorem get_put_suite_shannon_fano (suite : List Int) :
    ∀ (sf : shannon_fano) (bits : List Bool) (tables : List shannon_fano) (r : List Bool),
      (∀ v ∈ suite, 0 ≤ v ∧ v < 2 ^ 31) →
      put_suite_shannon_fano sf suite = some (bits, tables) →
      get_suite_shannon_fano sf suite.length (bits ++ r) = some (suite, tables, r) := by
  induction suite with
  | nil =>
    intro sf bits tables r _ h
    simp only [put_suite_shannon_fano, Option.some.injEq, Prod.mk.injEq] at h
    obtain ⟨rfl, rfl⟩ := h
    rfl
  | cons v suite ih =>
    intro sf bits tables r hv h
    simp only [put_suite_shannon_fano] at h
    split at h
    · exact absurd h (by simp)
    · rename_i b1 sf1 h1
      split at h
      · exact absurd h (by simp)
      · rename_i b2 t2 h2
        simp only [Option.some.injEq, Prod.mk.injEq] at h
        obtain ⟨rfl, rfl⟩ := h
        have hv0 := hv v (List.mem_cons_self _ _)
        simp only [List.length_cons, get_suite_shannon_fano, List.append_assoc]
        rw [get_put_entier_shannon_fano sf sf1 v b1 (b2 ++ r) (by omega) hv0.2 h1]
        simp only []
        rw [ih sf1 b2 t2 r (fun w hw => hv w (List.mem_cons_of_mem _ hw)) h2]


/-! ## Proofs: adaptive Shannon-Fano, the table -/

theorem evenement_set (l : List evenement) (i k : Nat) (a : evenement) (hi : i < l.length) :
    ({ evenements := l.set i a } : shannon_fano).evenement k =
      if k = i then a else ({ evenements := l } : shannon_fano).evenement k := by
  simp only [shannon_fano.evenement, List.getD_eq_getElem?_getD, List.getElem?_set]
  by_cases h1 : i = k
  · subst h1
    simp [hi]
  · have h3 : ¬ k = i := fun h => h1 h.symm
    simp [h1, h3]

theorem remonte_spec (sf : shannon_fano) (nb : Int) (p : Nat) :
    remonte sf nb p ≤ p ∧
    (∀ k, remonte sf nb p ≤ k → k < p → (sf.evenement k).nb_occurrences = nb) ∧
    (remonte sf nb p = 0 ∨ (sf.evenement (remonte sf nb p - 1)).nb_occurrences ≠ nb) := by
  induction p with
  | zero => simp [remonte]
  | succ p ih =>
    simp only [remonte]
    by_cases h : nb = (sf.evenement p).nb_occurrences
    · simp only [h, if_true]
      rw [← h]
      obtain ⟨a, b, c⟩ := ih
      refine ⟨by omega, ?_, c⟩
      intro k hk1 hk2
      by_cases hkp : k = p
      · rw [hkp, ← h]
      · exact b k hk1 (by omega)
    · simp only [h, if_false]
      refine ⟨le_refl _, fun k hk1 hk2 => by omega, Or.inr ?_⟩
      simp only [Nat.add_sub_cancel]
      exact fun e => h e.symm

theorem incremente_et_ordonne_nb_evenements (sf : shannon_fano) (p : Nat) :
    (incremente_et_ordonne sf p).nb_evenements = sf.nb_evenements := by
  simp [incremente_et_ordonne, shannon_fano.nb_evenements]

/-- The table after `incremente_et_ordonne`, cell by cell: the event of
`position` moves to `i + 1` with its count incremented, the event of `i + 1`
moves to `position`. -/
theorem incremente_et_ordonne_evenement (sf : shannon_fano) (p : Nat)
    (hp : p < sf.nb_evenements) (k : Nat) :
    (incremente_et_ordonne sf p).evenement k =
      if k = remonte sf (sf.evenement p).nb_occurrences p then
        { valeur := (sf.evenement p).valeur,
          nb_occurrences := tronque_int ((sf.evenement p).nb_occurrences + 1) }
      else if k = p then sf.evenement (remonte sf (sf.evenement p).nb_occurrences p)
      else sf.evenement k := by
  have hj := (remonte_spec sf (sf.evenement p).nb_occurrences p).1
  simp only [shannon_fano.nb_evenements] at hp
  unfold incremente_et_ordonne
  simp only []
  generalize remonte sf (sf.evenement p).nb_occurrences p = j at hj ⊢
  generalize hep : sf.evenement p = ep
  have hj2 : j < sf.evenements.length := by omega
  have L1 : p < (sf.evenements.set p
      { valeur := ep.valeur, nb_occurrences := tronque_int (ep.nb_occurrences + 1) }).length := by
    rw [List.length_set]; exact hp
  have L2 : j < (sf.evenements.set p
      { valeur := ep.valeur, nb_occurrences := tronque_int (ep.nb_occurrences + 1) }).length := by
    rw [List.length_set]; exact hj2
  rw [evenement_set _ p k _ (by rw [List.length_set]; exact L1), evenement_set _ j k _ L2,
    evenement_set _ p k _ hp, evenement_set _ p j _ hp, evenement_set _ p p _ hp]
  have hsf : ∀ m, ({ evenements := sf.evenements } : shannon_fano).evenement m = sf.evenement m :=
    fun _ => rfl
  simp only [hsf, if_true]
  by_cases h1 : k = j
  · by_cases h2 : k = p
    · subst h2; subst h1; simp
    · subst h1; simp [h2]
  · by_cases h2 : k = p
    · subst h2
      have h3 : ¬ j = k := fun e => h1 e.symm
      simp [h3, h1]
    · simp [h1, h2]

theorem ajoute_evenement_some (sf sf1 : shannon_fano) (v : Int)
    (h : ajoute_evenement sf v = some sf1) :
    sf1.nb_evenements = sf.nb_evenements + 1 ∧
    sf.nb_evenements < TAILLE_EVENEMENTS ∧
    sf1.evenements = sf.evenements ++ [{ valeur := v, nb_occurrences := 1 }] := by
  unfold ajoute_evenement at h
  split at h
  · rename_i hc
    simp only [Option.some.injEq] at h
    subst h
    simp only [shannon_fano.nb_evenements] at hc ⊢
    simp [hc]
  · exact absurd h (by simp)

theorem evenement_append (l : List evenement) (e : evenement) (k : Nat) :
    ({ evenements := l ++ [e] } : shannon_fano).evenement k =
      if k < l.length then ({ evenements := l } : shannon_fano).evenement k
      else if k = l.length then e else { valeur := 0, nb_occurrences := 0 } := by
  simp only [shannon_fano.evenement, List.getD_eq_getElem?_getD, List.getElem?_append]
  by_cases h1 : k < l.length
  · simp [h1]
  · by_cases h2 : k = l.length
    · simp [h2]
    · have : k - l.length ≠ 0 := by omega
      obtain ⟨m, hm⟩ : ∃ m, k - l.length = m + 1 := ⟨k - l.length - 1, by omega⟩
      simp [h1, h2, hm]

theorem tronque_int_eq (z : Int) (h1 : -2147483648 ≤ z) (h2 : z < 2147483648) :
    tronque_int z = z := by
  unfold tronque_int
  omega

/-- After `incremente_et_ordonne` the values of the table are those of before,
moved by an exchange of two indices. -/
theorem incremente_et_ordonne_echange (sf : shannon_fano) (p : Nat)
    (hp : p < sf.nb_evenements) :
    ∃ σ : Nat → Nat, (∀ k, σ (σ k) = k) ∧ (∀ k, k < sf.nb_evenements → σ k < sf.nb_evenements) ∧
      ∀ k, ((incremente_et_ordonne sf p).evenement k).valeur = (sf.evenement (σ k)).valeur := by
  have hj := (remonte_spec sf (sf.evenement p).nb_occurrences p).1
  have hv : ∀ k, ((incremente_et_ordonne sf p).evenement k).valeur =
      (sf.evenement (if k = remonte sf (sf.evenement p).nb_occurrences p then p
        else if k = p then remonte sf (sf.evenement p).nb_occurrences p else k)).valeur := by
    intro k
    rw [incremente_et_ordonne_evenement sf p hp k]
    split
    · rfl
    · split <;> rfl
  generalize remonte sf (sf.evenement p).nb_occurrences p = j at hj hv
  refine ⟨fun k => if k = j then p else if k = p then j else k, ?_, ?_, hv⟩
  · intro k
    simp only []
    split_ifs <;> omega
  · intro k hk
    simp only []
    split_ifs <;> omega

/-- A property of events that holds for every event but the one at `position`,
and for the incremented event, holds for every event after
`incremente_et_ordonne`. -/
theorem incremente_et_ordonne_table (sf : shannon_fano) (p : Nat) (hp : p < sf.nb_evenements)
    (F : evenement → Prop)
    (hF : ∀ k, k < sf.nb_evenements → k ≠ p → F (sf.evenement k))
    (hpos : F (evenement.mk (sf.evenement p).valeur
      (tronque_int ((sf.evenement p).nb_occurrences + 1)))) :
    ∀ k, k < (incremente_et_ordonne sf p).nb_evenements →
      F ((incremente_et_ordonne sf p).evenement k) := by
  intro k hk
  rw [incremente_et_ordonne_nb_evenements] at hk
  have hj := (remonte_spec sf (sf.evenement p).nb_occurrences p).1
  rw [incremente_et_ordonne_evenement sf p hp k]
  split
  · exact hpos
  · rename_i h1
    split
    · rename_i h2
      exact hF _ (by omega) (by omega)
    · rename_i h2
      exact hF k hk h2

theorem incremente_et_ordonne_injective (sf : shannon_fano) (p : Nat)
    (hp : p < sf.nb_evenements)
    (h : ∀ i j, i < sf.nb_evenements → j < sf.nb_evenements →
      (sf.evenement i).valeur = (sf.evenement j).valeur → i = j) :
    ∀ i j, i < (incremente_et_ordonne sf p).nb_evenements →
      j < (incremente_et_ordonne sf p).nb_evenements →
      ((incremente_et_ordonne sf p).evenement i).valeur =
        ((incremente_et_ordonne sf p).evenement j).valeur → i = j := by
  obtain ⟨σ, h1, h2, h3⟩ := incremente_et_ordonne_echange sf p hp
  intro i j hi hj e
  rw [incremente_et_ordonne_nb_evenements] at hi hj
  rw [h3, h3] at e
  have := h _ _ (h2 i hi) (h2 j hj) e
  rw [← h1 i, ← h1 j, this]

theorem incremente_et_ordonne_existe (sf : shannon_fano) (p : Nat)
    (hp : p < sf.nb_evenements) (v : Int)
    (h : ∃ k, k < sf.nb_evenements ∧ (sf.evenement k).valeur = v) :
    ∃ k, k < (incremente_et_ordonne sf p).nb_evenements ∧
      ((incremente_et_ordonne sf p).evenement k).valeur = v := by
  obtain ⟨σ, h1, h2, h3⟩ := incremente_et_ordonne_echange sf p hp
  obtain ⟨k, hk, e⟩ := h
  refine ⟨σ k, ?_, ?_⟩
  · rw [incremente_et_ordonne_nb_evenements]
    exact h2 k hk
  · rw [h3, h1]
    exact e

/-- The cells of the table after an event was appended. -/
theorem ajoute_evenement_cellule (sf sf1 : shannon_fano) (v : Int)
    (ha : ajoute_evenement sf v = some sf1) :
    sf1.nb_evenements = sf.nb_evenements + 1 ∧
    (∀ k, k < sf.nb_evenements → sf1.evenement k = sf.evenement k) ∧
    sf1.evenement sf.nb_evenements = { valeur := v, nb_occurrences := 1 } := by
  obtain ⟨hn, _, hl⟩ := ajoute_evenement_some sf sf1 v ha
  have hc : ∀ k, sf1.evenement k =
      if k < sf.evenements.length then sf.evenement k
      else if k = sf.evenements.length then { valeur := v, nb_occurrences := 1 }
      else { valeur := 0, nb_occurrences := 0 } := by
    intro k
    have := evenement_append sf.evenements { valeur := v, nb_occurrences := 1 } k
    rw [← hl] at this
    exact this
  refine ⟨hn, ?_, ?_⟩
  · intro k hk
    rw [hc]
    exact if_pos hk
  · rw [hc]
    simp [shannon_fano.nb_evenements]



/-! ## Proofs: adaptive Shannon-Fano, the invariant -/

theorem invariant_open : open_shannon_fano.invariant := by
  refine ⟨?_, ⟨0, by decide, rfl⟩, ?_⟩
  · intro k hk
    simp [open_shannon_fano, shannon_fano.nb_evenements] at hk
  · intro k hk
    have : k = 0 := by
      simp [open_shannon_fano, shannon_fano.nb_evenements] at hk
      exact hk
    subst this
    decide

theorem a_escape_put_entier_shannon_fano (sf sf2 : shannon_fano) (v : Int) (bits : List Bool)
    (h : sf.a_escape) (hput : put_entier_shannon_fano sf v = some (bits, sf2)) :
    sf2.a_escape := by
  unfold put_entier_shannon_fano at hput
  split at hput
  · exact absurd hput (by simp)
  · rename_i pos hpos
    obtain ⟨hlt, _⟩ := trouve_position_some sf v pos hpos
    split at hput
    · exact absurd hput (by simp)
    · split at hput
      · split at hput
        · exact absurd hput (by simp)
        · rename_i sf1 hsf1
          simp only [Option.some.injEq, Prod.mk.injEq] at hput
          rw [← hput.2]
          obtain ⟨a1, a2, _⟩ := ajoute_evenement_cellule sf sf1 v hsf1
          obtain ⟨e, he, hev⟩ := h
          exact incremente_et_ordonne_existe sf1 pos (by omega) _
            ⟨e, by omega, by rw [a2 e he]; exact hev⟩
      · simp only [Option.some.injEq, Prod.mk.injEq] at hput
        rw [← hput.2]
        exact incremente_et_ordonne_existe sf pos hlt _ h

theorem mem_evenements_of_lt (sf : shannon_fano) (k : Nat) (hk : k < sf.nb_evenements) :
    sf.evenement k ∈ sf.evenements := by
  simp only [shannon_fano.nb_evenements] at hk
  simp only [shannon_fano.evenement, List.getD_eq_getElem?_getD, List.getElem?_eq_getElem hk,
    Option.getD_some]
  exact List.getElem_mem _

/-- With `VALEUR_ESCAPE` in the table and room in the array, the call
returns, and the table grows by at most one event. -/
theorem put_entier_shannon_fano_some (sf : shannon_fano) (v : Int) (h : sf.a_escape)
    (hn : sf.nb_evenements < TAILLE_EVENEMENTS) :
    ∃ bits sf2, put_entier_shannon_fano sf v = some (bits, sf2) ∧
      sf2.nb_evenements ≤ sf.nb_evenements + 1 := by
  obtain ⟨e, he, hev⟩ := h
  have hpos : ∃ pos, trouve_position sf v = some pos := by
    unfold trouve_position
    split
    · exact ⟨_, rfl⟩
    · cases hq : trouve_valeur VALEUR_ESCAPE sf.evenements 0 with
      | some pos => exact ⟨pos, rfl⟩
      | none =>
        exact absurd hev ((trouve_valeur_none _ _ _).1 hq _ (mem_evenements_of_lt sf e he))
  obtain ⟨pos, hpos⟩ := hpos
  obtain ⟨bits, hbits⟩ := encode_position_some sf pos
  unfold put_entier_shannon_fano
  simp only [hpos, hbits]
  by_cases hesc : (sf.evenement pos).valeur = VALEUR_ESCAPE
  · simp only [hesc, if_true, ajoute_evenement, hn]
    refine ⟨_, _, rfl, ?_⟩
    rw [incremente_et_ordonne_nb_evenements]
    simp [shannon_fano.nb_evenements]
  · simp only [hesc, if_false]
    refine ⟨_, _, rfl, ?_⟩
    rw [incremente_et_ordonne_nb_evenements]
    omega

theorem put_suite_shannon_fano_some (suite : List Int) :
    ∀ (sf : shannon_fano), sf.a_escape →
      sf.nb_evenements + suite.length ≤ TAILLE_EVENEMENTS →
      ∃ bits tables, put_suite_shannon_fano sf suite = some (bits, tables) := by
  induction suite with
  | nil => intro sf _ _; exact ⟨_, _, rfl⟩
  | cons v suite ih =>
    intro sf h hn
    simp only [List.length_cons] at hn
    obtain ⟨bits, sf2, hput, hlen⟩ := put_entier_shannon_fano_some sf v h (by omega)
    obtain ⟨b2, t2, hs⟩ := ih sf2 (a_escape_put_entier_shannon_fano sf sf2 v bits h hput)
      (by omega)
    exact ⟨bits ++ b2, sf2 :: t2, by simp only [put_suite_shannon_fano, hput, hs]⟩


/-! ## Proofs: adaptive Shannon-Fano, a full table -/

theorem valeurs_incremente_et_ordonne (Q : Int → Prop) (sf : shannon_fano) (p : Nat)
    (hp : p < sf.nb_evenements) (h : ∀ i, i < sf.nb_evenements → Q (sf.evenement i).valeur) :
    ∀ i, i < (incremente_et_ordonne sf p).nb_evenements →
      Q ((incremente_et_ordonne sf p).evenement i).valeur := by
  intro i hi
  rw [incremente_et_ordonne_nb_evenements] at hi
  rw [incremente_et_ordonne_evenement sf p hp i]
  have hj := (remonte_spec sf (sf.evenement p).nb_occurrences p).1
  split
  · exact h p hp
  · split
    · exact h _ (by omega)
    · exact h i hi

theorem valeurs_ajoute_evenement (Q : Int → Prop) (sf sf1 : shannon_fano) (v : Int)
    (ha : ajoute_evenement sf v = some sf1)
    (h : ∀ i, i < sf.nb_evenements → Q (sf.evenement i).valeur) (hv : Q v) :
    ∀ i, i < sf1.nb_evenements → Q (sf1.evenement i).valeur := by
  obtain ⟨hn, _, hl⟩ := ajoute_evenement_some sf sf1 v ha
  intro i hi
  have := evenement_append sf.evenements { valeur := v, nb_occurrences := 1 } i
  rw [← hl] at this
  rw [this]
  by_cases h1 : i < sf.evenements.length
  · rw [if_pos h1]
    exact h i h1
  · have h2 : i = sf.evenements.length := by
      simp only [shannon_fano.nb_evenements] at hn hi
      omega
    rw [if_neg h1, if_pos h2]
    exact hv

/-- Coding a value that no event of the table holds appends an event: there
is no result when the array is full, and otherwise the table has one more
event, whose values are the former ones and the new one. -/
theorem put_entier_shannon_fano_nouveau (sf : shannon_fano) (v : Int)
    (hnew : ∀ i, i < sf.nb_evenements → (sf.evenement i).valeur ≠ v) :
    (TAILLE_EVENEMENTS ≤ sf.nb_evenements → put_entier_shannon_fano sf v = none) ∧
    ∀ bits sf2, put_entier_shannon_fano sf v = some (bits, sf2) →
      sf2.nb_evenements = sf.nb_evenements + 1 ∧
      ∀ Q : Int → Prop, (∀ i, i < sf.nb_evenements → Q (sf.evenement i).valeur) → Q v →
        ∀ i, i < sf2.nb_evenements → Q (sf2.evenement i).valeur := by
  unfold put_entier_shannon_fano
  split
  · exact ⟨fun _ => rfl, fun _ _ h => absurd h (by simp)⟩
  · rename_i pos hpos
    obtain ⟨hlt, hval⟩ := trouve_position_some sf v pos hpos
    have hesc : (sf.evenement pos).valeur = VALEUR_ESCAPE := by
      rcases hval with e | ⟨_, e⟩
      · exact absurd e (hnew pos hlt)
      · exact e
    split
    · exact ⟨fun _ => rfl, fun _ _ h => absurd h (by simp)⟩
    · rw [if_pos hesc]
      split
      · exact ⟨fun _ => rfl, fun _ _ h => absurd h (by simp)⟩
      · rename_i sf1 hsf1
        obtain ⟨hn, hcap, _⟩ := ajoute_evenement_some sf sf1 v hsf1
        refine ⟨fun hfull => by omega, ?_⟩
        intro bits sf2 h
        simp only [Option.some.injEq, Prod.mk.injEq] at h
        rw [← h.2]
        refine ⟨by rw [incremente_et_ordonne_nb_evenements]; exact hn, ?_⟩
        intro Q hQ hv
        exact valeurs_incremente_et_ordonne Q sf1 pos (by omega)
          (valeurs_ajoute_evenement Q sf sf1 v hsf1 hQ hv)

theorem put_suite_shannon_fano_plein (m : Nat) :
    ∀ (k : Nat) (sf : shannon_fano), sf.a_escape → sf.nb_evenements = k + 1 →
      k + m + 1 = TAILLE_EVENEMENTS →
      (∀ i, i < sf.nb_evenements → (sf.evenement i).valeur = VALEUR_ESCAPE ∨
        (sf.evenement i).valeur < (k : Int)) →
      put_suite_shannon_fano sf ((List.range' k (m + 1)).map Int.ofNat) = none := by
  induction m with
  | zero =>
    intro k sf _ hn hk hval
    have hnew : ∀ i, i < sf.nb_evenements → (sf.evenement i).valeur ≠ Int.ofNat k := by
      intro i hi
      have hk2 : k < 200000 := by simp only [TAILLE_EVENEMENTS] at hk; omega
      rcases hval i hi with e | e
      · rw [e]; simp only [VALEUR_ESCAPE, Int.ofNat_eq_coe]; omega
      · simp only [Int.ofNat_eq_coe]; omega
    have := (put_entier_shannon_fano_nouveau sf _ hnew).1 (by omega)
    simp only [List.range'_one, List.map_cons, List.map_nil, put_suite_shannon_fano, this]
  | succ m ih =>
    intro k sf hinv hn hk hval
    have hnew : ∀ i, i < sf.nb_evenements → (sf.evenement i).valeur ≠ Int.ofNat k := by
      intro i hi
      have hk2 : k < 200000 := by simp only [TAILLE_EVENEMENTS] at hk; omega
      rcases hval i hi with e | e
      · rw [e]; simp only [VALEUR_ESCAPE, Int.ofNat_eq_coe]; omega
      · simp only [Int.ofNat_eq_coe]; omega
    rw [List.range'_succ, List.map_cons, put_suite_shannon_fano]
    cases hput : put_entier_shannon_fano sf (Int.ofNat k) with
    | none => rfl
    | some r =>
      obtain ⟨bits, sf2⟩ := r
      obtain ⟨hn2, hQ⟩ := (put_entier_shannon_fano_nouveau sf _ hnew).2 bits sf2 hput
      have h2 := ih (k + 1) sf2 (a_escape_put_entier_shannon_fano sf sf2 _ bits hinv hput)
        (by omega) (by omega)
        (hQ (fun x => x = VALEUR_ESCAPE ∨ x < ((k + 1 : Nat) : Int))
          (fun i hi => by
            rcases hval i hi with e | e
            · exact Or.inl e
            · right; push_cast; omega)
          (by right; simp only [Int.ofNat_eq_coe]; push_cast; omega))
      simp only [h2]

/-! ## Proofs: sub-band quantisation -/

theorem ceil_div_huit_lt (q : ℚ) (h1 : 1 < q) : Nat.ceil (q / 8) < Nat.ceil q := by
  apply Nat.lt_ceil.2
  by_cases h8 : q ≤ 8
  · have : Nat.ceil (q / 8) ≤ 1 := Nat.ceil_le.2 (by push_cast; linarith)
    have : ((Nat.ceil (q / 8) : Nat) : ℚ) ≤ 1 := by exact_mod_cast this
    linarith
  · have := Nat.ceil_lt_add_one (show (0 : ℚ) ≤ q / 8 by linarith)
    linarith

/-- A pass that rewrites each cell of a list without repetition: every cell
of the list gets the image of its former value, the others are untouched. -/
theorem foldl_pose_fonction (g : Nat → Nat → ℚ → ℚ) (l : List (Nat × Nat)) (hl : l.Nodup) :
    ∀ (m : Matrice),
      (l.foldl (fun m c => m.pose c.1 c.2 (g c.1 c.2 (m.t c.1 c.2))) m).height = m.height ∧
      (l.foldl (fun m c => m.pose c.1 c.2 (g c.1 c.2 (m.t c.1 c.2))) m).width = m.width ∧
      ∀ i j, (l.foldl (fun m c => m.pose c.1 c.2 (g c.1 c.2 (m.t c.1 c.2))) m).t i j =
        if (i, j) ∈ l then g i j (m.t i j) else m.t i j := by
  induction l with
  | nil => intro m; simp
  | cons c l ih =>
    intro m
    obtain ⟨hc, hl2⟩ := List.nodup_cons.1 hl
    obtain ⟨a, b, e⟩ := ih hl2 (m.pose c.1 c.2 (g c.1 c.2 (m.t c.1 c.2)))
    simp only [List.foldl_cons]
    refine ⟨a, b, ?_⟩
    intro i j
    rw [e i j, pose_t]
    by_cases h1 : (i, j) = c
    · subst h1
      simp [hc]
    · have h2 : ¬ (i = c.1 ∧ j = c.2) := by
        rintro ⟨e1, e2⟩
        exact h1 (by subst e1 e2; rfl)
      simp only [h2, if_false, List.mem_cons, h1, false_or]

theorem mem_cellules_quantif (h w i j : Nat) :
    (i, j) ∈ ((List.range h).product (List.range w)).filter
        (fun c => decide (c.1 > h / 2 + 1 ∨ c.2 > w / 2 + 1)) ↔
      i < h ∧ j < w ∧ (i > h / 2 + 1 ∨ j > w / 2 + 1) := by
  rw [List.mem_filter]
  have := @List.mem_product _ _ (List.range h) (List.range w) i j
  simp only [List.mem_range] at this
  simp only [decide_eq_true_eq]
  constructor
  · rintro ⟨a, b⟩
    exact ⟨(this.1 a).1, (this.1 a).2, b⟩
  · rintro ⟨a, b, c⟩
    exact ⟨this.2 ⟨a, b⟩, c⟩

theorem quantif_niveau_cellule (image : Matrice) (h w : Nat) (q : ℚ) :
    (quantif_niveau image h w q).height = image.height ∧
    (quantif_niveau image h w q).width = image.width ∧
    ∀ i j, (quantif_niveau image h w q).t i j =
      if i < h ∧ j < w ∧ (i > h / 2 + 1 ∨ j > w / 2 + 1) then image.t i j / q
      else image.t i j := by
  have e : quantif_niveau image h w q =
      (((List.range h).product (List.range w)).filter
        (fun c => decide (c.1 > h / 2 + 1 ∨ c.2 > w / 2 + 1))).foldl
        (fun m c => m.pose c.1 c.2 ((fun _ _ x => x / q) c.1 c.2 (m.t c.1 c.2))) image :=
    foldl_produit_filtre (fun (m : Matrice) c => m.pose c.1 c.2 (m.t c.1 c.2 / q))
      (fun c => c.1 > h / 2 + 1 ∨ c.2 > w / 2 + 1) _ _ image
  obtain ⟨a, b, c⟩ := foldl_pose_fonction (fun _ _ x => x / q) _
    (List.Nodup.filter _ (List.Nodup.product (List.nodup_range h) (List.nodup_range w))) image
  rw [e]
  exact ⟨a, b, fun i j => (c i j).trans (if_congr (mem_cellules_quantif h w i j) rfl rfl)⟩

theorem quantif_ondelette_boucle_cellule (n : Nat) :
    ∀ (q : ℚ), Nat.ceil q = n → ∀ (image : Matrice) (h w : Nat),
      (quantif_ondelette_boucle image h w q).height = image.height ∧
      (quantif_ondelette_boucle image h w q).width = image.width ∧
      ∀ i j, (quantif_ondelette_boucle image h w q).t i j =
        image.t i j / facteur_quantif h w q i j := by
  induction n using Nat.strong_induction_on with
  | _ n ih =>
    intro q hn image h w
    rw [quantif_ondelette_boucle]
    by_cases hq : q > 1 ∧ (h > 1 ∨ w > 1)
    · rw [dif_pos hq]
      obtain ⟨a, b, c⟩ := ih _ (hn ▸ ceil_div_huit_lt q hq.1) (q / 8) rfl
        (quantif_niveau image h w q) (h / 2 + 1) (w / 2 + 1)
      obtain ⟨a2, b2, c2⟩ := quantif_niveau_cellule image h w q
      refine ⟨a.trans a2, b.trans b2, ?_⟩
      intro i j
      rw [c i j, c2 i j]
      conv_rhs => rw [facteur_quantif, if_pos hq]
      split
      · rw [div_div]
      · rw [one_mul]
    · rw [dif_neg hq]
      refine ⟨rfl, rfl, ?_⟩
      intro i j
      rw [facteur_quantif, if_neg hq, div_one]

theorem Matrice.egal (m1 m2 : Matrice) (hh : m1.height = m2.height) (hw : m1.width = m2.width)
    (ht : ∀ i j, m1.t i j = m2.t i j) : m1 = m2 := by
  cases m1 with
  | mk h1 w1 t1 =>
    cases m2 with
    | mk h2 w2 t2 =>
      simp only at hh hw ht
      subst hh hw
      have : t1 = t2 := by funext i j; exact ht i j
      subst this
      rfl

theorem quantif_ondelette_boucle_reference (n : Nat) :
    ∀ (q : ℚ), Nat.ceil q = n → ∀ (image : Matrice) (h w : Nat), 1 ≤ h → 1 ≤ w →
      (quantif_ondelette_boucle image h w q).t =
        quantif_reference (fun h => h / 2 + 1) (fun h => h / 2 + 1) image.t h w q := by
  induction n using Nat.strong_induction_on with
  | _ n ih =>
    intro q hn image h w h1 w1
    rw [quantif_ondelette_boucle, quantif_reference]
    by_cases hq : q > 1 ∧ (h > 1 ∨ w > 1)
    · have hq2 : q > 1 ∧ ¬ (h = 1 ∧ w = 1) := ⟨hq.1, by omega⟩
      rw [dif_pos hq, dif_pos hq2]
      rw [ih _ (hn ▸ ceil_div_huit_lt q hq.1) (q / 8) rfl _ _ _ (by omega) (by omega)]
      have e : (quantif_niveau image h w q).t = fun i j =>
          if i < h ∧ j < w ∧ (i > h / 2 + 1 ∨ j > w / 2 + 1) then image.t i j / q
          else image.t i j := by
        funext i j
        exact (quantif_niveau_cellule image h w q).2.2 i j
      rw [e]
    · have hq2 : ¬ (q > 1 ∧ ¬ (h = 1 ∧ w = 1)) := by
        rintro ⟨a, b⟩
        exact hq ⟨a, by omega⟩
      rw [dif_neg hq, dif_neg hq2]

/-! ## Proofs: quantisation of a DCT block -/

theorem foldl_produit {σ : Type} (f : σ → Nat × Nat → σ) (l1 l2 : List Nat) (s : σ) :
    l1.foldl (fun s j => l2.foldl (fun s i => f s (j, i)) s) s = (l1.product l2).foldl f s := by
  induction l1 generalizing s with
  | nil => rfl
  | cons a l1 ih =>
    rw [List.product.eq_1, List.flatMap_cons, List.foldl_append, List.foldl_cons,
      List.foldl_map, ← List.product.eq_1]
    exact ih _

theorem quantification_cellule (nbe : Nat) (qualite : Int) (extrait : Matrice) (inverse : Int) :
    (quantification nbe qualite extrait inverse).height = extrait.height ∧
    (quantification nbe qualite extrait inverse).width = extrait.width ∧
    ∀ i j, (quantification nbe qualite extrait inverse).t i j =
      if i < nbe ∧ j < nbe then
        extrait.t i j *
          (if inverse = 0 then 1 / ((pas_quantification i j qualite : Int) : ℚ)
           else ((pas_quantification i j qualite : Int) : ℚ))
      else extrait.t i j := by
  have e : quantification nbe qualite extrait inverse =
      ((List.range nbe).product (List.range nbe)).foldl
        (fun m c => m.pose c.1 c.2 ((fun (i j : Nat) (x : ℚ) => x *
          (if inverse = 0 then 1 / ((pas_quantification i j qualite : Int) : ℚ)
           else ((pas_quantification i j qualite : Int) : ℚ))) c.1 c.2 (m.t c.1 c.2)))
        extrait :=
    foldl_produit (fun (m : Matrice) c => m.pose c.1 c.2 (m.t c.1 c.2 *
      (if inverse = 0 then 1 / ((pas_quantification c.1 c.2 qualite : Int) : ℚ)
       else ((pas_quantification c.1 c.2 qualite : Int) : ℚ)))) _ _ extrait
  obtain ⟨a, b, c⟩ := foldl_pose_fonction (fun (i j : Nat) (x : ℚ) => x *
      (if inverse = 0 then 1 / ((pas_quantification i j qualite : Int) : ℚ)
       else ((pas_quantification i j qualite : Int) : ℚ))) _
    (List.Nodup.product (List.nodup_range nbe) (List.nodup_range nbe)) extrait
  rw [e]
  refine ⟨a, b, fun i j => (c i j).trans (if_congr ?_ rfl rfl)⟩
  have := @List.mem_product _ _ (List.range nbe) (List.range nbe) i j
  simp only [List.mem_range] at this
  exact this

/-- While the largest step of the block fits in an `int`, the step computed
on `int` is the exact `1 + (i + j + 1) * qualite`. -/
theorem pas_quantification_eq (nbe i j : Nat) (qualite : Int) (hq : 0 ≤ qualite)
    (hmax : (2 * (nbe : Int) - 1) * qualite + 1 < 2147483648) (hi : i < nbe) (hj : j < nbe) :
    pas_quantification i j qualite = 1 + ((i : Int) + (j : Int) + 1) * qualite := by
  unfold pas_quantification
  rcases hq.eq_or_lt with h0 | hpos
  · rw [← h0]
    simp only [mul_zero, add_zero]
    rw [tronque_int_eq 0 (by norm_num) (by norm_num), add_zero,
      tronque_int_eq 1 (by norm_num) (by norm_num)]
  · have hij : (i : Int) + (j : Int) + 1 ≤ 2 * (nbe : Int) - 1 := by omega
    have h1 : ((i : Int) + (j : Int) + 1) * qualite ≤ (2 * (nbe : Int) - 1) * qualite :=
      mul_le_mul_of_nonneg_right hij hq
    have h2 : (i : Int) + (j : Int) + 1 ≤ ((i : Int) + (j : Int) + 1) * qualite := by
      have : 1 ≤ qualite := hpos
      nlinarith
    have h3 : 0 ≤ ((i : Int) + (j : Int) + 1) * qualite := by positivity
    rw [tronque_int_eq ((i : Int) + (j : Int) + 1) (by omega) (by omega),
      tronque_int_eq (((i : Int) + (j : Int) + 1) * qualite) (by omega) (by omega),
      tronque_int_eq (1 + ((i : Int) + (j : Int) + 1) * qualite) (by omega) (by omega)]

/-! ## Proofs: psychoacoustic mask -/

theorem de_liste_update (l : List ℚ) (i : Nat) (v : ℚ) (hi : i < l.length) :
    Function.update (de_liste l) i v = de_liste (l.set i v) := by
  funext k
  simp only [de_liste, Function.update_apply, List.getD_eq_getElem?_getD, List.getElem?_set]
  by_cases h : i = k
  · subst h; simp [hi]
  · have h2 : ¬ k = i := fun e => h e.symm
    simp [h, h2]

theorem de_liste_apply (l : List ℚ) (i : Nat) : de_liste l i = l.getD i 0 := rfl

theorem filter_le_range (a n : Nat) :
    (List.range n).filter (fun k => decide (a ≤ k)) = List.range' a (n - a) := by
  induction n with
  | zero => simp
  | succ n ih =>
    rw [List.range_succ, List.filter_append, ih]
    by_cases h : a ≤ n
    · have : n + 1 - a = (n - a) + 1 := by omega
      rw [this, List.range'_concat]
      have e : a + (n - a) = n := by omega
      simp [h, e]
    · have : n + 1 - a = 0 := by omega
      have h2 : n - a = 0 := by omega
      simp [h, this, h2]

theorem psycho_paire_zero (c A1 : ℚ) (F1 F2 : Nat) (dct : Ligne) (h1 : 1 ≤ F1) (h2 : 1 ≤ F2) :
    psycho_paire c A1 F1 F2 dct 0 = dct 0 := by
  unfold psycho_paire
  split
  · rw [Function.update_apply, if_neg (by omega)]
  · split
    · rw [Function.update_apply, if_neg (by omega)]
    · rfl

theorem foldl_conserve {α : Type} (P : Ligne → Prop) (f : Ligne → α → Ligne) (l : List α)
    (hf : ∀ d a, a ∈ l → P d → P (f d a)) : ∀ d, P d → P (l.foldl f d) := by
  induction l with
  | nil => intro d h; exact h
  | cons a l ih =>
    intro d h
    exact ih (fun d b hb hd => hf d b (List.mem_cons_of_mem _ hb) hd) _
      (hf d a (List.mem_cons_self _ _) h)

/-- The body of the loop of `psycho` does what the reference step says. -/
theorem psycho_paire_reference (c A1 : ℚ) (F1 F2 : Nat) (d : Ligne) :
    psycho_paire c A1 F1 F2 d = psycho_reference_paire c A1 (d F2) F1 F2 d := by
  funext k
  have e : ((((F2 : Int) - (F1 : Int) : Int)) : ℚ) = (F2 : ℚ) - (F1 : ℚ) := by push_cast; ring
  unfold psycho_paire psycho_reference_paire
  simp only [e]
  split_ifs with h1 h2 h3 h4 <;> simp_all [Function.update_apply]

theorem psycho_reference_paires (nbe : Nat) (dct : Ligne) (c : ℚ) :
    psycho_reference nbe dct c =
      (((List.range nbe).product (List.range nbe)).filter
        (fun p => decide (1 ≤ p.1 ∧ p.1 < p.2))).foldl
      (fun d p => psycho_paire c (d p.1) p.1 p.2 d) dct := by
  unfold psycho_reference
  congr 1
  funext d p
  rw [psycho_paire_reference]

/-! ## Proofs: discrete cosine transform -/

theorem une_escape_open : open_shannon_fano.une_escape := by
  refine ⟨0, ⟨by decide, by decide⟩, ?_⟩
  rintro k ⟨hk, _⟩
  have : open_shannon_fano.nb_evenements = 1 := by decide
  omega

theorem une_escape_incremente_et_ordonne (sf : shannon_fano) (p : Nat)
    (hp : p < sf.nb_evenements) (h : sf.une_escape) :
    (incremente_et_ordonne sf p).une_escape := by
  have hj := (remonte_spec sf (sf.evenement p).nb_occurrences p).1
  have hv : ∀ k, ((incremente_et_ordonne sf p).evenement k).valeur =
      (sf.evenement (if k = remonte sf (sf.evenement p).nb_occurrences p then p
        else if k = p then remonte sf (sf.evenement p).nb_occurrences p else k)).valeur := by
    intro k
    rw [incremente_et_ordonne_evenement sf p hp k]
    split
    · rfl
    · split <;> rfl
  generalize remonte sf (sf.evenement p).nb_occurrences p = j at hj hv
  obtain ⟨k0, ⟨hk0, he0⟩, hu⟩ := h
  unfold shannon_fano.une_escape
  rw [incremente_et_ordonne_nb_evenements]
  refine ⟨if k0 = j then p else if k0 = p then j else k0, ⟨?_, ?_⟩, ?_⟩
  · split
    · exact hp
    · split
      · omega
      · exact hk0
  · rw [hv]
    by_cases h1 : k0 = j
    · by_cases h2 : p = j
      · simp [h1, h2] at he0 ⊢; exact he0
      · simp [h1, h2] at he0 ⊢; exact he0
    · by_cases h2 : k0 = p
      · simp [h1, h2] at he0 ⊢; exact he0
      · simp [h1, h2] at he0 ⊢; exact he0
  · rintro k ⟨hk, he⟩
    rw [hv] at he
    by_cases h1 : k = j
    · rw [if_pos h1] at he
      have e := hu p ⟨hp, he⟩
      rw [← e, h1]
      by_cases h2 : p = j
      · simp [h2]
      · simp [h2]
    · rw [if_neg h1] at he
      by_cases h2 : k = p
      · rw [if_pos h2] at he
        have e := hu j ⟨by omega, he⟩
        rw [← e, h2]
        simp
      · rw [if_neg h2] at he
        have e := hu k ⟨hk, he⟩
        rw [← e]
        simp [h1, h2]

theorem une_escape_ajoute_evenement (sf sf1 : shannon_fano) (v : Int)
    (ha : ajoute_evenement sf v = some sf1) (hv : v ≠ VALEUR_ESCAPE) (h : sf.une_escape) :
    sf1.une_escape := by
  obtain ⟨hn, _, hl⟩ := ajoute_evenement_some sf sf1 v ha
  have hc : ∀ k, sf1.evenement k =
      if k < sf.evenements.length then sf.evenement k
      else if k = sf.evenements.length then { valeur := v, nb_occurrences := 1 }
      else { valeur := 0, nb_occurrences := 0 } := by
    intro k
    have := evenement_append sf.evenements { valeur := v, nb_occurrences := 1 } k
    rw [← hl] at this
    exact this
  obtain ⟨k0, ⟨hk0, he0⟩, hu⟩ := h
  have hlen : sf.nb_evenements = sf.evenements.length := rfl
  refine ⟨k0, ⟨by omega, ?_⟩, ?_⟩
  · rw [hc, if_pos (by omega)]
    exact he0
  · rintro k ⟨hk, he⟩
    rw [hc] at he
    by_cases h1 : k < sf.evenements.length
    · rw [if_pos h1] at he
      exact hu k ⟨by omega, he⟩
    · rw [if_neg h1, if_pos (by omega)] at he
      exact absurd he hv

theorem une_escape_put_entier_shannon_fano (sf sf2 : shannon_fano) (v : Int)
    (bits : List Bool) (h : sf.une_escape) (hv : v ≠ VALEUR_ESCAPE)
    (hp : put_entier_shannon_fano sf v = some (bits, sf2)) : sf2.une_escape := by
  unfold put_entier_shannon_fano at hp
  cases hpos : trouve_position sf v with
  | none => simp [hpos] at hp
  | some pos =>
    have hlt := (trouve_position_some sf v pos hpos).1
    cases henc : encode_position sf pos with
    | none => simp [hpos, henc] at hp
    | some b =>
      simp only [hpos, henc] at hp
      split at hp
      · cases ha : ajoute_evenement sf v with
        | none => simp [ha] at hp
        | some sf1 =>
          simp only [ha, Option.some.injEq, Prod.mk.injEq] at hp
          rw [← hp.2]
          have hn := (ajoute_evenement_some sf sf1 v ha).1
          exact une_escape_incremente_et_ordonne sf1 pos (by omega)
            (une_escape_ajoute_evenement sf sf1 v ha hv h)
      · simp only [Option.some.injEq, Prod.mk.injEq] at hp
        rw [← hp.2]
        exact une_escape_incremente_et_ordonne sf pos hlt h

theorem une_escape_get_entier_shannon_fano (sf sf2 : shannon_fano) (bs reste : List Bool)
    (v : Int) (h : sf.une_escape) (hv : v ≠ VALEUR_ESCAPE)
    (hg : get_entier_shannon_fano sf bs = some (v, sf2, reste)) : sf2.une_escape := by
  have hn : 1 ≤ sf.nb_evenements := by
    obtain ⟨k0, ⟨hk0, _⟩, _⟩ := h
    omega
  unfold get_entier_shannon_fano at hg
  cases hd : decode_position sf bs with
  | none => simp [hd] at hg
  | some r =>
    obtain ⟨p, bs1⟩ := r
    have hb := decode_position_boucle_borne sf _ _ _ _ _ _ (Nat.zero_le _) hd
    have hlt : p < sf.nb_evenements := by omega
    simp only [hd] at hg
    split at hg
    · cases hgb : get_bits 32 bs1 with
      | none => simp [hgb] at hg
      | some r2 =>
        obtain ⟨u, bs2⟩ := r2
        cases ha : ajoute_evenement sf (vers_int u) with
        | none => simp [hgb, ha] at hg
        | some sf1 =>
          simp only [hgb, ha, Option.some.injEq, Prod.mk.injEq] at hg
          obtain ⟨e1, e2, _⟩ := hg
          rw [← e2]
          have hn1 := (ajoute_evenement_some sf sf1 _ ha).1
          exact une_escape_incremente_et_ordonne sf1 p (by omega)
            (une_escape_ajoute_evenement sf sf1 _ ha (by rw [e1]; exact hv) h)
    · simp only [Option.some.injEq, Prod.mk.injEq] at hg
      rw [← hg.2.1]
      exact une_escape_incremente_et_ordonne sf p hlt h

theorem une_escape_applique_suite_valeurs (suite : List appel) :
    ∀ (sf sf2 : shannon_fano) (valeurs : List Int), sf.une_escape →
      applique_suite_valeurs sf suite = some (sf2, valeurs) →
      (∀ v ∈ valeurs, v ≠ VALEUR_ESCAPE) → sf2.une_escape := by
  induction suite with
  | nil =>
    intro sf sf2 valeurs h hs _
    simp only [applique_suite_valeurs, Option.some.injEq, Prod.mk.injEq] at hs
    rw [← hs.1]
    exact h
  | cons a suite ih =>
    intro sf sf2 valeurs h hs hv
    simp only [applique_suite_valeurs] at hs
    cases ha : a.applique_valeur sf with
    | none => simp [ha] at hs
    | some r =>
      obtain ⟨sf1, v⟩ := r
      simp only [ha] at hs
      cases hr : applique_suite_valeurs sf1 suite with
      | none => simp [hr] at hs
      | some r2 =>
        obtain ⟨sf3, vs⟩ := r2
        simp only [hr, Option.some.injEq, Prod.mk.injEq] at hs
        obtain ⟨e1, e2⟩ := hs
        subst e1
        subst e2
        have hv1 : v ≠ VALEUR_ESCAPE := hv v (List.mem_cons_self _ _)
        have h1 : sf1.une_escape := by
          cases a with
          | put x =>
            simp only [appel.applique_valeur, Option.map_eq_some', Prod.mk.injEq] at ha
            obtain ⟨⟨bits, t⟩, hp, e1, e2⟩ := ha
            simp only at e1 e2
            subst e1
            subst e2
            exact une_escape_put_entier_shannon_fano sf _ _ bits h hv1 hp
          | get bs =>
            simp only [appel.applique_valeur, Option.map_eq_some', Prod.mk.injEq] at ha
            obtain ⟨⟨w, t, reste⟩, hg, e1, e2⟩ := ha
            simp only at e1 e2
            subst e1
            subst e2
            exact une_escape_get_entier_shannon_fano sf _ bs reste _ h hv1 hg
        exact ih sf1 sf3 vs h1 hr (fun x hx => hv x (List.mem_cons_of_mem _ hx))


/-! ## Proofs: adaptive Shannon-Fano, length of the codes -/

theorem encode_position_boucle_longueur (sf : shannon_fano) (position : Nat) (n : Nat) :
    ∀ (posmin posmax : Nat) (bits : List Bool), posmin ≤ posmax →
      encode_position_boucle sf position n posmin posmax = some bits →
      bits.length ≤ posmax - posmin := by
  induction n with
  | zero =>
    intro posmin posmax bits _ h
    simp only [encode_position_boucle] at h
    split at h
    · exact absurd h (by simp)
    · simp only [Option.some.injEq] at h
      subst h
      simp
  | succ n ih =>
    intro posmin posmax bits h1 h
    simp only [encode_position_boucle] at h
    by_cases hc : posmin = posmax
    · simp only [hc, ne_eq, not_true_eq_false, if_false, Option.some.injEq] at h
      subst h
      simp
    · have hb := trouve_separation_borne sf posmin posmax (by omega)
      simp only [ne_eq, hc, not_false_eq_true, if_true] at h
      split at h
      · simp only [Option.map_eq_some'] at h
        obtain ⟨b, hb2, e⟩ := h
        subst e
        have := ih _ _ _ hb.1 hb2
        simp only [put_bit, List.singleton_append, List.length_cons]
        omega
      · simp only [Option.map_eq_some'] at h
        obtain ⟨b, hb2, e⟩ := h
        subst e
        have := ih _ _ _ (by omega) hb2
        simp only [put_bit, List.singleton_append, List.length_cons]
        omega

/-- Every range recorded by `encode_position_etapes` holds the position and
lies inside the starting range. -/
theorem encode_position_etapes_borne (sf : shannon_fano) (position : Nat) (n : Nat) :
    ∀ (posmin posmax : Nat), posmin ≤ position → position ≤ posmax →
      ∀ r ∈ encode_position_etapes sf position n posmin posmax,
        posmin ≤ r.1 ∧ r.1 ≤ position ∧ position ≤ r.2 ∧ r.2 ≤ posmax := by
  induction n with
  | zero =>
    intro posmin posmax h1 h2 r hr
    simp only [encode_position_etapes, List.mem_singleton] at hr
    subst hr
    simp [h1, h2]
  | succ n ih =>
    intro posmin posmax h1 h2 r hr
    simp only [encode_position_etapes] at hr
    by_cases hc : posmin = posmax
    · simp only [hc, ne_eq, not_true_eq_false, if_false, List.mem_singleton] at hr
      subst hr
      simp only [le_refl, and_true, true_and]
      omega
    · have hb := trouve_separation_borne sf posmin posmax (by omega)
      simp only [ne_eq, hc, not_false_eq_true, if_true] at hr
      split at hr
      · rename_i hp
        rcases List.mem_cons.1 hr with e | hr2
        · subst e
          simp [h1, h2]
        · have := ih _ _ h1 hp r hr2
          omega
      · rename_i hp
        rcases List.mem_cons.1 hr with e | hr2
        · subst e
          simp [h1, h2]
        · have := ih _ _ (by omega) h2 r hr2
          omega

/-- The instrumented loop makes one test more than the loop writes bits. -/
theorem encode_position_etapes_longueur (sf : shannon_fano) (position : Nat) (n : Nat) :
    ∀ (posmin posmax : Nat) (bits : List Bool),
      encode_position_boucle sf position n posmin posmax = some bits →
      (encode_position_etapes sf position n posmin posmax).length = bits.length + 1 := by
  induction n with
  | zero =>
    intro posmin posmax bits h
    simp only [encode_position_boucle] at h
    split at h
    · exact absurd h (by simp)
    · simp only [Option.some.injEq] at h
      subst h
      simp [encode_position_etapes]
  | succ n ih =>
    intro posmin posmax bits h
    simp only [encode_position_boucle] at h
    simp only [encode_position_etapes]
    by_cases hc : posmin = posmax
    · simp only [hc, ne_eq, not_true_eq_false, if_false, Option.some.injEq] at h
      subst h
      simp [hc]
    · simp only [ne_eq, hc, not_false_eq_true, if_true] at h ⊢
      split at h
      · rename_i hp
        simp only [Option.map_eq_some'] at h
        obtain ⟨b, hb2, e⟩ := h
        subst e
        simp [hp, ih _ _ _ hb2, put_bit]
      · rename_i hp
        simp only [Option.map_eq_some'] at h
        obtain ⟨b, hb2, e⟩ := h
        subst e
        simp [hp, ih _ _ _ hb2, put_bit]

/-- The loop of `decode_position` returns as soon as the stream holds
`max - min` bits, and it reads at most that many. -/
theorem decode_position_boucle_lit (sf : shannon_fano) (n : Nat) :
    ∀ (min max : Nat) (bs : List Bool), min ≤ max → max - min ≤ n → max - min ≤ bs.length →
      ∃ p k, decode_position_boucle sf n min max bs = some (p, bs.drop k) ∧
        k ≤ max - min ∧ min ≤ p ∧ p ≤ max := by
  induction n with
  | zero =>
    intro min max bs h1 h2 _
    have : min = max := by omega
    subst this
    exact ⟨min, 0, by simp [decode_position_boucle], by omega, le_refl _, le_refl _⟩
  | succ n ih =>
    intro min max bs h1 h2 h3
    by_cases hc : min = max
    · subst hc
      exact ⟨min, 0, by simp [decode_position_boucle], by omega, le_refl _, le_refl _⟩
    · have hb := trouve_separation_borne sf min max (by omega)
      cases bs with
      | nil => simp only [List.length_nil] at h3; omega
      | cons b reste =>
        simp only [List.length_cons] at h3
        cases b with
        | true =>
          obtain ⟨p, k, e, hk, hp1, hp2⟩ := ih (trouve_separation sf min max + 1) max reste
            (by omega) (by omega) (by omega)
          refine ⟨p, k + 1, ?_, by omega, by omega, hp2⟩
          simp [decode_position_boucle, hc, get_bit, e]
        | false =>
          obtain ⟨p, k, e, hk, hp1, hp2⟩ := ih min (trouve_separation sf min max) reste
            hb.1 (by omega) (by omega)
          refine ⟨p, k + 1, ?_, by omega, hp1, by omega⟩
          simp [decode_position_boucle, hc, get_bit, e]

/-- What the loop of `decode_position` leaves unread is the stream without
its first bits, at most `max - min` of them. -/
theorem decode_position_boucle_reste (sf : shannon_fano) (n : Nat) :
    ∀ (min max : Nat) (bs : List Bool) (p : Nat) (reste : List Bool), min ≤ max →
      decode_position_boucle sf n min max bs = some (p, reste) →
      ∃ k, k ≤ max - min ∧ reste = bs.drop k := by
  induction n with
  | zero =>
    intro min max bs p reste _ h
    simp only [decode_position_boucle] at h
    split at h
    · exact absurd h (by simp)
    · simp only [Option.some.injEq, Prod.mk.injEq] at h
      exact ⟨0, by omega, by simp [h.2]⟩
  | succ n ih =>
    intro min max bs p reste h1 h
    by_cases hc : min = max
    · simp only [decode_position_boucle, hc, ne_eq, not_true_eq_false, if_false,
        Option.some.injEq, Prod.mk.injEq] at h
      exact ⟨0, by omega, by simp [h.2]⟩
    · have hb := trouve_separation_borne sf min max (by omega)
      cases bs with
      | nil => simp [decode_position_boucle, hc, get_bit] at h
      | cons b r =>
        cases b with
        | true =>
          simp only [decode_position_boucle, ne_eq, hc, not_false_eq_true, if_true,
            get_bit] at h
          obtain ⟨k, hk, e⟩ := ih _ _ _ _ _ (by omega) h
          exact ⟨k + 1, by omega, by simp [e]⟩
        | false =>
          simp only [decode_position_boucle, ne_eq, hc, not_false_eq_true, if_true,
            get_bit] at h
          obtain ⟨k, hk, e⟩ := ih _ _ _ _ _ hb.1 h
          exact ⟨k + 1, by omega, by simp [e]⟩

theorem trouve_position_open (v : Int) : trouve_position open_shannon_fano v = some 0 := by
  unfold trouve_position open_shannon_fano
  by_cases h : v = VALEUR_ESCAPE
  · simp [trouve_valeur, h]
  · simp [trouve_valeur, h]

theorem length_put_bits (n v : Nat) : (put_bits n v).length = n := by
  induction n with
  | zero => rfl
  | succ n ih => simp [put_bits, ih]

theorem put_entier_shannon_fano_open (v : Int) :
    put_entier_shannon_fano open_shannon_fano v =
      some (put_bits 32 (v % 2 ^ 32).toNat,
        { evenements := [{ valeur := VALEUR_ESCAPE, nb_occurrences := 2 },
          { valeur := v, nb_occurrences := 1 }] }) := by
  have e : encode_position open_shannon_fano 0 = some [] := by decide
  have a : ajoute_evenement open_shannon_fano v =
      some { evenements := [{ valeur := VALEUR_ESCAPE, nb_occurrences := 1 },
        { valeur := v, nb_occurrences := 1 }] } := by
    simp [ajoute_evenement, open_shannon_fano, shannon_fano.nb_evenements, TAILLE_EVENEMENTS]
  have hv : (open_shannon_fano.evenement 0).valeur = VALEUR_ESCAPE := by decide
  unfold put_entier_shannon_fano
  rw [trouve_position_open]
  simp only [e, hv, if_true, a, List.nil_append]
  congr 1


/-! ## Proofs: adaptive Shannon-Fano, the counts of the table -/

/-- One call of `put_entier_shannon_fano` on a value that differs from
`VALEUR_ESCAPE` keeps the counts of the table in step with the values
coded. -/
theorem compte_put_entier_shannon_fano (sf sf2 : shannon_fano) (p : List Int) (v : Int)
    (bits : List Bool) (hc : sf.compte p) (hp : ∀ x ∈ p, x ≠ VALEUR_ESCAPE)
    (hv : v ≠ VALEUR_ESCAPE) (hb : (v :: p).count v < 2147483648)
    (h : put_entier_shannon_fano sf v = some (bits, sf2)) :
    sf2.compte (v :: p) := by
  obtain ⟨r1, r2, r3, r4, r5⟩ := hc
  unfold put_entier_shannon_fano at h
  cases hpos : trouve_position sf v with
  | none => simp [hpos] at h
  | some pos =>
    obtain ⟨hlt, hcas⟩ := trouve_position_some sf v pos hpos
    cases henc : encode_position sf pos with
    | none => simp [hpos, henc] at h
    | some b =>
      simp only [hpos, henc] at h
      split at h
      · rename_i hesc
        -- the value is new: the escape event is sent and the value appended
        have hnew : ∀ e ∈ sf.evenements, e.valeur ≠ v := by
          rcases hcas with e | e
          · exact absurd (e.symm.trans hesc) hv
          · exact e.1
        have hvp : v ∉ p := by
          intro hm
          obtain ⟨k, hk, e⟩ := r5 v hm
          exact hnew _ (mem_evenements_of_lt sf k hk) e
        have hcard : (v :: p).toFinset.card = p.toFinset.card + 1 := by
          rw [List.toFinset_cons, Finset.card_insert_of_not_mem (by simpa using hvp)]
        cases ha : ajoute_evenement sf v with
        | none => simp [ha] at h
        | some sf1 =>
          simp only [ha, Option.some.injEq, Prod.mk.injEq] at h
          rw [← h.2]
          obtain ⟨a1, a2, a3⟩ := ajoute_evenement_cellule sf sf1 v ha
          have hpos1 : pos < sf1.nb_evenements := by omega
          have hval : ∀ k, k < sf.nb_evenements → (sf.evenement k).valeur ≠ v :=
            fun k hk => hnew _ (mem_evenements_of_lt sf k hk)
          refine ⟨?_, ?_, ?_, ?_, ?_⟩
          · rw [incremente_et_ordonne_nb_evenements, a1, r1, hcard]
            omega
          · refine incremente_et_ordonne_table sf1 pos hpos1 (fun e : evenement =>
              (e.valeur = VALEUR_ESCAPE ∧
                e.nb_occurrences = 1 + (((v :: p).toFinset.card : Nat) : Int)) ∨
              (e.valeur ∈ v :: p ∧ e.nb_occurrences = (((v :: p).count e.valeur : Nat) : Int))) ?_ ?_
            · intro k hk hne
              beta_reduce
              by_cases hkn : k < sf.nb_evenements
              · rw [a2 k hkn]
                rcases r2 k hkn with c | c
                · exact absurd (r3 k pos hkn hlt (c.1.trans hesc.symm)) hne
                · refine Or.inr ⟨List.mem_cons_of_mem _ c.1, ?_⟩
                  rw [List.count_cons_of_ne (hval k hkn), c.2]
              · have : k = sf.nb_evenements := by omega
                rw [this, a3]
                refine Or.inr ⟨List.mem_cons_self _ _, ?_⟩
                simp [List.count_eq_zero_of_not_mem hvp]
            · beta_reduce
              rw [a2 pos hlt]
              have hcap := (ajoute_evenement_some sf sf1 v ha).2.1
              simp only [TAILLE_EVENEMENTS] at hcap
              refine Or.inl ⟨hesc, ?_⟩
              rcases r2 pos hlt with c | c
              · simp only
                rw [tronque_int_eq _ (by rw [c.2]; omega) (by rw [c.2]; omega), c.2, hcard]
                push_cast
                ring
              · exact absurd hesc (hp _ c.1)
          · apply incremente_et_ordonne_injective sf1 pos hpos1
            intro i j hi hj e
            by_cases hin : i < sf.nb_evenements
            · by_cases hjn : j < sf.nb_evenements
              · rw [a2 i hin, a2 j hjn] at e
                exact r3 i j hin hjn e
              · have : j = sf.nb_evenements := by omega
                rw [this, a3, a2 i hin] at e
                exact absurd e (hval i hin)
            · have hi2 : i = sf.nb_evenements := by omega
              by_cases hjn : j < sf.nb_evenements
              · rw [hi2, a3, a2 j hjn] at e
                exact absurd e.symm (hval j hjn)
              · omega
          · apply incremente_et_ordonne_existe sf1 pos hpos1
            exact ⟨pos, hpos1, by rw [a2 pos hlt]; exact hesc⟩
          · intro x hx
            apply incremente_et_ordonne_existe sf1 pos hpos1
            rcases List.mem_cons.1 hx with e | hx2
            · exact ⟨sf.nb_evenements, by omega, by rw [a3, e]⟩
            · obtain ⟨k, hk, e⟩ := r5 x hx2
              exact ⟨k, by omega, by rw [a2 k hk]; exact e⟩
      · rename_i hesc
        -- the value is in the table, at `pos`
        simp only [Option.some.injEq, Prod.mk.injEq] at h
        rw [← h.2]
        have hvpos : (sf.evenement pos).valeur = v := by
          rcases hcas with e | e
          · exact e
          · exact absurd e.2 hesc
        have hvp : v ∈ p := by
          rcases r2 pos hlt with c | c
          · exact absurd c.1 hesc
          · rw [← hvpos]; exact c.1
        have hcard : (v :: p).toFinset.card = p.toFinset.card := by
          rw [List.toFinset_cons, Finset.insert_eq_of_mem (by simpa using hvp)]
        refine ⟨?_, ?_, ?_, ?_, ?_⟩
        · rw [incremente_et_ordonne_nb_evenements, r1, hcard]
        · refine incremente_et_ordonne_table sf pos hlt (fun e : evenement =>
              (e.valeur = VALEUR_ESCAPE ∧
                e.nb_occurrences = 1 + (((v :: p).toFinset.card : Nat) : Int)) ∨
              (e.valeur ∈ v :: p ∧ e.nb_occurrences = (((v :: p).count e.valeur : Nat) : Int))) ?_ ?_
          · intro k hk hne
            beta_reduce
            rcases r2 k hk with c | c
            · exact Or.inl ⟨c.1, by rw [c.2, hcard]⟩
            · refine Or.inr ⟨List.mem_cons_of_mem _ c.1, ?_⟩
              have : (sf.evenement k).valeur ≠ v := by
                intro e
                exact hne (r3 k pos hk hlt (e.trans hvpos.symm))
              rw [List.count_cons_of_ne this, c.2]
          · beta_reduce
            refine Or.inr ⟨by rw [hvpos]; exact List.mem_cons_self _ _, ?_⟩
            rcases r2 pos hlt with c | c
            · exact absurd c.1 hesc
            · simp only [hvpos] at c ⊢
              rw [List.count_cons_self] at hb ⊢
              rw [tronque_int_eq _ (by rw [c.2]; omega) (by rw [c.2]; omega), c.2]
              push_cast
              ring
        · exact incremente_et_ordonne_injective sf pos hlt r3
        · exact incremente_et_ordonne_existe sf pos hlt _ r4
        · intro x hx
          apply incremente_et_ordonne_existe sf pos hlt
          rcases List.mem_cons.1 hx with e | hx2
          · exact ⟨pos, hlt, by rw [hvpos, e]⟩
          · exact r5 x hx2


/-- The call returns when the value is already in the table, full or not. -/
theorem put_entier_shannon_fano_present (sf : shannon_fano) (v : Int) (hv : v ≠ VALEUR_ESCAPE)
    (h : ∃ k, k < sf.nb_evenements ∧ (sf.evenement k).valeur = v) :
    ∃ bits sf2, put_entier_shannon_fano sf v = some (bits, sf2) := by
  obtain ⟨k, hk, e⟩ := h
  have hpos : ∃ pos, trouve_position sf v = some pos := by
    unfold trouve_position
    split
    · exact ⟨_, rfl⟩
    · rename_i hq
      exact absurd e ((trouve_valeur_none _ _ _).1 hq _ (mem_evenements_of_lt sf k hk))
  obtain ⟨pos, hpos⟩ := hpos
  obtain ⟨_, hcas⟩ := trouve_position_some sf v pos hpos
  have hvpos : (sf.evenement pos).valeur = v := by
    rcases hcas with c | c
    · exact c
    · exact absurd e (c.1 _ (mem_evenements_of_lt sf k hk))
  obtain ⟨b, hb⟩ := encode_position_some sf pos
  unfold put_entier_shannon_fano
  simp only [hpos, hb]
  rw [if_neg (by rw [hvpos]; exact hv)]
  exact ⟨_, _, rfl⟩

/-- Coding a sequence of values that differ from `VALEUR_ESCAPE`, from a table
that counts the values of `p`: the calls return while the distinct values fit
in the array, and the table reached counts the values coded and those
of `p`. -/
theorem compte_applique_suite (s : List Int) :
    ∀ (sf : shannon_fano) (p : List Int), sf.compte p → (∀ x ∈ p, x ≠ VALEUR_ESCAPE) →
      (∀ x ∈ s, x ≠ VALEUR_ESCAPE) → (∀ x, (s.reverse ++ p).count x < 2147483648) →
      ((s.reverse ++ p).toFinset.card < TAILLE_EVENEMENTS →
        ∃ sf2, applique_suite sf (s.map appel.put) = some sf2) ∧
      ∀ sf2, applique_suite sf (s.map appel.put) = some sf2 → sf2.compte (s.reverse ++ p) := by
  induction s with
  | nil =>
    intro sf p hc _ _ _
    refine ⟨fun _ => ⟨sf, rfl⟩, ?_⟩
    intro sf2 h
    simp only [List.map_nil, applique_suite, Option.some.injEq] at h
    rw [← h]
    simpa using hc
  | cons v s ih =>
    intro sf p hc hp hs hocc
    have hv : v ≠ VALEUR_ESCAPE := hs v (List.mem_cons_self _ _)
    have hs2 : ∀ x ∈ s, x ≠ VALEUR_ESCAPE := fun x hx => hs x (List.mem_cons_of_mem _ hx)
    have hp2 : ∀ x ∈ v :: p, x ≠ VALEUR_ESCAPE := by
      intro x hx
      rcases List.mem_cons.1 hx with e | hx2
      · rw [e]; exact hv
      · exact hp x hx2
    have hl : (v :: s).reverse ++ p = s.reverse ++ (v :: p) := by simp
    rw [hl] at hocc ⊢
    have hb : (v :: p).count v < 2147483648 := by
      have := hocc v
      rw [List.count_append] at this
      omega
    constructor
    · intro hcap
      have hret : ∃ bits sf1, put_entier_shannon_fano sf v = some (bits, sf1) := by
        by_cases hm : v ∈ p
        · exact put_entier_shannon_fano_present sf v hv (hc.2.2.2.2 v hm)
        · have h1 : (v :: p).toFinset.card ≤ (s.reverse ++ (v :: p)).toFinset.card := by
            apply Finset.card_le_card
            intro x hx
            simp only [List.mem_toFinset, List.mem_append] at hx ⊢
            exact Or.inr hx
          have h2 : (v :: p).toFinset.card = p.toFinset.card + 1 := by
            rw [List.toFinset_cons, Finset.card_insert_of_not_mem (by simpa using hm)]
          obtain ⟨bits, sf1, e, _⟩ := put_entier_shannon_fano_some sf v hc.2.2.2.1
            (by rw [hc.1]; omega)
          exact ⟨bits, sf1, e⟩
      obtain ⟨bits, sf1, e⟩ := hret
      have hc1 := compte_put_entier_shannon_fano sf sf1 p v bits hc hp hv hb e
      obtain ⟨sf2, e2⟩ := (ih sf1 (v :: p) hc1 hp2 hs2 hocc).1 hcap
      refine ⟨sf2, ?_⟩
      simp only [List.map_cons, applique_suite, appel.applique, e, Option.map_some']
      exact e2
    · intro sf2 h
      simp only [List.map_cons, applique_suite, appel.applique] at h
      cases e : put_entier_shannon_fano sf v with
      | none => simp [e] at h
      | some r =>
        obtain ⟨bits, sf1⟩ := r
        simp only [e, Option.map_some'] at h
        have hc1 := compte_put_entier_shannon_fano sf sf1 p v bits hc hp hv hb e
        exact (ih sf1 (v :: p) hc1 hp2 hs2 hocc).2 sf2 h

theorem compte_open : open_shannon_fano.compte [] := by
  refine ⟨by decide, ?_, ?_, ⟨0, by decide, by decide⟩, ?_⟩
  · intro k hk
    have : k = 0 := by
      have : open_shannon_fano.nb_evenements = 1 := by decide
      omega
    subst this
    exact Or.inl ⟨by decide, by decide⟩
  · intro i j hi hj _
    have : open_shannon_fano.nb_evenements = 1 := by decide
    omega
  · intro v hv
    simp at hv


/-! ## Proofs: adaptive Shannon-Fano, a full array and a full counter -/

theorem applique_suite_append (l1 l2 : List appel) :
    ∀ (sf : shannon_fano), applique_suite sf (l1 ++ l2) =
      (applique_suite sf l1).bind (fun sf1 => applique_suite sf1 l2) := by
  induction l1 with
  | nil => intro sf; rfl
  | cons a l1 ih =>
    intro sf
    simp only [List.cons_append, applique_suite]
    cases a.applique sf with
    | none => rfl
    | some sf1 => exact ih sf1

theorem applique_suite_append_some (l1 l2 : List appel) (sf sf1 : shannon_fano)
    (h : applique_suite sf l1 = some sf1) :
    applique_suite sf (l1 ++ l2) = applique_suite sf1 l2 := by
  rw [applique_suite_append, h]
  rfl

/-- Coding a sequence has a table to show only when every call of
`put_entier_shannon_fano` returns. -/
theorem applique_suite_put_none (s : List Int) :
    ∀ (sf : shannon_fano), put_suite_shannon_fano sf s = none →
      applique_suite sf (s.map appel.put) = none := by
  induction s with
  | nil => intro sf h; simp [put_suite_shannon_fano] at h
  | cons v s ih =>
    intro sf h
    simp only [put_suite_shannon_fano] at h
    simp only [List.map_cons, applique_suite, appel.applique]
    cases hput : put_entier_shannon_fano sf v with
    | none => rfl
    | some r =>
      obtain ⟨bits, sf1⟩ := r
      simp only [hput] at h
      simp only [Option.map_some']
      apply ih sf1
      cases hs : put_suite_shannon_fano sf1 s with
      | none => rfl
      | some r2 => simp [hs] at h

/-- The 200000 distinct values `0, ..., 199999` do not fit in the array. -/
theorem applique_suite_table_pleine :
    applique_suite open_shannon_fano
      (((List.range 200000).map Int.ofNat).map appel.put) = none := by
  apply applique_suite_put_none
  rw [List.range_eq_range']
  exact put_suite_shannon_fano_plein 199999 0 open_shannon_fano invariant_open.2.1 rfl rfl
    (fun i hi => by
      have : i = 0 := by
        simp only [open_shannon_fano, shannon_fano.nb_evenements, List.length_singleton] at hi
        omega
      subst this
      exact Or.inl rfl)

/-- One more coding of the value 5 on the table `[(5, c), (ESCAPE, 2)]`. -/
theorem applique_put_5 (c : Int) :
    (appel.put 5).applique
      { evenements := [{ valeur := 5, nb_occurrences := c },
        { valeur := VALEUR_ESCAPE, nb_occurrences := 2 }] } =
      some { evenements := [{ valeur := 5, nb_occurrences := tronque_int (c + 1) },
        { valeur := VALEUR_ESCAPE, nb_occurrences := 2 }] } := by
  have hpos : trouve_position
      { evenements := [{ valeur := 5, nb_occurrences := c },
        { valeur := VALEUR_ESCAPE, nb_occurrences := 2 }] } 5 = some 0 := by
    simp [trouve_position, trouve_valeur]
  obtain ⟨bits, hbits⟩ := encode_position_some
    { evenements := [{ valeur := 5, nb_occurrences := c },
      { valeur := VALEUR_ESCAPE, nb_occurrences := 2 }] } 0
  have hval : (({ evenements := [{ valeur := 5, nb_occurrences := c },
      { valeur := VALEUR_ESCAPE, nb_occurrences := 2 }] } : shannon_fano).evenement 0).valeur ≠
      VALEUR_ESCAPE := by
    simp [shannon_fano.evenement, VALEUR_ESCAPE]
  simp only [appel.applique, put_entier_shannon_fano, hpos, hbits, if_neg hval, Option.map_some']
  simp [incremente_et_ordonne, remonte, shannon_fano.evenement]

/-- Repeated codings of the value 5 on the table `[(5, c), (ESCAPE, 2)]`,
while the count stays an `int`. -/
theorem applique_suite_repete_5 (n : Nat) :
    ∀ (c : Int), 0 ≤ c → c + (n : Int) < 2147483648 →
      applique_suite
        { evenements := [{ valeur := 5, nb_occurrences := c },
          { valeur := VALEUR_ESCAPE, nb_occurrences := 2 }] }
        ((List.replicate n (5 : Int)).map appel.put) =
        some { evenements := [{ valeur := 5, nb_occurrences := c + (n : Int) },
          { valeur := VALEUR_ESCAPE, nb_occurrences := 2 }] } := by
  induction n with
  | zero =>
    intro c _ _
    simp [applique_suite]
  | succ n ih =>
    intro c h0 h1
    rw [List.replicate_succ, List.map_cons, applique_suite, applique_put_5]
    simp only []
    rw [tronque_int_eq _ (by omega) (by push_cast at h1; omega)]
    rw [ih (c + 1) (by omega) (by push_cast at h1 ⊢; omega)]
    congr 4
    push_cast
    ring

/-- After 2^31 codings of the value 5 from the initial table, the count of the
value 5 has left the range of `int`: the table is `[(5, -2^31), (ESCAPE, 2)]`. -/
theorem applique_suite_compteur_plein :
    applique_suite open_shannon_fano
        ((List.replicate 2147483648 (5 : Int)).map appel.put) =
      some { evenements := [{ valeur := 5, nb_occurrences := -2147483648 },
        { valeur := VALEUR_ESCAPE, nb_occurrences := 2 }] } := by
  have e : (List.replicate 2147483648 (5 : Int)).map appel.put =
      (List.replicate 3 (5 : Int)).map appel.put ++
        ((List.replicate 2147483644 (5 : Int)).map appel.put ++
          (List.replicate 1 (5 : Int)).map appel.put) := by
    rw [← List.map_append, ← List.map_append, ← List.replicate_add, ← List.replicate_add]
  have h3 : applique_suite open_shannon_fano ((List.replicate 3 (5 : Int)).map appel.put) =
      some { evenements := [{ valeur := 5, nb_occurrences := 3 },
        { valeur := VALEUR_ESCAPE, nb_occurrences := 2 }] } := by
    decide
  have hn := applique_suite_repete_5 2147483644 3 (by norm_num) (by norm_num)
  have h1 : applique_suite
      { evenements := [{ valeur := 5, nb_occurrences := 3 + ((2147483644 : Nat) : Int) },
        { valeur := VALEUR_ESCAPE, nb_occurrences := 2 }] }
      ((List.replicate 1 (5 : Int)).map appel.put) =
      some { evenements := [{ valeur := 5, nb_occurrences := -2147483648 },
        { valeur := VALEUR_ESCAPE, nb_occurrences := 2 }] } := by
    rw [List.replicate_one, List.map_cons, List.map_nil, applique_suite, applique_put_5]
    simp only [applique_suite]
    congr 4
  rw [e, applique_suite_append_some _ _ _ _ h3, applique_suite_append_some _ _ _ _ hn]
  exact h1


/-! ## Proofs: one-dimensional DCT -/

theorem cellules_avant_succ (N d : Nat) :
    cellules_avant N (d + 1) = cellules_avant N d + longueur_diagonale N d := rfl

/-- One call of `zigzag` from a cell of the block other than the last one
leads to a cell of the block, the next one in the walk. -/
theorem zigzag_pas (N y x : Nat) (hy : y < N) (hx : x < N) (hl : ¬ (y = N - 1 ∧ x = N - 1)) :
    ∃ y2 x2 : Nat, zigzag (N : Int) (y : Int) (x : Int) = ((y2 : Int), (x2 : Int)) ∧
      y2 < N ∧ x2 < N ∧ rang_zigzag N y2 x2 = rang_zigzag N y x + 1 := by
  unfold zigzag
  simp only []
  split_ifs with h1 h2 h3 h4 h5
  · refine ⟨y + 1, x, by simp, by omega, hx, ?_⟩
    have e : y + 1 + x = (y + x) + 1 := by omega
    unfold rang_zigzag
    rw [e, cellules_avant_succ]
    unfold longueur_diagonale
    split_ifs <;> omega
  · refine ⟨y, x + 1, by simp, hy, by omega, ?_⟩
    have e : y + (x + 1) = (y + x) + 1 := by omega
    unfold rang_zigzag
    rw [e, cellules_avant_succ]
    unfold longueur_diagonale
    split_ifs <;> omega
  · refine ⟨y + 1, x, by simp, by omega, hx, ?_⟩
    have e : y + 1 + x = (y + x) + 1 := by omega
    unfold rang_zigzag
    rw [e, cellules_avant_succ]
    unfold longueur_diagonale
    split_ifs <;> omega
  · refine ⟨y, x + 1, by simp, hy, by omega, ?_⟩
    have e : y + (x + 1) = (y + x) + 1 := by omega
    unfold rang_zigzag
    rw [e, cellules_avant_succ]
    unfold longueur_diagonale
    split_ifs <;> omega
  · have hx0 : 1 ≤ x := by omega
    refine ⟨y + 1, x - 1, ?_, by omega, by omega, ?_⟩
    · simp only [Prod.mk.injEq]
      constructor <;> omega
    · have e : y + 1 + (x - 1) = y + x := by omega
      unfold rang_zigzag
      rw [e]
      split_ifs <;> omega
  · have hy0 : 1 ≤ y := by omega
    refine ⟨y - 1, x + 1, ?_, by omega, by omega, ?_⟩
    · simp only [Prod.mk.injEq]
      constructor <;> omega
    · have e : y - 1 + (x + 1) = y + x := by omega
      unfold rang_zigzag
      rw [e]
      split_ifs <;> omega

theorem cellules_avant_haut (N : Nat) : ∀ d, d ≤ N → 2 * cellules_avant N d = d * (d + 1) := by
  intro d
  induction d with
  | zero => intro _; rfl
  | succ d ih =>
    intro h
    have := ih (by omega)
    rw [cellules_avant_succ, longueur_diagonale, if_pos (by omega)]
    linarith

theorem cellules_avant_bas (N : Nat) :
    ∀ e, e + 1 ≤ N → 2 * cellules_avant N (N + e) + e * (e + 1) = N * (N + 1) + 2 * e * N := by
  intro e
  induction e with
  | zero =>
    intro _
    have := cellules_avant_haut N N (le_refl _)
    simp only [Nat.add_zero]
    linarith
  | succ e ih =>
    intro h
    have h1 := ih (by omega)
    have e1 : N + (e + 1) = (N + e) + 1 := by omega
    rw [e1, cellules_avant_succ, longueur_diagonale, if_neg (by omega)]
    obtain ⟨m, hm⟩ : ∃ m, N = e + 2 + m := ⟨N - (e + 2), by omega⟩
    have e2 : 2 * N - 1 - (N + e) = m + 1 := by omega
    rw [e2]
    subst hm
    nlinarith [h1]

/-- The last cell of the block has the rank `N * N - 1`. -/
theorem rang_zigzag_dernier (N : Nat) (hN : 1 ≤ N) :
    rang_zigzag N (N - 1) (N - 1) + 1 = N * N := by
  obtain ⟨m, rfl⟩ : ∃ m, N = m + 1 := ⟨N - 1, by omega⟩
  have e0 : m + 1 - 1 = m := by omega
  unfold rang_zigzag
  rw [e0]
  have hp : (m + m) % 2 ≠ 1 := by omega
  rw [if_neg hp]
  cases m with
  | zero => rfl
  | succ k =>
    have h := cellules_avant_bas (k + 2) k (by omega)
    have e1 : k + 1 + (k + 1) = k + 2 + k := by omega
    have e2 : k + 1 - (k + 2 + k - (k + 1)) = 0 := by omega
    rw [e1, e2]
    nlinarith [h]

/-- The point reached after `k` calls, for `k < N * N`, is a cell of the block
and its rank is `k`. -/
theorem zigzag_suite_rang (N : Nat) (hN : 1 ≤ N) :
    ∀ k, k < N * N → ∃ y x : Nat, zigzag_suite (N : Int) k = ((y : Int), (x : Int)) ∧
      y < N ∧ x < N ∧ rang_zigzag N y x = k := by
  intro k
  induction k with
  | zero =>
    intro _
    exact ⟨0, 0, rfl, by omega, by omega, by simp [rang_zigzag, cellules_avant]⟩
  | succ k ih =>
    intro hk
    obtain ⟨y, x, e, hy, hx, hr⟩ := ih (by omega)
    have hl : ¬ (y = N - 1 ∧ x = N - 1) := by
      rintro ⟨rfl, rfl⟩
      have := rang_zigzag_dernier N hN
      omega
    obtain ⟨y2, x2, e2, hy2, hx2, hr2⟩ := zigzag_pas N y x hy hx hl
    refine ⟨y2, x2, ?_, hy2, hx2, by omega⟩
    simp only [zigzag_suite, e]
    exact e2

/-- The walk visits every cell of the block. -/
theorem zigzag_suite_surjective (N : Nat) (hN : 1 ≤ N) (y x : Nat) (hy : y < N) (hx : x < N) :
    ∃ k, k < N * N ∧ zigzag_suite (N : Int) k = ((y : Int), (x : Int)) := by
  choose fy fx h using zigzag_suite_rang N hN
  let f : Fin (N * N) → Fin N × Fin N :=
    fun k => (⟨fy k k.2, (h k k.2).2.1⟩, ⟨fx k k.2, (h k k.2).2.2.1⟩)
  have hinj : Function.Injective f := by
    intro a b hab
    simp only [f, Prod.mk.injEq, Fin.mk.injEq] at hab
    have ha := (h a a.2).2.2.2
    have hb := (h b b.2).2.2.2
    rw [hab.1, hab.2] at ha
    exact Fin.ext (ha.symm.trans hb)
  have hbij : Function.Bijective f :=
    (Fintype.bijective_iff_injective_and_card f).2 ⟨hinj, by simp⟩
  obtain ⟨k, hk⟩ := hbij.2 (⟨y, hy⟩, ⟨x, hx⟩)
  simp only [f, Prod.mk.injEq, Fin.mk.injEq] at hk
  refine ⟨k, k.2, ?_⟩
  rw [(h k k.2).1, hk.1, hk.2]



/-! ## Static integer codes: the stated properties -/

/-- C2: for every `v` in `[0, 32767]` and every trailing bit sequence `r`,
`put_entier v` writes some bits, and `get_entier` reading those bits followed
by `r` returns `v` and leaves exactly `r` unread. -/
theorem get_entier_put_entier (v : Nat) (hv : v ≤ 32767) (r : List Bool) :
    ∃ bits, put_entier v = some bits ∧ get_entier (bits ++ r) = some (v, r) :=
  get_entier_put_entier_borne v hv r

theorem get_entier_put_entier_witness :
    7 ≤ 32767 ∧ ∃ bits, put_entier 7 = some bits ∧
      get_entier (bits ++ [true, false]) = some (7, [true, false]) :=
  ⟨by decide, get_entier_put_entier 7 (by decide) [true, false]⟩

/-- C3: for every signed `i` in `[-32768, 32767]` and every trailing bit
sequence `r`, `put_entier_signe i` writes the sign bit (0 for `i >= 0`, 1
for `i < 0`) followed by the code `m` of the magnitude (`i` itself, or
`-i-1` when `i` is negative, so -1 has magnitude 0), and `get_entier_signe`
reading these bits followed by `r` returns `i` and leaves exactly `r`. -/
theorem get_entier_signe_put_entier_signe (i : Int) (hlo : -32768 ≤ i) (hhi : i ≤ 32767)
    (r : List Bool) :
    ∃ m, put_entier (if i < 0 then (-i - 1).toNat else i.toNat) = some m ∧
      put_entier_signe i = some (decide (i < 0) :: m) ∧
      get_entier_signe (decide (i < 0) :: m ++ r) = some (i, r) := by
  by_cases hneg : i < 0
  · obtain ⟨m, hm, hg⟩ := get_entier_put_entier_borne (-i - 1).toNat (by omega) r
    refine ⟨m, by rw [if_pos hneg]; exact hm, ?_, ?_⟩
    · simp only [put_entier_signe, if_pos hneg, hm, Option.map_some', put_bit, decide_eq_true hneg,
        List.singleton_append]
    · simp only [decide_eq_true hneg, List.cons_append, get_entier_signe, get_bit, hg,
        Option.map_some']
      rw [vers_int_neg _ (by omega), Int.toNat_of_nonneg (by omega)]
      simp
  · obtain ⟨m, hm, hg⟩ := get_entier_put_entier_borne i.toNat (by omega) r
    refine ⟨m, by rw [if_neg hneg]; exact hm, ?_, ?_⟩
    · simp only [put_entier_signe, if_neg hneg, hm, Option.map_some', put_bit,
        decide_eq_false hneg, List.singleton_append]
    · simp only [decide_eq_false hneg, List.cons_append, get_entier_signe, get_bit, hg,
        Option.map_some']
      rw [vers_int_pos _ (by omega), Int.toNat_of_nonneg (by omega)]

theorem get_entier_signe_put_entier_signe_witness :
    ∃ m, put_entier (if (-1 : Int) < 0 then (-(-1 : Int) - 1).toNat else (-1 : Int).toNat) = some m ∧
      put_entier_signe (-1) = some (decide ((-1 : Int) < 0) :: m) ∧
      get_entier_signe (decide ((-1 : Int) < 0) :: m ++ [true]) = some (-1, [true]) :=
  get_entier_signe_put_entier_signe (-1) (by decide) (by decide) [true]

/-- C7: for every `v` in `[0, 32767]` with `k` significant bits (`k = 0` for
`v = 0`), `put_entier v` writes exactly `prefixes[k]` followed by the binary
digits of `v`, most significant first, without the leading 1; 0 is written
00, 1 is written 010, 7 is written 100011 (6 bits) and 16384 is written
111111 followed by fourteen 0 bits (20 bits). -/
theorem put_entier_prefixe_suffixe :
    (∀ v k : Nat, v ≤ 32767 →
      ((v = 0 ∧ k = 0) ∨ (0 < k ∧ 2 ^ (k - 1) ≤ v ∧ v < 2 ^ k)) →
      ∃ p, prefixes.get? k = some p ∧
        put_entier v = some (put_bit_string p ++ (Nat.bits v).reverse.tail)) ∧
    put_entier 0 = some [false, false] ∧
    put_entier 1 = some [false, true, false] ∧
    put_entier 7 = some [true, false, false, false, true, true] ∧
    put_entier 16384 = some ([true, true, true, true, true, true] ++ List.replicate 14 false) ∧
    ([true, true, true, true, true, true] ++ List.replicate 14 false).length = 20 := by
  refine ⟨?_, by decide, by decide, by decide, by decide, by decide⟩
  intro v k hv hk
  have hnb : nb_bits_utile v = k := nb_bits_utile_unique v k (by omega) hk
  have h15 : k ≤ 15 := hnb ▸ nb_bits_utile_le_15 v hv
  have hlen : k < prefixes.length := by
    have : prefixes.length = 16 := rfl
    omega
  refine ⟨prefixes.get ⟨k, hlen⟩, List.get?_eq_get hlen, ?_⟩
  unfold put_entier
  simp only [hnb, List.get?_eq_get hlen]
  rcases hk with ⟨h0, k0⟩ | ⟨kpos, klo, khi⟩
  · subst h0 k0
    simp
  · obtain ⟨j, rfl⟩ : ∃ j, k = j + 1 := ⟨k - 1, by omega⟩
    simp only [Nat.add_sub_cancel] at klo ⊢
    rw [put_bits_sans_tete v j klo khi]
    simp

theorem put_entier_prefixe_suffixe_witness :
    ∃ p, prefixes.get? 3 = some p ∧
      put_entier 7 = some (put_bit_string p ++ (Nat.bits 7).reverse.tail) :=
  put_entier_prefixe_suffixe.1 7 3 (by decide) (by decide)


/-! ## Wavelets: the stated properties -/

/-- C4: in exact arithmetic, for every matrix with `height >= 1` and
`width >= 1`, `ondelette_2d_inverse` applied to the result of `ondelette_2d`
gives back the original matrix: same shape and, cell for cell, the same
values. -/
theorem ondelette_2d_inverse_ondelette_2d (image : Matrice) (_hH : 1 ≤ image.height)
    (_hW : 1 ≤ image.width) :
    ondelette_2d_inverse (ondelette_2d image) = image ∧
    ∀ j i, j < image.height → i < image.width →
      (ondelette_2d_inverse (ondelette_2d image)).t j i = image.t j i := by
  have e : ondelette_2d_inverse (ondelette_2d image) = image := by
    unfold ondelette_2d_inverse ondelette_2d
    simp only []
    obtain ⟨e1, e2⟩ := ondelette_2d_boucle_height _ image.height image.width rfl image
      (allocation_matrice_float image.height image.width)
      (allocation_matrice_float image.width image.height)
      (allocation_matrice_float image.width image.height)
    rw [e1, e2]
    exact ondelette_2d_inverse_recursive_boucle _ _ _ rfl _ _ _ _
  exact ⟨e, fun j i _ _ => by rw [e]⟩

theorem ondelette_2d_inverse_ondelette_2d_witness :
    1 ≤ matrice_exemple.height ∧ 1 ≤ matrice_exemple.width ∧
    ondelette_2d_inverse (ondelette_2d matrice_exemple) = matrice_exemple :=
  ⟨by decide, by decide,
    (ondelette_2d_inverse_ondelette_2d matrice_exemple (by decide) (by decide)).1⟩

/-- C5: in exact arithmetic, for every `n >= 1` and every vector `x` of
length `n` (even or odd), `ondelette_1d_inverse` applied to `ondelette_1d x`
gives back the `n` values of `x`; `[4, 2]` gives `[3, 1]` which gives back
`[4, 2]`, and `[1, 2, 3]` gives `[3/2, 3, -1/2]` which gives back
`[1, 2, 3]`. -/
theorem ondelette_1d_round_trip :
    (∀ (n : Nat) (x s1 s2 : Ligne) (k : Nat), 1 ≤ n → k < n →
      ondelette_1d_inverse (ondelette_1d x s1 n) s2 n k = x k) ∧
    vers_liste (ondelette_1d (de_liste [4, 2]) (fun _ => 0) 2) 2 = [3, 1] ∧
    vers_liste (ondelette_1d_inverse (de_liste [3, 1]) (fun _ => 0) 2) 2 = [4, 2] ∧
    vers_liste (ondelette_1d (de_liste [1, 2, 3]) (fun _ => 0) 3) 3 = [3 / 2, 3, -1 / 2] ∧
    vers_liste (ondelette_1d_inverse (de_liste [3 / 2, 3, -1 / 2]) (fun _ => 0) 3) 3
      = [1, 2, 3] := by
  refine ⟨?_, ?_, ?_, ?_, ?_⟩
  · intro n x s1 s2 k _ hk
    exact ondelette_1d_inverse_ondelette_1d x _ s1 n (fun _ _ => rfl) s2 k hk
  all_goals
    simp [vers_liste, List.range_succ, ondelette_1d_cellule, ondelette_1d_inverse_cellule,
      de_liste]
    try norm_num

theorem ondelette_1d_round_trip_witness :
    ondelette_1d_inverse (ondelette_1d (de_liste [1, 2, 3]) (fun _ => 0) 3) (fun _ => 0) 3 2
      = de_liste [1, 2, 3] 2 :=
  ondelette_1d_round_trip.1 3 (de_liste [1, 2, 3]) (fun _ => 0) (fun _ => 0) 2
    (by decide) (by decide)

/-- C8: for every `n >= 1` and every input `x` of length `n`, `ondelette_1d`
writes the outputs `0 .. n/2 - 1` as `(x[2i] + x[2i+1]) / 2`, then, only
when `n` is odd, `x[n-1]` at index `n/2`, then the last `n/2` outputs as
`(x[2i] - x[2i+1]) / 2`, and nothing beyond index `n - 1`; `[1, 2, 3]` gives
`[3/2, 3, -1/2]`. -/
theorem ondelette_1d_sorties :
    (∀ (n : Nat) (x s : Ligne), 1 ≤ n →
      (∀ i, i < n / 2 → ondelette_1d x s n i = (x (2 * i) + x (2 * i + 1)) / 2) ∧
      (n % 2 = 1 → ondelette_1d x s n (n / 2) = x (n - 1)) ∧
      (∀ i, i < n / 2 →
        ondelette_1d x s n (n - n / 2 + i) = (x (2 * i) - x (2 * i + 1)) / 2) ∧
      (∀ k, n ≤ k → ondelette_1d x s n k = s k)) ∧
    vers_liste (ondelette_1d (de_liste [1, 2, 3]) (fun _ => 0) 3) 3 = [3 / 2, 3, -1 / 2] := by
  refine ⟨?_, ?_⟩
  · intro n x s _
    refine ⟨?_, ?_, ?_, ?_⟩
    · intro i hi
      rw [ondelette_1d_cellule, if_pos hi]
    · intro hodd
      rw [ondelette_1d_cellule, if_neg (by omega), if_pos (by omega)]
    · intro i hi
      rw [ondelette_1d_cellule, if_neg (by omega), if_neg (by omega), if_pos (by omega)]
      have : n - n / 2 + i - (n - n / 2) = i := by omega
      rw [this]
    · intro k hk
      rw [ondelette_1d_cellule, if_neg (by omega), if_neg (by omega), if_neg (by omega)]
  · simp [vers_liste, List.range_succ, ondelette_1d_cellule, de_liste]
    norm_num

theorem ondelette_1d_sorties_witness :
    ondelette_1d (de_liste [1, 2, 3]) (fun _ => 0) 3 (3 / 2) = de_liste [1, 2, 3] (3 - 1) :=
  (ondelette_1d_sorties.1 3 (de_liste [1, 2, 3]) (fun _ => 0) (by decide)).2.1 (by decide)


/-! ## Sub-band linearisation: the stated properties -/

/-- C9: for every matrix with `height >= 1` and `width >= 1`, the flat
buffer filled in the scan order of `codage_ondelette`, read back in the scan
order of `decodage_ondelette` into a matrix `m` of the same shape, gives a
matrix whose every cell equals the cell of the original matrix. -/
theorem decodage_codage_ondelette (image m : Matrice) (t : Ligne) (hH : 1 ≤ image.height)
    (hW : 1 ≤ image.width) (mh : m.height = image.height) (mw : m.width = image.width) :
    ∃ buf pt, codage_ondelette_table image t = some (buf, pt) ∧
      ∃ m2, decodage_ondelette_table m buf = some m2 ∧
        m2.height = image.height ∧ m2.width = image.width ∧
        ∀ j i, j < image.height → i < image.width → m2.t j i = image.t j i := by
  refine ⟨_, _, codage_ondelette_table_eq image t hH hW, _,
    decodage_ondelette_table_eq m _ (by omega) (by omega), ?_⟩
  rw [mh, mw]
  obtain ⟨_, e2, _⟩ := foldl_ecrit (fun c : Nat × Nat => image.t c.1 c.2)
    (ordre_sous_bandes image.height image.width) (t, 0)
  obtain ⟨_, d2, _, d4, d5⟩ := foldl_pose
    ((ordre_sous_bandes image.height image.width).foldl
      (fun s c => ecrit s (image.t c.1 c.2)) (t, 0)).1 image
    (ordre_sous_bandes image.height image.width) (m, 0) (fun k hk => e2 k hk)
  refine ⟨d4.trans mh, d5.trans mw, ?_⟩
  intro j i hj hi
  exact d2 j i ((mem_ordre_sous_bandes _ _ hH hW j i).2 ⟨hj, hi⟩)

theorem decodage_codage_ondelette_witness :
    ∃ buf pt, codage_ondelette_table matrice_exemple (fun _ => 0) = some (buf, pt) ∧
      ∃ m2, decodage_ondelette_table (allocation_matrice_float 2 3) buf = some m2 ∧
        m2.height = matrice_exemple.height ∧ m2.width = matrice_exemple.width ∧
        ∀ j i, j < matrice_exemple.height → i < matrice_exemple.width →
          m2.t j i = matrice_exemple.t j i :=
  decodage_codage_ondelette matrice_exemple (allocation_matrice_float 2 3) (fun _ => 0)
    (by decide) (by decide) rfl rfl

/-- C10: for every matrix with `height = H >= 1` and `width = W >= 1`, the
scan of `codage_ondelette` ends with its cursor on index `H*W - 1` and
leaves the buffer untouched from index `H*W` on; buffer index `k < H*W`
receives the cell number `k` of the reference order, which has `H*W`
entries, holds every cell `(j, i)` of the matrix at exactly one index, lists
at each level with active region `h x w` the cells with `j >= ceil(h/2)` or
`i >= ceil(w/2)` in row-major order, and ends with the cell `(0, 0)`. -/
theorem codage_ondelette_parcours (image : Matrice) (t : Ligne) (hH : 1 ≤ image.height)
    (hW : 1 ≤ image.width) :
    ∃ buf, codage_ondelette_table image t = some (buf, image.height * image.width - 1) ∧
      (∀ k, image.height * image.width ≤ k → buf k = t k) ∧
      (ordre_sous_bandes image.height image.width).length = image.height * image.width ∧
      (∀ k (hk : k < (ordre_sous_bandes image.height image.width).length),
        buf k = image.t (ordre_sous_bandes image.height image.width)[k].1
          (ordre_sous_bandes image.height image.width)[k].2) ∧
      (∀ j i, j < image.height → i < image.width →
        ∃! k : Nat, (ordre_sous_bandes image.height image.width)[k]? = some (j, i)) ∧
      (∀ h w, h > 1 ∨ w > 1 → ordre_sous_bandes h w =
        cellules_niveau h w ++ ordre_sous_bandes ((h + 1) / 2) ((w + 1) / 2)) ∧
      ordre_sous_bandes 1 1 = [(0, 0)] := by
  have hl := length_ordre_sous_bandes image.height image.width hH hW
  obtain ⟨_, e2, e3⟩ := foldl_ecrit (fun c : Nat × Nat => image.t c.1 c.2)
    (ordre_sous_bandes image.height image.width) (t, 0)
  refine ⟨_, codage_ondelette_table_eq image t hH hW, ?_, hl, ?_, ?_,
    ordre_sous_bandes_rec, ordre_sous_bandes_un⟩
  · intro k hk
    exact e3 k (Or.inr (by simp only [Nat.zero_add]; omega))
  · intro k hk
    have := e2 k hk
    simp only [Nat.zero_add] at this
    exact this
  · intro j i hj hi
    have hm := (mem_ordre_sous_bandes _ _ hH hW j i).2 ⟨hj, hi⟩
    obtain ⟨k, hk, e⟩ := List.getElem_of_mem hm
    refine ⟨k, ?_, ?_⟩
    · simp only []
      rw [List.getElem?_eq_getElem hk, e]
    · intro k2 h2
      obtain ⟨hk2, e2⟩ := List.getElem?_eq_some.1 h2
      exact ((nodup_ordre_sous_bandes _ _ hH hW).getElem_inj_iff).1 (e2.trans e.symm)

theorem codage_ondelette_parcours_witness :
    ∃ buf, codage_ondelette_table matrice_exemple (fun _ => 0) =
        some (buf, matrice_exemple.height * matrice_exemple.width - 1) ∧
      (∀ k, matrice_exemple.height * matrice_exemple.width ≤ k → buf k = 0) ∧
      (ordre_sous_bandes matrice_exemple.height matrice_exemple.width).length =
        matrice_exemple.height * matrice_exemple.width ∧
      (∀ k (hk : k < (ordre_sous_bandes matrice_exemple.height matrice_exemple.width).length),
        buf k = matrice_exemple.t
          (ordre_sous_bandes matrice_exemple.height matrice_exemple.width)[k].1
          (ordre_sous_bandes matrice_exemple.height matrice_exemple.width)[k].2) ∧
      (∀ j i, j < matrice_exemple.height → i < matrice_exemple.width →
        ∃! k : Nat, (ordre_sous_bandes matrice_exemple.height matrice_exemple.width)[k]?
          = some (j, i)) ∧
      (∀ h w, h > 1 ∨ w > 1 → ordre_sous_bandes h w =
        cellules_niveau h w ++ ordre_sous_bandes ((h + 1) / 2) ((w + 1) / 2)) ∧
      ordre_sous_bandes 1 1 = [(0, 0)] :=
  codage_ondelette_parcours matrice_exemple (fun _ => 0) (by decide) (by decide)


/-! ## Adaptive Shannon-Fano: the stated properties -/

/-- C1, as stated, fails on the 200000 distinct non-negative values
`0, 1, ..., 199999`: the initial event and the first 199999 values fill the
array `evenements[200000]`, and coding the last value has to write a cell
past its end. -/
theorem put_suite_shannon_fano_table_pleine :
    (∀ v ∈ (List.range 200000).map Int.ofNat, 0 ≤ v ∧ v < 2 ^ 31) ∧
    put_suite_shannon_fano open_shannon_fano ((List.range 200000).map Int.ofNat) = none := by
  constructor
  · intro v hv
    simp only [List.mem_map, List.mem_range] at hv
    obtain ⟨a, ha, rfl⟩ := hv
    simp only [Int.ofNat_eq_coe]
    omega
  · rw [List.range_eq_range']
    exact put_suite_shannon_fano_plein 199999 0 open_shannon_fano invariant_open.2.1 rfl rfl
      (fun i hi => by
        have : i = 0 := by
          simp only [open_shannon_fano, shannon_fano.nb_evenements, List.length_singleton] at hi
          omega
        subst this
        exact Or.inl rfl)

/-- C1, amended: for every finite sequence of non-negative `int`s, whenever
coding it value by value with `put_entier_shannon_fano` from the initial
table stays inside the array of 200000 events (as it does for every sequence
of fewer than 200000 values), decoding the emitted bits, followed by any
bits `r`, with `get_entier_shannon_fano` from its own initial table returns
the same sequence and leaves `r`, and the table of the decoder after each
symbol is the table of the coder after that symbol. -/
theorem get_suite_put_suite_shannon_fano (suite : List Int)
    (hs : ∀ v ∈ suite, 0 ≤ v ∧ v < 2 ^ 31) (r : List Bool) :
    (suite.length < TAILLE_EVENEMENTS →
      ∃ bits tables, put_suite_shannon_fano open_shannon_fano suite = some (bits, tables)) ∧
    ∀ bits tables, put_suite_shannon_fano open_shannon_fano suite = some (bits, tables) →
      get_suite_shannon_fano open_shannon_fano suite.length (bits ++ r)
        = some (suite, tables, r) := by
  refine ⟨?_, ?_⟩
  · intro hl
    exact put_suite_shannon_fano_some suite open_shannon_fano invariant_open.2.1 (by
      simp only [open_shannon_fano, shannon_fano.nb_evenements, List.length_singleton]
      omega)
  · intro bits tables h
    exact get_put_suite_shannon_fano suite open_shannon_fano bits tables r hs h

theorem get_suite_put_suite_shannon_fano_witness :
    (([5, 5, 5, 7, 5] : List Int).length < TAILLE_EVENEMENTS →
      ∃ bits tables,
        put_suite_shannon_fano open_shannon_fano [5, 5, 5, 7, 5] = some (bits, tables)) ∧
    ∀ bits tables,
      put_suite_shannon_fano open_shannon_fano [5, 5, 5, 7, 5] = some (bits, tables) →
      get_suite_shannon_fano open_shannon_fano ([5, 5, 5, 7, 5] : List Int).length
        (bits ++ [true]) = some ([5, 5, 5, 7, 5], tables, [true]) :=
  get_suite_put_suite_shannon_fano [5, 5, 5, 7, 5] (by decide) [true]

/-- C12, as stated, fails, and both of its bounds have to change.  On the
4 x 4 matrix of ones with quality 2 the code tests `3 > 4/2 + 1` and leaves
the cell `(3, 3)`, where the threshold of the claim, the ceiling of `4/2`,
divides it by 2, also when the next region is taken as in the code.  On the
9 x 9 matrix of ones with quality 16 the second region of the code is 5 x 5
(`9/2 + 1`) and leaves the cell `(5, 0)`, where the next region of the claim,
6 x 6 (the ceiling of `9/2`, plus 1), divides it by 2, also when the threshold
is taken as in the code. -/
theorem quantif_ondelette_plafond :
    (quantif_ondelette matrice_uns 2).t 3 3 = 1 ∧
    quantif_reference (fun h => (h + 1) / 2) (fun h => (h + 1) / 2 + 1) matrice_uns.t
      matrice_uns.height matrice_uns.width 2 3 3 = 1 / 2 ∧
    quantif_reference (fun h => (h + 1) / 2) (fun h => h / 2 + 1) matrice_uns.t
      matrice_uns.height matrice_uns.width 2 3 3 = 1 / 2 ∧
    (quantif_ondelette matrice_uns_9 16).t 5 0 = 1 ∧
    quantif_reference (fun h => (h + 1) / 2) (fun h => (h + 1) / 2 + 1) matrice_uns_9.t
      matrice_uns_9.height matrice_uns_9.width 16 5 0 = 1 / 2 ∧
    quantif_reference (fun h => h / 2 + 1) (fun h => (h + 1) / 2 + 1) matrice_uns_9.t
      matrice_uns_9.height matrice_uns_9.width 16 5 0 = 1 / 2 ∧
    (quantif_ondelette matrice_uns 2).t ≠
      quantif_reference (fun h => (h + 1) / 2) (fun h => (h + 1) / 2 + 1) matrice_uns.t
        matrice_uns.height matrice_uns.width 2 := by
  have h1 : (quantif_ondelette matrice_uns 2).t 3 3 = 1 := by
    unfold quantif_ondelette
    rw [(quantif_ondelette_boucle_cellule _ 2 rfl matrice_uns matrice_uns.height
      matrice_uns.width).2.2 3 3]
    rw [facteur_quantif, facteur_quantif]
    norm_num [matrice_uns]
  have h2 : quantif_reference (fun h => (h + 1) / 2) (fun h => (h + 1) / 2 + 1) matrice_uns.t
      matrice_uns.height matrice_uns.width 2 3 3 = 1 / 2 := by
    rw [quantif_reference, quantif_reference]
    norm_num [matrice_uns]
  have h3 : quantif_reference (fun h => (h + 1) / 2) (fun h => h / 2 + 1) matrice_uns.t
      matrice_uns.height matrice_uns.width 2 3 3 = 1 / 2 := by
    rw [quantif_reference, quantif_reference]
    norm_num [matrice_uns]
  have h4 : (quantif_ondelette matrice_uns_9 16).t 5 0 = 1 := by
    unfold quantif_ondelette
    rw [(quantif_ondelette_boucle_cellule _ 16 rfl matrice_uns_9 matrice_uns_9.height
      matrice_uns_9.width).2.2 5 0]
    rw [facteur_quantif, facteur_quantif, facteur_quantif]
    norm_num [matrice_uns_9]
  have h5 : quantif_reference (fun h => (h + 1) / 2) (fun h => (h + 1) / 2 + 1)
      matrice_uns_9.t matrice_uns_9.height matrice_uns_9.width 16 5 0 = 1 / 2 := by
    rw [quantif_reference, quantif_reference, quantif_reference]
    norm_num [matrice_uns_9]
  have h6 : quantif_reference (fun h => h / 2 + 1) (fun h => (h + 1) / 2 + 1)
      matrice_uns_9.t matrice_uns_9.height matrice_uns_9.width 16 5 0 = 1 / 2 := by
    rw [quantif_reference, quantif_reference, quantif_reference]
    norm_num [matrice_uns_9]
  refine ⟨h1, h2, h3, h4, h5, h6, ?_⟩
  intro e
  rw [e, h2] at h1
  norm_num at h1

/-- C12, amended: for every matrix with `height >= 1` and `width >= 1` and
every quality `Q`, `quantif_ondelette` equals the reference procedure that
starts from `h = H`, `w = W` and, while `Q > 1` and the region is not
`1 x 1`, divides by `Q` exactly the coefficients `(i, j)` of the `h x w`
region with `i > floor(h/2) + 1` or `j > floor(w/2) + 1`, then sets
`h := floor(h/2) + 1`, `w := floor(w/2) + 1` and `Q := Q / 8`. -/
theorem quantif_ondelette_reference (image : Matrice) (qualite : ℚ)
    (hH : 1 ≤ image.height) (hW : 1 ≤ image.width) :
    (quantif_ondelette image qualite).height = image.height ∧
    (quantif_ondelette image qualite).width = image.width ∧
    (quantif_ondelette image qualite).t =
      quantif_reference (fun h => h / 2 + 1) (fun h => h / 2 + 1) image.t
        image.height image.width qualite := by
  obtain ⟨a, b, _⟩ := quantif_ondelette_boucle_cellule _ qualite rfl image image.height
    image.width
  exact ⟨a, b, quantif_ondelette_boucle_reference _ qualite rfl image _ _ hH hW⟩

theorem quantif_ondelette_reference_witness :
    1 ≤ matrice_uns_9.height ∧ 1 ≤ matrice_uns_9.width ∧
    (quantif_ondelette matrice_uns_9 16).t =
      quantif_reference (fun h => h / 2 + 1) (fun h => h / 2 + 1) matrice_uns_9.t
        matrice_uns_9.height matrice_uns_9.width 16 ∧
    (quantif_ondelette matrice_uns_9 16).t 8 0 = 1 / 16 ∧
    (quantif_ondelette matrice_uns_9 16).t 4 0 = 1 / 2 ∧
    (quantif_ondelette matrice_uns_9 16).t 5 0 = 1 ∧
    (quantif_ondelette matrice_uns_9 16).t 0 0 = 1 := by
  have h := (quantif_ondelette_reference matrice_uns_9 16 (by decide) (by decide)).2.2
  refine ⟨by decide, by decide, h, ?_, ?_, ?_, ?_⟩
  · rw [h, quantif_reference, quantif_reference, quantif_reference]
    norm_num [matrice_uns_9]
  · rw [h, quantif_reference, quantif_reference, quantif_reference]
    norm_num [matrice_uns_9]
  · rw [h, quantif_reference, quantif_reference, quantif_reference]
    norm_num [matrice_uns_9]
  · rw [h, quantif_reference, quantif_reference, quantif_reference]
    norm_num [matrice_uns_9]


/-! ## Quantisation of a DCT block and psychoacoustic mask: the stated properties -/

/-- C16, as stated, fails for `qualite = 1431655765` on a 2 x 2 block of ones:
the step of the cell `(1, 1)`, `1 + 3 * qualite` computed on `int`, is 0 (the
product wraps to -1), so the inverse call multiplies the cell by 0 and the
block is not given back; the step is not the `1 + (i + j + 1) * qualite` of
the claim, which is 4294967296. -/
theorem quantification_pas_nul :
    (0 : Int) ≤ 1431655765 ∧
    pas_quantification 1 1 1431655765 = 0 ∧
    1 + (((1 : Nat) : Int) + ((1 : Nat) : Int) + 1) * 1431655765 = 4294967296 ∧
    (quantification 2 1431655765
      (quantification 2 1431655765 { height := 2, width := 2, t := fun _ _ => 1 } 0) 1).t 1 1
      = 0 ∧
    quantification 2 1431655765
      (quantification 2 1431655765 { height := 2, width := 2, t := fun _ _ => 1 } 0) 1 ≠
      { height := 2, width := 2, t := fun _ _ => 1 } := by
  have hp : pas_quantification 1 1 1431655765 = 0 := by decide
  have hc : (quantification 2 1431655765
      (quantification 2 1431655765 { height := 2, width := 2, t := fun _ _ => 1 } 0) 1).t 1 1
      = 0 := by
    rw [(quantification_cellule 2 1431655765 _ 1).2.2 1 1, if_pos ⟨by decide, by decide⟩,
      if_neg (by decide), hp]
    simp
  refine ⟨by decide, hp, by decide, hc, ?_⟩
  intro e
  rw [e] at hc
  norm_num at hc

/-- C16, amended: in exact arithmetic, for every `N`, every integer
`qualite >= 0` whose largest step `1 + (2N - 1) * qualite` fits in an `int`
(is below 2^31) and every block, `quantification` with `inverse != 0` applied
after `quantification` with `inverse == 0` and the same `qualite` gives back
the block; the forward call multiplies the coefficient `(i, j)` by
`1 / s(i, j)` and the inverse call by `s(i, j) = 1 + (i + j + 1) * qualite`;
with `qualite = 0` each call alone leaves the block unchanged. -/
theorem quantification_inverse_quantification (nbe : Nat) (qualite : Int) (hq : 0 ≤ qualite)
    (hmax : (2 * (nbe : Int) - 1) * qualite + 1 < 2147483648)
    (extrait : Matrice) (inverse : Int) (hinv : inverse ≠ 0) :
    quantification nbe qualite (quantification nbe qualite extrait 0) inverse = extrait ∧
    (∀ i j, i < nbe → j < nbe → (quantification nbe qualite extrait 0).t i j =
      extrait.t i j * (1 / (1 + ((i : ℚ) + (j : ℚ) + 1) * (qualite : ℚ)))) ∧
    (∀ i j, i < nbe → j < nbe → (quantification nbe qualite extrait inverse).t i j =
      extrait.t i j * (1 + ((i : ℚ) + (j : ℚ) + 1) * (qualite : ℚ))) ∧
    (qualite = 0 → quantification nbe qualite extrait 0 = extrait ∧
      quantification nbe qualite extrait inverse = extrait) := by
  have hs : ∀ i j : Nat, i < nbe → j < nbe → ((pas_quantification i j qualite : Int) : ℚ) =
      1 + ((i : ℚ) + (j : ℚ) + 1) * (qualite : ℚ) := by
    intro i j hi hj
    rw [pas_quantification_eq nbe i j qualite hq hmax hi hj]
    push_cast
    ring
  have hpos : ∀ i j : Nat, (0 : ℚ) < 1 + ((i : ℚ) + (j : ℚ) + 1) * (qualite : ℚ) := by
    intro i j
    have h1 : (0 : ℚ) ≤ (qualite : ℚ) := by exact_mod_cast hq
    have h2 : (0 : ℚ) ≤ (i : ℚ) := Nat.cast_nonneg i
    have h3 : (0 : ℚ) ≤ (j : ℚ) := Nat.cast_nonneg j
    positivity
  obtain ⟨a0, b0, c0⟩ := quantification_cellule nbe qualite extrait 0
  obtain ⟨a1, b1, c1⟩ := quantification_cellule nbe qualite extrait inverse
  obtain ⟨a2, b2, c2⟩ := quantification_cellule nbe qualite
    (quantification nbe qualite extrait 0) inverse
  have hforward : ∀ i j, i < nbe → j < nbe → (quantification nbe qualite extrait 0).t i j =
      extrait.t i j * (1 / (1 + ((i : ℚ) + (j : ℚ) + 1) * (qualite : ℚ))) := by
    intro i j hi hj
    rw [c0 i j, if_pos ⟨hi, hj⟩, if_pos rfl, hs i j hi hj]
  have hinverse : ∀ i j, i < nbe → j < nbe →
      (quantification nbe qualite extrait inverse).t i j =
      extrait.t i j * (1 + ((i : ℚ) + (j : ℚ) + 1) * (qualite : ℚ)) := by
    intro i j hi hj
    rw [c1 i j, if_pos ⟨hi, hj⟩, if_neg hinv, hs i j hi hj]
  refine ⟨?_, hforward, hinverse, ?_⟩
  · apply Matrice.egal
    · exact a2.trans a0
    · exact b2.trans b0
    · intro i j
      rw [c2 i j, c0 i j]
      by_cases h : i < nbe ∧ j < nbe
      · simp only [h, and_self, if_true, if_neg hinv, hs i j h.1 h.2]
        field_simp [ne_of_gt (hpos i j)]
      · simp only [h, if_false]
  · intro h0
    subst h0
    constructor
    · apply Matrice.egal _ _ a0 b0
      intro i j
      by_cases h : i < nbe ∧ j < nbe
      · rw [hforward i j h.1 h.2]
        simp
      · rw [c0 i j, if_neg h]
    · apply Matrice.egal _ _ a1 b1
      intro i j
      by_cases h : i < nbe ∧ j < nbe
      · rw [hinverse i j h.1 h.2]
        simp
      · rw [c1 i j, if_neg h]

theorem quantification_inverse_quantification_witness :
    quantification 4 3 (quantification 4 3 matrice_uns 0) 1 = matrice_uns :=
  (quantification_inverse_quantification 4 3 (by decide) (by decide) matrice_uns 1
    (by decide)).1

/-- C17, as stated, fails for `c = 1/2` on the input `[0, 8, 5, 4]`: the pair
`(1, 2)` sets `dct[1]` to 0, but `psycho` read `A1 = 8` before its inner loop
and still uses it for the pair `(1, 3)`, where it sets `dct[3]` to 0; the
reference pass, which takes the current `dct[1] = 0`, keeps `dct[3]` and
ends with `[0, 0, 0, 4]` where `psycho` ends with `[0, 0, 5, 0]`. -/
theorem psycho_A1_lu_une_fois :
    psycho 4 (de_liste [0, 8, 5, 4]) (1 / 2) = de_liste [0, 0, 5, 0] ∧
    psycho_reference 4 (de_liste [0, 8, 5, 4]) (1 / 2) = de_liste [0, 0, 0, 4] ∧
    psycho 4 (de_liste [0, 8, 5, 4]) (1 / 2) 3 ≠
      psycho_reference 4 (de_liste [0, 8, 5, 4]) (1 / 2) 3 := by
  have h1 : psycho 4 (de_liste [0, 8, 5, 4]) (1 / 2) = de_liste [0, 0, 5, 0] := by
    simp [psycho, psycho_paire, List.range', de_liste_apply, de_liste_update]
    norm_num [de_liste_apply, de_liste_update]
  have h2 : psycho_reference 4 (de_liste [0, 8, 5, 4]) (1 / 2) = de_liste [0, 0, 0, 4] := by
    rw [psycho_reference_paires]
    simp [psycho_paire, List.range_succ, List.product, de_liste_apply, de_liste_update]
    norm_num [de_liste_apply, de_liste_update]
  refine ⟨h1, h2, ?_⟩
  rw [h1, h2]
  norm_num [de_liste_apply]

/-- C17, amended: for every `nbe`, `c` and input array, `psycho` equals the
reference pass that visits every pair `1 <= F1 < F2 < nbe` (`F1` outer, `F2`
inner, both ascending), takes as `A1` the value that `dct[F1]` has when the
outer loop reaches `F1` (kept for all the pairs of this `F1`) and as `A2` the
current value of `dct[F2]` when the pair is inspected, sets `dct[F1] := 0` if
`c * |A1| < |A2 / (F2 - F1)|`, and otherwise sets `dct[F2] := 0` if
`c * |A2| < |A1 / (F2 - F1)|`. -/
theorem psycho_reference_ligne_eq (nbe : Nat) (dct : Ligne) (c : ℚ) :
    psycho nbe dct c = psycho_reference_ligne nbe dct c := by
  unfold psycho psycho_reference_ligne
  rw [filter_le_range 1 nbe]
  congr 1
  funext d F1
  have : (List.range nbe).filter (fun F2 => decide (F1 < F2)) =
      List.range' (F1 + 1) (nbe - (F1 + 1)) := filter_le_range (F1 + 1) nbe
  rw [this]
  simp only [psycho_paire_reference]

/-- C18: for every `nbe`, every `c` and every input array, `psycho` leaves
`dct[0]` unchanged; with `c = 1` and the input `[10, 1/10, 5, 1/10]` the bin 0
stays 10 and the bin 1 becomes 0. -/
theorem psycho_conserve_dct_0 :
    (∀ (nbe : Nat) (dct : Ligne) (c : ℚ), psycho nbe dct c 0 = dct 0) ∧
    psycho 4 (de_liste [10, 1 / 10, 5, 1 / 10]) 1 0 = 10 ∧
    psycho 4 (de_liste [10, 1 / 10, 5, 1 / 10]) 1 1 = 0 := by
  have h : ∀ (nbe : Nat) (dct : Ligne) (c : ℚ), psycho nbe dct c 0 = dct 0 := by
    intro nbe dct c
    unfold psycho
    apply foldl_conserve (fun d => d 0 = dct 0) _ _ _ dct rfl
    intro d F1 hF1 hd
    apply foldl_conserve (fun d2 => d2 0 = dct 0) _ _ _ d hd
    intro d2 F2 hF2 hd2
    rw [psycho_paire_zero c (d F1) F1 F2 d2 (by
      have := List.mem_range'_1.1 hF1
      omega) (by
      have := List.mem_range'_1.1 hF2
      omega)]
    exact hd2
  refine ⟨h, ?_, ?_⟩
  · rw [h]
    norm_num [de_liste_apply]
  · have e : psycho 4 (de_liste [10, 1 / 10, 5, 1 / 10]) 1 = de_liste [10, 0, 5, 0] := by
      simp [psycho, psycho_paire, List.range', de_liste_apply, de_liste_update, abs_div]
      norm_num [de_liste_apply, de_liste_update, abs_div]
    rw [e]
    norm_num [de_liste_apply]


/-! ## Discrete cosine transform: the stated properties -/

/-- C13: `trouve_separation` does not return the first index with
`2 * left >= total` over the range.  On the table reached by coding 1, 2, 3, 4
from the initial table, `[(ESCAPE,5),(1,1),(2,1),(3,1),(4,1)]`, and the range
`[1, 4]`, the code sums the counts of the whole table (9, not 4), no index
passes its test and it falls back to `position_min = 1`, where the split of
the claim is 2 (counts 2 against 2, while the split at 1 leaves 1 against 3).
On the table reached by coding 5, 7, 5, `[(ESCAPE,3),(5,2),(7,1)]`, and the
whole range `[0, 2]`, the strict test `min_tot - max_tot > 0` skips index 0
(3 against 3) and returns 1 (5 against 1), where the split of the claim
is 0. -/
theorem trouve_separation_table_entiere :
    (put_suite_shannon_fano open_shannon_fano [1, 2, 3, 4]).map (fun r => r.2.getLast?) =
      some (some table_quatre_valeurs) ∧
    somme_occurrences table_quatre_valeurs = 9 ∧
    somme_plage table_quatre_valeurs 1 4 = 4 ∧
    trouve_separation table_quatre_valeurs 1 4 = 1 ∧
    trouve_separation_reference table_quatre_valeurs 1 4 = some 2 ∧
    somme_plage table_quatre_valeurs 1 1 = 1 ∧ somme_plage table_quatre_valeurs 2 4 = 3 ∧
    somme_plage table_quatre_valeurs 1 2 = 2 ∧ somme_plage table_quatre_valeurs 3 4 = 2 ∧
    (put_suite_shannon_fano open_shannon_fano [5, 7, 5]).map (fun r => r.2.getLast?) =
      some (some { evenements := [{ valeur := VALEUR_ESCAPE, nb_occurrences := 3 },
        { valeur := 5, nb_occurrences := 2 }, { valeur := 7, nb_occurrences := 1 }] }) ∧
    trouve_separation { evenements := [{ valeur := VALEUR_ESCAPE, nb_occurrences := 3 },
        { valeur := 5, nb_occurrences := 2 }, { valeur := 7, nb_occurrences := 1 }] } 0 2 = 1 ∧
    trouve_separation_reference
      { evenements := [{ valeur := VALEUR_ESCAPE, nb_occurrences := 3 },
        { valeur := 5, nb_occurrences := 2 }, { valeur := 7, nb_occurrences := 1 }] } 0 2 =
      some 0 := by
  decide

/-- C19: `put_entier` has no test of its argument.  For 32768 the number of
useful bits is 16 and the function reads `prefixes[16]`, outside the table of
16 prefixes: the model has no result there, and nothing in the function
reports an error.  The same holds for `put_entier_signe` on 32768 and on
-32770, whose magnitudes 32768 and 32769 are passed to `put_entier` as they
are. -/
theorem put_entier_hors_table :
    nb_bits_utile 32768 = 16 ∧ prefixes.length = 16 ∧
    put_entier 32768 = none ∧ put_entier_signe 32768 = none ∧
    put_entier_signe (-32770) = none ∧
    (put_entier 32767).isSome = true ∧ (put_entier_signe (-32768)).isSome = true := by
  decide

/-- C20, as stated, fails for the value `0x7fffffff` itself: coding it from
the initial table finds the escape event, appends a new event of value
`VALEUR_ESCAPE` and leaves a table with two events of that value. -/
theorem put_entier_shannon_fano_deux_escape :
    (put_entier_shannon_fano open_shannon_fano VALEUR_ESCAPE).map (fun r => r.2) =
      some { evenements := [{ valeur := VALEUR_ESCAPE, nb_occurrences := 2 },
        { valeur := VALEUR_ESCAPE, nb_occurrences := 1 }] } ∧
    ¬ ∃! k, k < 2 ∧
      (({ evenements := [{ valeur := VALEUR_ESCAPE, nb_occurrences := 2 },
        { valeur := VALEUR_ESCAPE, nb_occurrences := 1 }] } : shannon_fano).evenement k).valeur =
        VALEUR_ESCAPE := by
  refine ⟨by decide, ?_⟩
  rintro ⟨k, _, hu⟩
  have h0 := hu 0 ⟨by decide, by decide⟩
  have h1 := hu 1 ⟨by decide, by decide⟩
  omega

/-- C20, amended: after any sequence of calls of `put_entier_shannon_fano`
and `get_entier_shannon_fano` that starts from the initial table, in which
every call returns and every value coded or decoded differs from
`VALEUR_ESCAPE`, exactly one event of the table has the value
`VALEUR_ESCAPE`. -/
theorem applique_suite_valeurs_une_escape (suite : List appel) (sf : shannon_fano)
    (valeurs : List Int)
    (hs : applique_suite_valeurs open_shannon_fano suite = some (sf, valeurs))
    (hv : ∀ v ∈ valeurs, v ≠ VALEUR_ESCAPE) :
    ∃! k, k < sf.nb_evenements ∧ (sf.evenement k).valeur = VALEUR_ESCAPE :=
  une_escape_applique_suite_valeurs suite open_shannon_fano sf valeurs une_escape_open hs hv

theorem applique_suite_valeurs_une_escape_witness :
    applique_suite_valeurs open_shannon_fano [appel.put 5, appel.get [true], appel.put 7] =
      some ({ evenements := [{ valeur := VALEUR_ESCAPE, nb_occurrences := 3 },
        { valeur := 5, nb_occurrences := 2 }, { valeur := 7, nb_occurrences := 1 }] },
        [5, 5, 7]) ∧
    ∃! k, k < ({ evenements := [{ valeur := VALEUR_ESCAPE, nb_occurrences := 3 },
        { valeur := 5, nb_occurrences := 2 },
        { valeur := 7, nb_occurrences := 1 }] } : shannon_fano).nb_evenements ∧
      (({ evenements := [{ valeur := VALEUR_ESCAPE, nb_occurrences := 3 },
        { valeur := 5, nb_occurrences := 2 },
        { valeur := 7, nb_occurrences := 1 }] } : shannon_fano).evenement k).valeur =
        VALEUR_ESCAPE :=
  ⟨by decide,
    applique_suite_valeurs_une_escape
      [appel.put 5, appel.get [true], appel.put 7] _ [5, 5, 7] (by decide) (by decide)⟩


/-! ## First symbol and length of the codes: the stated properties -/

/-- C21, as stated, fails on the first 5 of the sequence `[5, 5, 5, 7, 5]`:
on the initial table `encode_position` starts with `posmin = posmax = 0` and
writes no bit, so `put_entier_shannon_fano` writes 32 bits, not 33. -/
theorem put_entier_shannon_fano_premier_symbole :
    encode_position open_shannon_fano 0 = some [] ∧
    (put_entier_shannon_fano open_shannon_fano 5).map (fun r => r.1.length) = some 32 ∧
    (put_entier_shannon_fano open_shannon_fano 5).map (fun r => r.1.length) ≠ some 33 := by
  decide

/-- C21, amended: starting from the initial one-event table,
`put_entier_shannon_fano` on any value writes exactly 32 bits: no split bit
(the range of `encode_position` has a single position), only the 32-bit
payload that follows the escape event. -/
theorem put_entier_shannon_fano_table_initiale (v : Int) :
    trouve_position open_shannon_fano v = some 0 ∧
    encode_position open_shannon_fano 0 = some [] ∧
    (put_entier_shannon_fano open_shannon_fano v).map (fun r => r.1) =
      some (put_bits 32 (v % 2 ^ 32).toNat) ∧
    (put_entier_shannon_fano open_shannon_fano v).map (fun r => r.1.length) = some 32 := by
  refine ⟨trouve_position_open v, by decide, ?_, ?_⟩
  · rw [put_entier_shannon_fano_open]
    rfl
  · rw [put_entier_shannon_fano_open]
    simp [length_put_bits]

/-- C22, as stated, fails: after the first 5 of `[5, 5, 5, 7, 5]` the table
is `[(ESCAPE, 2), (5, 1)]`; the count incremented is the one of the escape
event, which was the event sent, and the new event enters with the count 1.
Neither `(5, 2)` nor `(ESCAPE, 1)` is in the table. -/
theorem put_entier_shannon_fano_table_premier_5 :
    (put_entier_shannon_fano open_shannon_fano 5).map (fun r => r.2.evenements) =
      some [{ valeur := VALEUR_ESCAPE, nb_occurrences := 2 },
        { valeur := 5, nb_occurrences := 1 }] ∧
    ({ valeur := 5, nb_occurrences := 2 } : evenement) ∉
      [({ valeur := VALEUR_ESCAPE, nb_occurrences := 2 } : evenement),
        { valeur := 5, nb_occurrences := 1 }] ∧
    ({ valeur := VALEUR_ESCAPE, nb_occurrences := 1 } : evenement) ∉
      [({ valeur := VALEUR_ESCAPE, nb_occurrences := 2 } : evenement),
        { valeur := 5, nb_occurrences := 1 }] := by
  decide

/-- C22, amended: after `put_entier_shannon_fano` has encoded the first
symbol of a sequence from the initial table, 5 for `[5, 5, 5, 7, 5]`, the
event table holds exactly the two events `(ESCAPE, 2)` and `(v, 1)`, in this
order, `v` being the symbol. -/
theorem put_entier_shannon_fano_table_premier_symbole (v : Int) :
    (put_entier_shannon_fano open_shannon_fano v).map (fun r => r.2) =
      some { evenements := [{ valeur := VALEUR_ESCAPE, nb_occurrences := 2 },
        { valeur := v, nb_occurrences := 1 }] } := by
  rw [put_entier_shannon_fano_open]
  rfl

/-- C26: for every table with `n >= 1` events, `trouve_separation` on a range
`lo < hi < n` returns `s` with `lo <= s < hi`; `encode_position` returns for
every position of `[0, n - 1]` after writing at most `n - 1` bits, and every
range `[posmin, posmax]` tested by its loop holds the position;
`decode_position` on any bit stream either returns a position of
`[0, n - 1]` after reading at most `n - 1` bits, or stops because the stream
ends before `n - 1` bits. -/
theorem encode_decode_position_termine (sf : shannon_fano) (hn : 1 ≤ sf.nb_evenements) :
    (∀ lo hi, lo < hi → hi < sf.nb_evenements →
      lo ≤ trouve_separation sf lo hi ∧ trouve_separation sf lo hi < hi) ∧
    (∀ position, position < sf.nb_evenements →
      ∃ bits, encode_position sf position = some bits ∧
        bits.length ≤ sf.nb_evenements - 1 ∧
        (encode_position_etapes sf position sf.nb_evenements 0
          (sf.nb_evenements - 1)).length = bits.length + 1 ∧
        ∀ r ∈ encode_position_etapes sf position sf.nb_evenements 0 (sf.nb_evenements - 1),
          r.1 ≤ position ∧ position ≤ r.2 ∧ r.2 ≤ sf.nb_evenements - 1) ∧
    (∀ bs : List Bool,
      (∃ p k, decode_position sf bs = some (p, bs.drop k) ∧ k ≤ sf.nb_evenements - 1 ∧
        p ≤ sf.nb_evenements - 1) ∨
      (decode_position sf bs = none ∧ bs.length < sf.nb_evenements - 1)) := by
  refine ⟨fun lo hi h _ => trouve_separation_borne sf lo hi h, ?_, ?_⟩
  · intro position hp
    obtain ⟨bits, hb⟩ := encode_position_some sf position
    refine ⟨bits, hb, ?_, ?_, ?_⟩
    · have := encode_position_boucle_longueur sf position _ _ _ bits (Nat.zero_le _) hb
      omega
    · exact encode_position_etapes_longueur sf position _ _ _ bits hb
    · intro r hr
      have := encode_position_etapes_borne sf position _ 0 (sf.nb_evenements - 1)
        (Nat.zero_le _) (by omega) r hr
      exact ⟨this.2.1, this.2.2.1, this.2.2.2⟩
  · intro bs
    by_cases hl : sf.nb_evenements - 1 ≤ bs.length
    · obtain ⟨p, k, e, hk, _, hp⟩ := decode_position_boucle_lit sf sf.nb_evenements 0
        (sf.nb_evenements - 1) bs (Nat.zero_le _) (by omega) (by omega)
      exact Or.inl ⟨p, k, e, by omega, hp⟩
    · cases hd : decode_position sf bs with
      | none => exact Or.inr ⟨rfl, by omega⟩
      | some r =>
        obtain ⟨p, reste⟩ := r
        obtain ⟨k, hk, e⟩ := decode_position_boucle_reste sf _ _ _ _ _ _ (Nat.zero_le _) hd
        have hp := decode_position_boucle_borne sf _ _ _ _ _ _ (Nat.zero_le _) hd
        exact Or.inl ⟨p, k, by rw [e], by omega, hp.2⟩

theorem encode_decode_position_termine_witness :
    1 ≤ table_quatre_valeurs.nb_evenements ∧
    (1 ≤ trouve_separation table_quatre_valeurs 1 4 ∧
      trouve_separation table_quatre_valeurs 1 4 < 4) ∧
    encode_position table_quatre_valeurs 4 = some [true, true, true, true] ∧
    decode_position table_quatre_valeurs [true, true, true, true, false] = some (4, [false]) :=
  ⟨by decide,
    (encode_decode_position_termine table_quatre_valeurs (by decide)).1 1 4 (by decide)
      (by decide),
    by decide, by decide⟩


/-! ## Counts of the table: the stated property -/

/-- C25, as stated, fails in two ways.  After 2^31 codings of the value 5 from
the initial table, the count of the event of value 5 is -2^31 (the `int` has
wrapped), not the 2^31 occurrences of the value.  And the 200000 distinct
values `0, ..., 199999`, all different from `VALEUR_ESCAPE`, cannot be coded:
the last call has to write past the array `evenements[200000]` and there is
no table after it. -/
theorem table_compte_compteur_plein :
    (∀ v ∈ List.replicate 2147483648 (5 : Int), v ≠ VALEUR_ESCAPE) ∧
    (List.replicate 2147483648 (5 : Int)).count 5 = 2147483648 ∧
    applique_suite open_shannon_fano
        ((List.replicate 2147483648 (5 : Int)).map appel.put) =
      some { evenements := [{ valeur := 5, nb_occurrences := -2147483648 },
        { valeur := VALEUR_ESCAPE, nb_occurrences := 2 }] } ∧
    (∀ v ∈ (List.range 200000).map Int.ofNat, v ≠ VALEUR_ESCAPE) ∧
    applique_suite open_shannon_fano
      (((List.range 200000).map Int.ofNat).map appel.put) = none := by
  refine ⟨?_, List.count_replicate_self _ _, applique_suite_compteur_plein, ?_,
    applique_suite_table_pleine⟩
  · intro v hv
    rw [List.eq_of_mem_replicate hv]
    decide
  · intro v hv
    simp only [List.mem_map, List.mem_range] at hv
    obtain ⟨a, ha, rfl⟩ := hv
    simp only [Int.ofNat_eq_coe, VALEUR_ESCAPE]
    omega

/-- C25, amended: for every finite sequence `s` of values different from
`VALEUR_ESCAPE` that has fewer than 200000 distinct values and in which no
value occurs 2^31 times or more, `put_entier_shannon_fano` encodes `s` from
the initial table, and the table then has `1 + d` events, `d` being the
number of distinct values of `s`: for each value of `s` exactly one event,
whose count is the number of occurrences of the value in `s`, and exactly one
escape event, whose count is `1 + d`; there is no other event. -/
theorem table_compte_les_valeurs (s : List Int) (hs : ∀ v ∈ s, v ≠ VALEUR_ESCAPE)
    (hcap : s.toFinset.card < TAILLE_EVENEMENTS) (hocc : ∀ v, s.count v < 2147483648) :
    ∃ sf, applique_suite open_shannon_fano (s.map appel.put) = some sf ∧
      sf.nb_evenements = 1 + s.toFinset.card ∧
      (∀ v ∈ s, ∃ k, k < sf.nb_evenements ∧
        sf.evenement k = { valeur := v, nb_occurrences := (s.count v : Int) } ∧
        ∀ i, i < sf.nb_evenements → (sf.evenement i).valeur = v → i = k) ∧
      (∃ k, k < sf.nb_evenements ∧
        sf.evenement k =
          { valeur := VALEUR_ESCAPE, nb_occurrences := 1 + (s.toFinset.card : Int) } ∧
        ∀ i, i < sf.nb_evenements → (sf.evenement i).valeur = VALEUR_ESCAPE → i = k) ∧
      ∀ k, k < sf.nb_evenements →
        (sf.evenement k).valeur = VALEUR_ESCAPE ∨ (sf.evenement k).valeur ∈ s := by
  have key := compte_applique_suite s open_shannon_fano [] compte_open (by simp) hs
    (by simpa using hocc)
  have hf : (s.reverse ++ []).toFinset = s.toFinset := by
    ext x
    simp
  obtain ⟨sf, h⟩ := key.1 (by rw [hf]; exact hcap)
  refine ⟨sf, h, ?_⟩
  obtain ⟨r1, r2, r3, r4, r5⟩ := key.2 sf h
  rw [hf] at r1 r2
  simp only [List.append_nil, List.mem_reverse, List.count_reverse] at r2 r5
  refine ⟨r1, ?_, ?_, ?_⟩
  · intro v hv
    obtain ⟨k, hk, e⟩ := r5 v hv
    refine ⟨k, hk, ?_, fun i hi ei => r3 i k hi hk (ei.trans e.symm)⟩
    rcases r2 k hk with c | c
    · exact absurd (e.symm.trans c.1) (hs v hv)
    · cases hev : sf.evenement k with
      | mk a b =>
        rw [hev] at e c
        simp only at e c
        rw [c.2, e]
  · obtain ⟨k, hk, e⟩ := r4
    refine ⟨k, hk, ?_, fun i hi ei => r3 i k hi hk (ei.trans e.symm)⟩
    rcases r2 k hk with c | c
    · cases hev : sf.evenement k with
      | mk a b =>
        rw [hev] at e c
        simp only at e c
        rw [c.2, e]
    · exact absurd e (hs _ c.1)
  · intro k hk
    rcases r2 k hk with c | c
    · exact Or.inl c.1
    · exact Or.inr c.1

theorem table_compte_les_valeurs_witness :
    (∀ v ∈ ([5, 5, 5, 7, 5] : List Int), v ≠ VALEUR_ESCAPE) ∧
    applique_suite open_shannon_fano (([5, 5, 5, 7, 5] : List Int).map appel.put) =
      some { evenements := [{ valeur := 5, nb_occurrences := 4 },
        { valeur := VALEUR_ESCAPE, nb_occurrences := 3 },
        { valeur := 7, nb_occurrences := 1 }] } ∧
    ∃ sf, applique_suite open_shannon_fano (([5, 5, 5, 7, 5] : List Int).map appel.put) =
        some sf ∧
      sf.nb_evenements = 1 + ([5, 5, 5, 7, 5] : List Int).toFinset.card :=
  ⟨by decide, by decide,
    (table_compte_les_valeurs [5, 5, 5, 7, 5] (by decide)
      (lt_of_le_of_lt (List.toFinset_card_le _) (by decide))
      (fun v => lt_of_le_of_lt (List.count_le_length v [5, 5, 5, 7, 5])
        (show ([5, 5, 5, 7, 5] : List Int).length < 2147483648 by decide))).imp
      (fun _ h => ⟨h.1, h.2.1⟩)⟩

/-! ## One-dimensional DCT: the stated property -/

/-- C24: for every block size `N >= 1`, the points reached from `(0, 0)` by
up to `N * N - 1` calls of `zigzag` stay inside `[0, N) x [0, N)`, every cell
of the block is reached exactly once, and the point after `N * N - 1` calls
is `(N - 1, N - 1)`, for even and odd `N` alike. -/
theorem zigzag_parcours (N : Nat) (hN : 1 ≤ N) :
    (∀ k, k < N * N →
      0 ≤ (zigzag_suite (N : Int) k).1 ∧ (zigzag_suite (N : Int) k).1 < (N : Int) ∧
      0 ≤ (zigzag_suite (N : Int) k).2 ∧ (zigzag_suite (N : Int) k).2 < (N : Int)) ∧
    (∀ y x : Int, 0 ≤ y → y < (N : Int) → 0 ≤ x → x < (N : Int) →
      ∃! k, k < N * N ∧ zigzag_suite (N : Int) k = (y, x)) ∧
    zigzag_suite (N : Int) (N * N - 1) = ((N : Int) - 1, (N : Int) - 1) := by
  have hr := zigzag_suite_rang N hN
  have huniq : ∀ (y x : Nat) (k : Nat), k < N * N →
      zigzag_suite (N : Int) k = ((y : Int), (x : Int)) → k = rang_zigzag N y x := by
    intro y x k hk e
    obtain ⟨y2, x2, e2, _, _, r⟩ := hr k hk
    rw [e] at e2
    simp only [Prod.mk.injEq, Nat.cast_inj] at e2
    rw [e2.1, e2.2, r]
  refine ⟨?_, ?_, ?_⟩
  · intro k hk
    obtain ⟨y, x, e, hy, hx, _⟩ := hr k hk
    rw [e]
    simp only
    omega
  · intro y x hy0 hy hx0 hx
    obtain ⟨y2, rfl⟩ := Int.eq_ofNat_of_zero_le hy0
    obtain ⟨x2, rfl⟩ := Int.eq_ofNat_of_zero_le hx0
    obtain ⟨k, hk, e⟩ := zigzag_suite_surjective N hN y2 x2 (by omega) (by omega)
    refine ⟨k, ⟨hk, e⟩, ?_⟩
    rintro k2 ⟨hk2, e2⟩
    rw [huniq y2 x2 k2 hk2 e2, huniq y2 x2 k hk e]
  · obtain ⟨k, hk, e⟩ := zigzag_suite_surjective N hN (N - 1) (N - 1) (by omega) (by omega)
    have hk2 := huniq _ _ k hk e
    have hd := rang_zigzag_dernier N hN
    have : k = N * N - 1 := by omega
    rw [← this, e]
    simp only [Prod.mk.injEq]
    constructor <;> omega

theorem zigzag_parcours_witness :
    1 ≤ 4 ∧
    zigzag_suite ((4 : Nat) : Int) (4 * 4 - 1) = (((4 : Nat) : Int) - 1, ((4 : Nat) : Int) - 1) :=
  ⟨by decide, (zigzag_parcours 4 (by decide)).2.2⟩


end Codec
